import Mathlib

/-!
# Embedded Memory Manager (buddy allocator), `emm.c`

A shallow embedding of `emm_init`, `emm_malloc` and `emm_free`.

* `mainMemory` is a byte array, modelled as a function from the byte offset to
  the byte value; `memoryControlBlock` is the array of list heads, modelled as
  a function from the order to the pointer stored in `freeList`.
* Pointers are machine addresses (natural numbers), `NULL` is `0`, and
  `Config.base` is the address of `mainMemory[0]`.
* The structure layout is the one of the 32-bit target named in `test.c`:
  `FreeListItem` is `next` (4 bytes, offset 0) then `orderedAddress`
  (2 bytes, offset 4), 8 bytes in all; `AllocationUnit.savedOrder` is the byte
  at offset 0 and `startOfMem` starts at offset 1.  Multi-byte fields are
  little-endian.
* Dereferencing a pointer that does not lie in `mainMemory`, or indexing
  `memoryControlBlock` outside `0 .. MX_Ko-1`, is undefined behaviour in C and
  is the result `Fault.invalidAccess` here.
-/

namespace EMM

/-- The constants of the program: `MX_Ks`, `MX_Ko`, and the address at which
`mainMemory` is placed. -/
structure Config where
  MX_Ks : Nat
  MX_Ko : Nat
  base : Nat
deriving DecidableEq, Repr

/-- Size of `mainMemory`: `1UL << (MX_Ks + MX_Ko - 1)`. -/
def Config.arenaSize (c : Config) : Nat := 1 <<< (c.MX_Ks + c.MX_Ko - 1)

/-- The configuration of `emm.c` (`MX_Ks = 3`, `MX_Ko = 10`), the arena placed
at address `0x10000`. -/
def sourceConfig : Config := ⟨3, 10, 0x10000⟩

/-- The example configuration of the specification (`Ks = 3`, `Ko = 4`). -/
def smallConfig : Config := ⟨3, 4, 0x10000⟩

/-- The static data of the program. -/
structure State where
  mainMemory : Nat → Nat
  memoryControlBlock : Nat → Nat

/-- Ways in which a call does not return normally. -/
inductive Fault where
  | invalidAccess
  | nonTermination
  | notLive
deriving DecidableEq, Repr

/-- Function update at one point. -/
def upd (f : Nat → Nat) (a v : Nat) : Nat → Nat := fun x => if x = a then v else f x

def rd8 (m : Nat → Nat) (a : Nat) : Nat := m a

def rd16 (m : Nat → Nat) (a : Nat) : Nat := m a + 256 * m (a + 1)

def rd32 (m : Nat → Nat) (a : Nat) : Nat :=
  m a + 256 * m (a + 1) + 65536 * m (a + 2) + 16777216 * m (a + 3)

def wr8 (m : Nat → Nat) (a v : Nat) : Nat → Nat := upd m a (v % 256)

def wr16 (m : Nat → Nat) (a v : Nat) : Nat → Nat :=
  upd (upd m a (v % 256)) (a + 1) (v / 256 % 256)

def wr32 (m : Nat → Nat) (a v : Nat) : Nat → Nat :=
  upd (upd (upd (upd m a (v % 256)) (a + 1) (v / 256 % 256))
    (a + 2) (v / 65536 % 256)) (a + 3) (v / 16777216 % 256)

/-- The `n` bytes at address `p` lie in `mainMemory`. -/
def Config.valid (c : Config) (p n : Nat) : Prop :=
  c.base ≤ p ∧ p + n ≤ c.base + c.arenaSize

instance (c : Config) (p n : Nat) : Decidable (c.valid p n) := by
  unfold Config.valid; exact inferInstance

/-- The pointer `p` points to a `FreeListItem` (8 bytes) inside `mainMemory`. -/
def Config.validItem (c : Config) (p : Nat) : Prop := c.valid p 8

instance (c : Config) (p : Nat) : Decidable (c.validItem p) := by
  unfold Config.validItem; exact inferInstance

/-- The statically initialised data: all bytes zero, all list heads `NULL`. -/
def zeroState : State := ⟨fun _ => 0, fun _ => 0⟩

/-- The function `emm_init`. -/
def emm_init (c : Config) (st : State) : Except Fault State :=
  -- memoryControlBlock[MX_Ko - 1].freeList = (FreeListItem *)mainMemory;
  let mcb := upd st.memoryControlBlock (c.MX_Ko - 1) c.base
  -- memoryControlBlock[MX_Ko - 1].freeList->next = NULL;
  if c.validItem c.base then
    .ok ⟨wr32 st.mainMemory 0 0, mcb⟩
  else .error .invalidAccess

/-- The loop `while (size != 0) { Krequired++; size >>= 1; }`; `size` is a
16-bit value, so sixteen iterations are all the loop can make. -/
def Krequired_loop : Nat → Nat → Nat → Nat
  | 0, _, K => K
  | fuel + 1, size, K =>
    if size ≠ 0 then Krequired_loop fuel (size >>> 1) ((K + 1) % 256) else K

/-- The order computed at the start of `emm_malloc`. -/
def Krequired (c : Config) (size : Nat) : Nat :=
  -- size = size + 1 - 1;
  let size := (size + 1 - 1) % 65536
  -- size >>= MX_Ks;
  let size := size >>> c.MX_Ks
  Krequired_loop 16 size 0

/-- How the inner loop of `emm_malloc` ends: with `return p`, or by its loop
condition failing (the state and `ssplit` are then those of that moment). -/
inductive SplitResult where
  | returned (st : State) (p : Nat)
  | exited (st : State) (ssplit : Nat)

/-- The inner loop `for (j = k - 1; j >= Krequired; j--)` of `emm_malloc`. -/
def splitLoop (c : Config) (Kreq blockToBeSplit : Nat) :
    Nat → Nat → State → Except Fault SplitResult
  | j, ssplit, st =>
    if j < Kreq then .ok (.exited st ssplit)
    else
      -- fli = (FreeListItem *)((uint8_t *)blockToBeSplit + ssplit);
      let fli := blockToBeSplit + ssplit
      if ¬ c.validItem fli then .error .invalidAccess
      else
        -- fli->orderedAddress = (((uint8_t *)fli - (uint8_t *)mainMemory) >> (MX_Ks + j));
        let m1 := wr16 st.mainMemory (fli - c.base + 4)
          (((fli - c.base) >>> (c.MX_Ks + j)) % 65536)
        -- fli->next = memoryControlBlock[j].freeList;
        let m2 := wr32 m1 (fli - c.base) (st.memoryControlBlock j)
        -- memoryControlBlock[j].freeList = fli;
        let mcb := upd st.memoryControlBlock j fli
        -- ssplit >>= 1;
        let ssplit := ssplit >>> 1
        if j = Kreq then
          -- mbf = (AllocationUnit *)blockToBeSplit; mbf->savedOrder = Krequired;
          if c.valid blockToBeSplit 1 then
            .ok (.returned ⟨wr8 m2 (blockToBeSplit - c.base) Kreq, mcb⟩ (blockToBeSplit + 1))
          else .error .invalidAccess
        else
          match j with
          -- j-- at 0 gives 255, and memoryControlBlock[255] is out of bounds
          | 0 => .error .invalidAccess
          | j + 1 => splitLoop c Kreq blockToBeSplit j ssplit ⟨m2, mcb⟩

/-- The outer loop `for (k = Krequired + 1; k < MX_Ko; k++)` of `emm_malloc`;
the first argument is `MX_Ko - k`, the number of iterations left. -/
def scanLoop (c : Config) (Kreq : Nat) : Nat → Nat → Nat → State → Except Fault (State × Nat)
  | 0, _, _, st => .ok (st, 0)
  | n + 1, k, ssplit, st =>
    if st.memoryControlBlock k ≠ 0 then
      -- blockToBeSplit = memoryControlBlock[k].freeList;
      let blockToBeSplit := st.memoryControlBlock k
      -- memoryControlBlock[k].freeList = (FreeListItem *)blockToBeSplit->next;
      if ¬ c.validItem blockToBeSplit then .error .invalidAccess
      else
        let mcb := upd st.memoryControlBlock k (rd32 st.mainMemory (blockToBeSplit - c.base))
        -- ssplit <<= (MX_Ks - 1 + k);
        let ssplit := (ssplit <<< (c.MX_Ks - 1 + k)) % 65536
        match splitLoop c Kreq blockToBeSplit (k - 1) ssplit ⟨st.mainMemory, mcb⟩ with
        | .error e => .error e
        | .ok (.returned st2 p) => .ok (st2, p)
        | .ok (.exited st2 ssplit2) => scanLoop c Kreq n (k + 1) ssplit2 st2
    else scanLoop c Kreq n (k + 1) ssplit st

/-- The function `emm_malloc`: the new state and the returned pointer (`0` is
`NULL`). -/
def emm_malloc (c : Config) (st : State) (size : Nat) : Except Fault (State × Nat) :=
  let Kreq := Krequired c size
  if Kreq ≥ c.MX_Ko then .ok (st, 0)
  else if st.memoryControlBlock Kreq ≠ 0 then
    -- mbf = (AllocationUnit *)memoryControlBlock[Krequired].freeList;
    let mbf := st.memoryControlBlock Kreq
    -- memoryControlBlock[Krequired].freeList = memoryControlBlock[Krequired].freeList->next;
    if ¬ c.validItem mbf then .error .invalidAccess
    else
      let mcb := upd st.memoryControlBlock Kreq (rd32 st.mainMemory (mbf - c.base))
      -- mbf->savedOrder = Krequired; return (void *)mbf->startOfMem;
      .ok (⟨wr8 st.mainMemory (mbf - c.base) Kreq, mcb⟩, mbf + 1)
  else
    scanLoop c Kreq (c.MX_Ko - (Kreq + 1)) (Kreq + 1) 1 st

/-- The loop `while (buddyfli != NULL)` of `emm_free`, searching the order-`k`
list for `orderedAddress`.  `priorfli` is `none` for
`&memoryControlBlock[k].freeList` and `some q` for `&q->next`.  The result is
`some st` when the buddy was found and unlinked, `none` when the list ended.
The loop does not write while it searches, so visiting more nodes than the
arena has bytes means the list is cyclic and the loop does not end. -/
def buddyScan (c : Config) (st : State) (k orderedAddress : Nat) :
    Nat → Nat → Option Nat → Except Fault (Option State)
  | 0, _, _ => .error .nonTermination
  | n + 1, buddyfli, priorfli =>
    if buddyfli = 0 then .ok none
    else if ¬ c.validItem buddyfli then .error .invalidAccess
    else if rd16 st.mainMemory (buddyfli - c.base + 4) = orderedAddress then
      -- *priorfli = (FreeListItem *)buddyfli->next;
      let nxt := rd32 st.mainMemory (buddyfli - c.base)
      match priorfli with
      | none => .ok (some ⟨st.mainMemory, upd st.memoryControlBlock k nxt⟩)
      | some q => .ok (some ⟨wr32 st.mainMemory (q - c.base) nxt, st.memoryControlBlock⟩)
    else
      -- priorfli = &buddyfli->next; buddyfli = buddyfli->next;
      buddyScan c st k orderedAddress n (rd32 st.mainMemory (buddyfli - c.base)) (some buddyfli)

/-- The `RETRY` loop of `emm_free`.  Every pass but the last increments `k`,
and `memoryControlBlock[k]` with `k ≥ MX_Ko` is out of bounds, so `MX_Ko + 1`
passes are all the loop can make. -/
def retry (c : Config) : Nat → State → Nat → Nat → Nat → Except Fault State
  | 0, _, _, _, _ => .error .nonTermination
  | n + 1, st, k, fli, orderedAddress =>
    if k ≥ c.MX_Ko then .error .invalidAccess
    else if st.memoryControlBlock k = 0 then
      -- fli->orderedAddress = orderedAddress; fli->next = NULL;
      -- memoryControlBlock[k].freeList = fli;
      if ¬ c.validItem fli then .error .invalidAccess
      else
        .ok ⟨wr32 (wr16 st.mainMemory (fli - c.base + 4) orderedAddress) (fli - c.base) 0,
             upd st.memoryControlBlock k fli⟩
    else
      -- orderedAddress ^= 1UL;
      let orderedAddress := (orderedAddress ^^^ 1) % 65536
      match buddyScan c st k orderedAddress (c.arenaSize + 1) (st.memoryControlBlock k) none with
      | .error e => .error e
      | .ok (some st1) =>
        -- orderedAddress >>= 1; k++;
        let orderedAddress := orderedAddress >>> 1
        let k := (k + 1) % 256
        -- fli = (FreeListItem *)((uint8_t *)mainMemory + (1UL << (MX_Ks + k)) * orderedAddress);
        let fli := c.base + ((1 <<< (c.MX_Ks + k)) * orderedAddress) % 4294967296
        retry c n st1 k fli orderedAddress
      | .ok none =>
        -- fli->orderedAddress = orderedAddress ^ 1UL; fli->next = memoryControlBlock[k].freeList;
        -- memoryControlBlock[k].freeList = fli;
        if ¬ c.validItem fli then .error .invalidAccess
        else
          .ok ⟨wr32 (wr16 st.mainMemory (fli - c.base + 4) ((orderedAddress ^^^ 1) % 65536))
                 (fli - c.base) (st.memoryControlBlock k),
               upd st.memoryControlBlock k fli⟩

/-- The function `emm_free`. -/
def emm_free (c : Config) (st : State) (ptr : Nat) : Except Fault State :=
  -- uint8_t *rawMem = (uint8_t *)ptr - 1;
  let rawMem := (ptr + 4294967295) % 4294967296
  -- uint8_t k = ((AllocationUnit *)rawMem)->savedOrder;
  if ¬ c.valid rawMem 1 then .error .invalidAccess
  else
    let k := rd8 st.mainMemory (rawMem - c.base)
    -- if (ptr == NULL) return;
    if ptr = 0 then .ok st
    else
      -- orderedAddress = (rawMem - (uint8_t *)mainMemory) >> (MX_Ks + k);
      let orderedAddress := ((rawMem - c.base) >>> (c.MX_Ks + k)) % 65536
      retry c (c.MX_Ko + 1) st k rawMem orderedAddress

/-- Every non-empty list head is the address of a block of its order that
lies inside `mainMemory`. -/
def HeadsInArena (c : Config) (st : State) : Prop :=
  ∀ k, k < c.MX_Ko → st.memoryControlBlock k ≠ 0 →
    c.valid (st.memoryControlBlock k) (2 ^ (c.MX_Ks + k))

/-- The failure condition of `emm_malloc`: the order is not configured, or no
free list from that order upwards has a block. -/
def NoBlockFor (c : Config) (st : State) (size : Nat) : Prop :=
  c.MX_Ko ≤ Krequired c size ∨
    ∀ k, Krequired c size ≤ k → k < c.MX_Ko → st.memoryControlBlock k = 0

/-! ## Observations of a state and runs of calls -/

/-- The nodes of the linked list that starts at `p`, following `next` until
`NULL`; `none` when a node lies outside the arena or the list does not end
within `fuel` nodes. -/
def walk (c : Config) (st : State) : Nat → Nat → Option (List Nat)
  | 0, _ => none
  | n + 1, p =>
    if p = 0 then some []
    else if c.validItem p then
      (walk c st n (rd32 st.mainMemory (p - c.base))).map (fun l => p :: l)
    else none

/-- The addresses of the blocks on the free list of order `k`, head first. -/
def freeList (c : Config) (st : State) (k : Nat) : Option (List Nat) :=
  walk c st (c.arenaSize + 1) (st.memoryControlBlock k)

/-- The free-list registry: the free list of every order `0 .. MX_Ko-1`. -/
def registry (c : Config) (st : State) : List (Option (List Nat)) :=
  (List.range c.MX_Ko).map (freeList c st)

/-- The registry in which only the list of order `MX_Ko - 1` is non-empty and
holds the block at arena offset 0. -/
def topRegistry (c : Config) : List (Option (List Nat)) :=
  (List.range c.MX_Ko).map (fun k => if k = c.MX_Ko - 1 then some [c.base] else some [])

/-- A call made by the user of the allocator. -/
inductive Op where
  | malloc (size : Nat)
  | free (ptr : Nat)
deriving DecidableEq, Repr

/-- The program state together with the allocations made and not yet freed,
each as the returned pointer and the requested size. -/
structure Sys where
  st : State
  live : List (Nat × Nat)

/-- One call.  A `free` of a pointer that is not live is outside the contract
of `emm_free` and ends the run with `Fault.notLive`.  The argument of
`emm_malloc` is converted to `uint16_t`. -/
def step (c : Config) (s : Sys) : Op → Except Fault Sys
  | .malloc size =>
    match emm_malloc c s.st (size % 65536) with
    | .error e => .error e
    | .ok (st, p) => .ok ⟨st, if p = 0 then s.live else (p, size % 65536) :: s.live⟩
  | .free ptr =>
    if ptr ∈ s.live.map Prod.fst then
      match emm_free c s.st ptr with
      | .error e => .error e
      | .ok st => .ok ⟨st, s.live.filter (fun a => a.1 ≠ ptr)⟩
    else .error .notLive

/-- A sequence of calls from a given state. -/
def runFrom (c : Config) : List Op → Sys → Except Fault Sys
  | [], s => .ok s
  | op :: ops, s =>
    match step c s op with
    | .error e => .error e
    | .ok s1 => runFrom c ops s1

/-- A sequence of calls made after `emm_init` on the statically initialised
data. -/
def run (c : Config) (ops : List Op) : Except Fault Sys :=
  match emm_init c zeroState with
  | .error e => .error e
  | .ok st => runFrom c ops ⟨st, []⟩

/-- The value a call returned, `d` when it did not return. -/
def outcome {α : Type} (d : α) : Except Fault α → α
  | .ok a => a
  | .error _ => d

/-- The call returned. -/
def returned {α : Type} : Except Fault α → Bool
  | .ok _ => true
  | .error _ => false

/-- What a run shows: the registry and the live allocations at its end. -/
def observe (c : Config) (r : Except Fault Sys) :
    Option (List (Option (List Nat)) × List (Nat × Nat)) :=
  match r with
  | .ok s => some (registry c s.st, s.live)
  | .error _ => none

/-- Number of blocks on the free list of order `k`. -/
def freeCount (c : Config) (st : State) (k : Nat) : Nat :=
  match freeList c st k with
  | some l => l.length
  | none => 0

/-- Bytes on the free lists: the blocks of every order times their size. -/
def freeBytes (c : Config) (st : State) : Nat :=
  Finset.sum (Finset.range c.MX_Ko) (fun k => freeCount c st k * 2 ^ (c.MX_Ks + k))

/-- The order tag of the allocation at `p`: `((AllocationUnit *)(p - 1))->savedOrder`. -/
def savedOrder (c : Config) (st : State) (p : Nat) : Nat :=
  rd8 st.mainMemory (p - 1 - c.base)

/-- Bytes in the blocks of the live allocations, by their order tags. -/
def liveBytes (c : Config) (s : Sys) : Nat :=
  (s.live.map (fun e => 2 ^ (c.MX_Ks + savedOrder c s.st e.1))).sum

/-- The payload regions of two allocations do not overlap. -/
def Apart (e1 e2 : Nat × Nat) : Prop := e1.1 + e1.2 ≤ e2.1 ∨ e2.1 + e2.2 ≤ e1.1

/-- One pass of the loop of `main` in `test.c`, with the pointers the calls
return when the arena is at `0x10000`. -/
def testOps : List Op :=
  [.malloc 178, .malloc 178, .malloc 1, .malloc 17, .malloc 18,
   .malloc 18, .malloc 17, .malloc 178, .malloc 18, .malloc 17,
   .free 65793, .free 66081, .free 66145, .free 66305, .free 66241,
   .malloc 178, .malloc 178, .malloc 1, .malloc 17, .malloc 18,
   .free 65537, .free 66305, .free 66049, .free 65793, .free 66113,
   .free 66057, .free 66177, .free 66145, .free 66209, .free 66081]

/-- The state after `emm_init` in a given configuration. -/
def initOf (c : Config) : State := outcome zeroState (emm_init c zeroState)

/-- The system at the end of a run (the initial data when the run failed). -/
def endOf (c : Config) (ops : List Op) : Sys := outcome ⟨zeroState, []⟩ (run c ops)

/-- The first of two requests of 7 bytes made after `emm_init` in the example
configuration: the state and the pointer. -/
def firstAlloc : State × Nat :=
  outcome (zeroState, 0) (emm_malloc smallConfig (initOf smallConfig) 7)

/-- The second of the two requests. -/
def secondAlloc : State × Nat :=
  outcome (zeroState, 0) (emm_malloc smallConfig firstAlloc.1 7)

/-! ## Well-formed configurations and the buddy tree -/

/-- What the types of the program ask of the constants: a `FreeListItem`
(8 bytes) fits the smallest block, there is at least one order, the arena has
at most `2^16` bytes (`uint16_t` sizes, `ssplit` and `orderedAddress`), and
`mainMemory` is an object of the 32-bit address space, not at `NULL`. -/
def Config.WF (c : Config) : Prop :=
  3 ≤ c.MX_Ks ∧ 1 ≤ c.MX_Ko ∧ c.MX_Ks + c.MX_Ko ≤ 17 ∧ 0 < c.base ∧
    c.base + c.arenaSize < 4294967296

instance (c : Config) : Decidable c.WF := by
  unfold Config.WF; exact inferInstance

/-- Size in bytes of a block of order `k`. -/
def Config.blockSize (c : Config) (k : Nat) : Nat := 2 ^ (c.MX_Ks + k)

/-- The arena offset `a` is the start of an order-`k` block of the buddy tree. -/
def IsBlock (c : Config) (a k : Nat) : Prop :=
  k < c.MX_Ko ∧ c.blockSize k ∣ a ∧ a + c.blockSize k ≤ c.arenaSize

/-- The offset of the buddy of the order-`k` block at offset `a`. -/
def buddyOf (c : Config) (a k : Nat) : Nat :=
  if (a / c.blockSize k) % 2 = 0 then a + c.blockSize k else a - c.blockSize k

/-- The offset of the order-`k+1` block that contains the order-`k` block at `a`. -/
def parentOf (c : Config) (a k : Nat) : Nat :=
  c.blockSize (k + 1) * (a / c.blockSize (k + 1))

/-- Replace the list of one order. -/
def updl (fl : Nat → List Nat) (k : Nat) (l : List Nat) : Nat → List Nat :=
  fun i => if i = k then l else fl i

/-- Sum of a weight over the blocks of one list of order `k`. -/
def lsum (w : Nat → Nat → Nat) (k : Nat) (l : List Nat) : Nat :=
  (l.map (fun a => w a k)).sum

/-- Sum of a weight over the blocks of all free lists. -/
def freeSum (c : Config) (w : Nat → Nat → Nat) (fl : Nat → List Nat) : Nat :=
  Finset.sum (Finset.range c.MX_Ko) (fun k => lsum w k (fl k))

/-- Sum of a weight over a list of blocks given as (offset, order). -/
def ownSum (w : Nat → Nat → Nat) (owned : List (Nat × Nat)) : Nat :=
  (owned.map (fun b => w b.1 b.2)).sum

/-- One when the byte at offset `x` lies in the order-`k` block at `a`, else zero. -/
def covers (c : Config) (x a k : Nat) : Nat :=
  if a ≤ x ∧ x < a + c.blockSize k then 1 else 0

/-- The buddy-tree invariant of the free lists `fl` (offsets per order) and
the blocks `owned` that are not on any list: all are blocks of the tree, every
arena byte lies in exactly one of them, their sizes add up to the arena, and
no list holds a block together with its buddy. -/
structure Inv (c : Config) (fl : Nat → List Nat) (owned : List (Nat × Nat)) : Prop where
  free_blk : ∀ k a, a ∈ fl k → IsBlock c a k
  own_blk : ∀ b, b ∈ owned → IsBlock c b.1 b.2
  cover : ∀ x, x < c.arenaSize → ownSum (covers c x) owned + freeSum c (covers c x) fl = 1
  total : ownSum (fun _ k => c.blockSize k) owned + freeSum c (fun _ k => c.blockSize k) fl
    = c.arenaSize
  nobuddy : ∀ k a, a ∈ fl k → buddyOf c a k ∉ fl k

/-- The free lists after `emm_init`: the whole arena as one block of the
highest order. -/
def initFl (c : Config) : Nat → List Nat := updl (fun _ => []) (c.MX_Ko - 1) [0]

/-- The linked list that starts at pointer `p` in memory `m` consists of the
nodes at offsets `l`, each storing its own tier-relative address of order `k`. -/
def Chain (c : Config) (m : Nat → Nat) (k : Nat) : Nat → List Nat → Prop
  | p, [] => p = 0
  | p, a :: l => p = c.base + a ∧ rd16 m (a + 4) = a >>> (c.MX_Ks + k) ∧ Chain c m k (rd32 m a) l

/-- The memory `m2` differs from `m1` at most in the 8 bytes at offset `f`. -/
def AgreeOff (m1 m2 : Nat → Nat) (f : Nat) : Prop :=
  ∀ x, x < f ∨ f + 8 ≤ x → m2 x = m1 x

/-- The free lists after the splitting cascade of `emm_malloc` on the block at
`B`: the upper half of every order `K .. j` is alone on its list. -/
def splitFl (c : Config) (fl : Nat → List Nat) (B K j : Nat) : Nat → List Nat :=
  fun i => if K ≤ i ∧ i ≤ j then [B + c.blockSize i] else fl i

/-- The state after `*priorfli = nxt` in the search loop of `emm_free`. -/
def unlinkState (c : Config) (st : State) (k : Nat) (prior : Option Nat) (nxt : Nat) : State :=
  match prior with
  | none => ⟨st.mainMemory, upd st.memoryControlBlock k nxt⟩
  | some q => ⟨wr32 st.mainMemory (q - c.base) nxt, st.memoryControlBlock⟩

/-- The value of `priorfli` after the search loop has passed the nodes `l`. -/
def lastPtr (c : Config) (prior : Option Nat) : List Nat → Option Nat
  | [] => prior
  | a :: l => lastPtr c (some (c.base + a)) l

/-- The state `st` holds the free lists `fl`, and the first byte of every
block of `owned` holds its order. -/
structure Sim (c : Config) (st : State) (fl : Nat → List Nat) (owned : List (Nat × Nat)) :
    Prop where
  chain : ∀ k, k < c.MX_Ko → Chain c st.mainMemory k (st.memoryControlBlock k) (fl k)
  saved : ∀ b, b ∈ owned → rd8 st.mainMemory b.1 = b.2

/-- The block of a live allocation (pointer, size): its arena offset and order. -/
def blockOf (c : Config) (e : Nat × Nat) : Nat × Nat := (e.1 - 1 - c.base, Krequired c e.2)

/-- The invariant of the running system: the state holds free lists that,
with the blocks of the live allocations, satisfy the buddy-tree invariant. -/
def Good (c : Config) (s : Sys) : Prop :=
  ∃ fl : Nat → List Nat,
    Sim c s.st fl (s.live.map (blockOf c)) ∧ Inv c fl (s.live.map (blockOf c)) ∧
      ∀ e, e ∈ s.live → c.base + 1 ≤ e.1 ∧ e.2 < 65536

/-! ## The loops with a record of their passes

The functions below are `emm_malloc` and `emm_free` again, line for line; in
addition they return the passes their loops made. -/

/-- The inner loop of `emm_malloc` (see `splitLoop`), with the values of `j`
of its passes, first pass first. -/
def splitLoopLog (c : Config) (Kreq blockToBeSplit : Nat) :
    Nat → Nat → State → Except Fault (SplitResult × List Nat)
  | j, ssplit, st =>
    if j < Kreq then .ok (.exited st ssplit, [])
    else
      let fli := blockToBeSplit + ssplit
      if ¬ c.validItem fli then .error .invalidAccess
      else
        let m1 := wr16 st.mainMemory (fli - c.base + 4)
          (((fli - c.base) >>> (c.MX_Ks + j)) % 65536)
        let m2 := wr32 m1 (fli - c.base) (st.memoryControlBlock j)
        let mcb := upd st.memoryControlBlock j fli
        let ssplit := ssplit >>> 1
        if j = Kreq then
          if c.valid blockToBeSplit 1 then
            .ok (.returned ⟨wr8 m2 (blockToBeSplit - c.base) Kreq, mcb⟩ (blockToBeSplit + 1), [j])
          else .error .invalidAccess
        else
          match j with
          | 0 => .error .invalidAccess
          | j + 1 =>
            match splitLoopLog c Kreq blockToBeSplit j ssplit ⟨m2, mcb⟩ with
            | .error e => .error e
            | .ok (r, log) => .ok (r, (j + 1) :: log)

/-- The outer loop of `emm_malloc` (see `scanLoop`), with the order `k` at
which it found a block and the passes of the inner loop. -/
def scanLoopLog (c : Config) (Kreq : Nat) :
    Nat → Nat → Nat → State → Except Fault ((State × Nat) × Option Nat × List Nat)
  | 0, _, _, st => .ok ((st, 0), none, [])
  | n + 1, k, ssplit, st =>
    if st.memoryControlBlock k ≠ 0 then
      let blockToBeSplit := st.memoryControlBlock k
      if ¬ c.validItem blockToBeSplit then .error .invalidAccess
      else
        let mcb := upd st.memoryControlBlock k (rd32 st.mainMemory (blockToBeSplit - c.base))
        let ssplit := (ssplit <<< (c.MX_Ks - 1 + k)) % 65536
        match splitLoopLog c Kreq blockToBeSplit (k - 1) ssplit ⟨st.mainMemory, mcb⟩ with
        | .error e => .error e
        | .ok (.returned st2 p, log) => .ok ((st2, p), some k, log)
        | .ok (.exited st2 ssplit2, _) => scanLoopLog c Kreq n (k + 1) ssplit2 st2
    else scanLoopLog c Kreq n (k + 1) ssplit st

/-- The function `emm_malloc` with its record: the new state, the returned
pointer, the order of the list the block came from (`none` on failure) and the
values of `j` of the passes of the split loop. -/
def emm_mallocLog (c : Config) (st : State) (size : Nat) :
    Except Fault ((State × Nat) × Option Nat × List Nat) :=
  let Kreq := Krequired c size
  if Kreq ≥ c.MX_Ko then .ok ((st, 0), none, [])
  else if st.memoryControlBlock Kreq ≠ 0 then
    let mbf := st.memoryControlBlock Kreq
    if ¬ c.validItem mbf then .error .invalidAccess
    else
      let mcb := upd st.memoryControlBlock Kreq (rd32 st.mainMemory (mbf - c.base))
      .ok ((⟨wr8 st.mainMemory (mbf - c.base) Kreq, mcb⟩, mbf + 1), some Kreq, [])
  else
    scanLoopLog c Kreq (c.MX_Ko - (Kreq + 1)) (Kreq + 1) 1 st

/-- One pass of the `RETRY` loop of `emm_free`: the order `k` that indexed
`memoryControlBlock`, the candidate block `fli`, and the node the pass
unlinked (`none` for the pass that puts the candidate on the list). -/
structure Pass where
  order : Nat
  block : Nat
  buddy : Option Nat
deriving DecidableEq, Repr

/-- The search loop of `emm_free` (see `buddyScan`), also giving the node it
unlinked. -/
def buddyScanLog (c : Config) (st : State) (k orderedAddress : Nat) :
    Nat → Nat → Option Nat → Except Fault (Option (State × Nat))
  | 0, _, _ => .error .nonTermination
  | n + 1, buddyfli, priorfli =>
    if buddyfli = 0 then .ok none
    else if ¬ c.validItem buddyfli then .error .invalidAccess
    else if rd16 st.mainMemory (buddyfli - c.base + 4) = orderedAddress then
      let nxt := rd32 st.mainMemory (buddyfli - c.base)
      match priorfli with
      | none => .ok (some (⟨st.mainMemory, upd st.memoryControlBlock k nxt⟩, buddyfli))
      | some q => .ok (some (⟨wr32 st.mainMemory (q - c.base) nxt, st.memoryControlBlock⟩, buddyfli))
    else
      buddyScanLog c st k orderedAddress n (rd32 st.mainMemory (buddyfli - c.base))
        (some buddyfli)

/-- The `RETRY` loop of `emm_free` (see `retry`), with its passes. -/
def retryLog (c : Config) : Nat → State → Nat → Nat → Nat → Except Fault (State × List Pass)
  | 0, _, _, _, _ => .error .nonTermination
  | n + 1, st, k, fli, orderedAddress =>
    if k ≥ c.MX_Ko then .error .invalidAccess
    else if st.memoryControlBlock k = 0 then
      if ¬ c.validItem fli then .error .invalidAccess
      else
        .ok (⟨wr32 (wr16 st.mainMemory (fli - c.base + 4) orderedAddress) (fli - c.base) 0,
              upd st.memoryControlBlock k fli⟩, [⟨k, fli, none⟩])
    else
      let orderedAddress := (orderedAddress ^^^ 1) % 65536
      match buddyScanLog c st k orderedAddress (c.arenaSize + 1) (st.memoryControlBlock k)
          none with
      | .error e => .error e
      | .ok (some (st1, node)) =>
        let orderedAddress := orderedAddress >>> 1
        let k1 := (k + 1) % 256
        let fli1 := c.base + ((1 <<< (c.MX_Ks + k1)) * orderedAddress) % 4294967296
        match retryLog c n st1 k1 fli1 orderedAddress with
        | .error e => .error e
        | .ok (st2, log) => .ok (st2, ⟨k, fli, some node⟩ :: log)
      | .ok none =>
        if ¬ c.validItem fli then .error .invalidAccess
        else
          .ok (⟨wr32 (wr16 st.mainMemory (fli - c.base + 4) ((orderedAddress ^^^ 1) % 65536))
                  (fli - c.base) (st.memoryControlBlock k),
                upd st.memoryControlBlock k fli⟩, [⟨k, fli, none⟩])

/-- The function `emm_free` with the passes of its `RETRY` loop. -/
def emm_freeLog (c : Config) (st : State) (ptr : Nat) : Except Fault (State × List Pass) :=
  let rawMem := (ptr + 4294967295) % 4294967296
  if ¬ c.valid rawMem 1 then .error .invalidAccess
  else
    let k := rd8 st.mainMemory (rawMem - c.base)
    if ptr = 0 then .ok (st, [])
    else
      let orderedAddress := ((rawMem - c.base) >>> (c.MX_Ks + k)) % 65536
      retryLog c (c.MX_Ko + 1) st k rawMem orderedAddress

/-- The result of a call without its record. -/
def dropLog {α β : Type} : Except Fault (α × β) → Except Fault α
  | .ok (a, _) => .ok a
  | .error e => .error e

/-- The passes of a record that merged the candidate with its buddy. -/
def merges (log : List Pass) : List Pass := log.filter (fun e => e.buddy.isSome)

/-- The record of the `RETRY` loop on the block at offset `a` of order `k`:
every pass but the last unlinks the buddy of its candidate and goes on with
their parent, one order up; the last pass unlinks nothing. -/
def MergeTrace (c : Config) : Nat → Nat → List Pass → Prop
  | _, _, [] => False
  | k, a, [e] => e = ⟨k, c.base + a, none⟩
  | k, a, e :: e' :: rest =>
    e = ⟨k, c.base + a, some (c.base + buddyOf c a k)⟩ ∧
      MergeTrace c (k + 1) (parentOf c a k) (e' :: rest)

/-- The pass `e` merged its candidate and `e'` is the pass that followed: the
node unlinked is the block at the candidate's offset with bit `MX_Ks + k`
toggled, the next candidate is one order up, at the candidate's offset with
that bit cleared, and covers exactly the two merged blocks. -/
def IsMerge (c : Config) (e e' : Pass) : Prop :=
  ∃ a b p, e.block = c.base + a ∧ e.buddy = some (c.base + b) ∧ e'.block = c.base + p ∧
    b = a ^^^ 2 ^ (c.MX_Ks + e.order) ∧
    e'.order = e.order + 1 ∧
    p = a - 2 ^ (c.MX_Ks + e.order) * (a / 2 ^ (c.MX_Ks + e.order) % 2) ∧
    p = min a b ∧ p + 2 ^ (c.MX_Ks + e.order) = max a b

/-- All blocks on the free lists, order by order. -/
def freeBlocks (c : Config) (st : State) : List Nat :=
  ((List.range c.MX_Ko).map (fun k => (freeList c st k).getD [])).flatten

/-- The state in which `emm_init` is called a second time, after one request
of 7 bytes, in the example configuration. -/
def rerunState : State := (endOf smallConfig [.malloc 7]).st

/-- The list `l` up to and including the first occurrence of `b`: what is
left of a linked list when the `next` field of `b` is set to `NULL`. -/
def cutAfter (b : Nat) : List Nat → List Nat
  | [] => []
  | a :: l => if a = b then [a] else a :: cutAfter b l

/-- No free list of the state holds two blocks whose tier-relative addresses
differ only in the lowest bit. -/
def NoFreeBuddies (c : Config) (st : State) : Prop :=
  ∀ k, k < c.MX_Ko → ∃ l, freeList c st k = some l ∧
    ∀ a, a ∈ l → ∀ b, b ∈ l →
      ((a - c.base) >>> (c.MX_Ks + k)) ^^^ 1 ≠ (b - c.base) >>> (c.MX_Ks + k)

/-- What the pass `x` of the `RETRY` loop did to the free list of its order,
between the state `st` in which `emm_free` was called and the state `st'` in
which it returned.  A merging pass found on that list the node `q` whose
tier-relative address is the one of its candidate with the lowest bit toggled,
and unlinked it.  The last pass found no such node on the list and put its
candidate at the head. -/
def PassEffect (c : Config) (st st' : State) (x : Pass) : Prop :=
  (∃ q l1 l2, x.buddy = some q ∧
      (q - c.base) >>> (c.MX_Ks + x.order)
        = ((x.block - c.base) >>> (c.MX_Ks + x.order)) ^^^ 1 ∧
      freeList c st x.order = some (l1 ++ q :: l2) ∧
      freeList c st' x.order = some (l1 ++ l2)) ∨
  (x.buddy = none ∧ ∃ l, freeList c st x.order = some l ∧
      (∀ q, q ∈ l → (q - c.base) >>> (c.MX_Ks + x.order)
        ≠ ((x.block - c.base) >>> (c.MX_Ks + x.order)) ^^^ 1) ∧
      freeList c st' x.order = some (x.block :: l))

/-! ## The order computed by `emm_malloc` -/

theorem Krequired_loop_spec : ∀ (fuel n K : Nat), n < 2 ^ fuel → K + fuel < 256 →
    K ≤ Krequired_loop fuel n K ∧ n < 2 ^ (Krequired_loop fuel n K - K) ∧
      ∀ k, n < 2 ^ k → Krequired_loop fuel n K - K ≤ k := by
  intro fuel
  induction fuel with
  | zero =>
    intro n K hn _
    simp only [Krequired_loop]
    refine ⟨le_refl _, ?_, fun k _ => by omega⟩
    simpa using hn
  | succ f ih =>
    intro n K hn hK
    by_cases h0 : n = 0
    · subst h0
      simp [Krequired_loop]
    · have hmod : (K + 1) % 256 = K + 1 := Nat.mod_eq_of_lt (by omega)
      have hhalf : n >>> 1 < 2 ^ f := by
        rw [Nat.shiftRight_eq_div_pow, pow_one]
        rw [pow_succ] at hn
        omega
      obtain ⟨h1, h2, h3⟩ := ih (n >>> 1) (K + 1) hhalf (by omega)
      have hstep : Krequired_loop (f + 1) n K = Krequired_loop f (n >>> 1) (K + 1) := by
        rw [Krequired_loop, if_pos h0, hmod]
      rw [hstep]
      set r := Krequired_loop f (n >>> 1) (K + 1) with hr
      have hsplit : r - K = (r - (K + 1)) + 1 := by omega
      refine ⟨by omega, ?_, ?_⟩
      · rw [hsplit, pow_succ]
        rw [Nat.shiftRight_eq_div_pow, pow_one] at h2
        omega
      · intro k hk
        cases k with
        | zero => simp at hk; omega
        | succ k =>
          have : n >>> 1 < 2 ^ k := by
            rw [Nat.shiftRight_eq_div_pow, pow_one]
            rw [pow_succ] at hk
            omega
          have := h3 k this
          omega

theorem Krequired_le_iff (c : Config) (size : Nat) (h : size < 65536) (k : Nat) :
    size + 1 ≤ 2 ^ (c.MX_Ks + k) ↔ Krequired c size ≤ k := by
  have hs : (size + 1 - 1) % 65536 = size := by
    rw [Nat.add_sub_cancel]; exact Nat.mod_eq_of_lt h
  have hlt : size >>> c.MX_Ks < 2 ^ 16 := by
    rw [Nat.shiftRight_eq_div_pow]
    exact lt_of_le_of_lt (Nat.div_le_self _ _) (by norm_num; omega)
  obtain ⟨_, h2, h3⟩ := Krequired_loop_spec 16 (size >>> c.MX_Ks) 0 hlt (by norm_num)
  have hK : Krequired c size = Krequired_loop 16 (size >>> c.MX_Ks) 0 := by
    simp only [Krequired, hs]
  rw [hK]
  simp only [Nat.sub_zero] at h2 h3
  have key : ∀ j, size >>> c.MX_Ks < 2 ^ j ↔ size + 1 ≤ 2 ^ (c.MX_Ks + j) := by
    intro j
    rw [Nat.shiftRight_eq_div_pow, Nat.div_lt_iff_lt_mul (by positivity), pow_add, mul_comm]
    exact Iff.rfl
  constructor
  · intro hk
    exact h3 k ((key k).2 hk)
  · intro hk
    have h4 := (key _).1 h2
    exact le_trans h4 (Nat.pow_le_pow_right (by norm_num) (by omega))

/-- C1: for a 16-bit `size` the order computed by `emm_malloc` is the smallest
`k` with `2^(MX_Ks + k) ≥ size + 1`. -/
theorem Krequired_is_least (c : Config) (size : Nat) (h : size < 65536) :
    size + 1 ≤ 2 ^ (c.MX_Ks + Krequired c size) ∧
      ∀ k, size + 1 ≤ 2 ^ (c.MX_Ks + k) → Krequired c size ≤ k :=
  ⟨(Krequired_le_iff c size h _).2 (le_refl _), fun k hk => (Krequired_le_iff c size h k).1 hk⟩

theorem Krequired_is_least_witness :
    (7 : Nat) < 65536 ∧ (7 + 1 ≤ 2 ^ (sourceConfig.MX_Ks + Krequired sourceConfig 7) ∧
      ∀ k, 7 + 1 ≤ 2 ^ (sourceConfig.MX_Ks + k) → Krequired sourceConfig 7 ≤ k) :=
  ⟨by decide, Krequired_is_least sourceConfig 7 (by decide)⟩

/-! ## Control flow of `emm_malloc` -/

theorem eight_le_two_pow (n : Nat) (h : 3 ≤ n) : 8 ≤ 2 ^ n :=
  le_trans (by norm_num) (Nat.pow_le_pow_right (by norm_num : 0 < 2) h)

theorem two_pow_succ_eq (n : Nat) : 2 ^ (n + 1) = 2 * 2 ^ n := by
  rw [pow_succ]; ring

theorem splitLoop_returns (c : Config) (K B : Nat) :
    ∀ (j ssplit : Nat) (st : State) (r : SplitResult), K ≤ j →
      splitLoop c K B j ssplit st = .ok r → ∃ st', r = .returned st' (B + 1) := by
  intro j
  induction j with
  | zero =>
    intro ssplit st r hK h
    have hK0 : K = 0 := by omega
    subst hK0
    unfold splitLoop at h
    simp only [Nat.lt_irrefl, if_false, if_true] at h
    split_ifs at h
    · cases h; exact ⟨_, rfl⟩
  | succ j ih =>
    intro ssplit st r hK h
    unfold splitLoop at h
    rw [if_neg (by omega)] at h
    simp only at h
    split_ifs at h with h1 h2 h3
    · cases h; exact ⟨_, rfl⟩
    · exact ih _ _ _ (by omega) h

theorem splitLoop_ok (c : Config) (K B : Nat) (hKs : 3 ≤ c.MX_Ks) (hB : c.base ≤ B) :
    ∀ (j ssplit : Nat) (st : State), K ≤ j → ssplit ≤ 2 ^ (c.MX_Ks + j) →
      B + 2 ^ (c.MX_Ks + j + 1) ≤ c.base + c.arenaSize →
      ∃ st', splitLoop c K B j ssplit st = .ok (.returned st' (B + 1)) := by
  intro j
  induction j with
  | zero =>
    intro ssplit st hK hs hin
    have hK0 : K = 0 := by omega
    subst hK0
    have h8 : 8 ≤ 2 ^ (c.MX_Ks + 0) := eight_le_two_pow _ (by omega)
    have hp : 2 ^ (c.MX_Ks + 0 + 1) = 2 * 2 ^ (c.MX_Ks + 0) := two_pow_succ_eq _
    have hv : c.validItem (B + ssplit) := by
      unfold Config.validItem Config.valid; omega
    have hv1 : c.valid B 1 := by unfold Config.valid; omega
    unfold splitLoop
    simp only [Nat.lt_irrefl, if_false, if_true, hv, not_true_eq_false, hv1]
    exact ⟨_, rfl⟩
  | succ j ih =>
    intro ssplit st hK hs hin
    have h8 : 8 ≤ 2 ^ (c.MX_Ks + (j + 1)) := eight_le_two_pow _ (by omega)
    have hp : 2 ^ (c.MX_Ks + (j + 1) + 1) = 2 * 2 ^ (c.MX_Ks + (j + 1)) := two_pow_succ_eq _
    have hp2 : 2 ^ (c.MX_Ks + (j + 1)) = 2 * 2 ^ (c.MX_Ks + j) := two_pow_succ_eq _
    have hv : c.validItem (B + ssplit) := by
      unfold Config.validItem Config.valid; omega
    have hv1 : c.valid B 1 := by unfold Config.valid; omega
    unfold splitLoop
    rw [if_neg (by omega)]
    simp only [hv, not_true_eq_false, if_false, hv1, if_true]
    by_cases hjK : j + 1 = K
    · rw [if_pos hjK]; exact ⟨_, rfl⟩
    · rw [if_neg hjK]
      apply ih
      · omega
      · rw [Nat.shiftRight_eq_div_pow, pow_one]; omega
      · have e : c.MX_Ks + j + 1 = c.MX_Ks + (j + 1) := by omega
        rw [e]; omega

theorem scanLoop_null (c : Config) (K : Nat) :
    ∀ (n k ssplit : Nat) (st : State),
      (∀ i, k ≤ i → i < k + n → st.memoryControlBlock i = 0) →
      scanLoop c K n k ssplit st = .ok (st, 0) := by
  intro n
  induction n with
  | zero => intro k ssplit st _; rfl
  | succ n ih =>
    intro k ssplit st h
    unfold scanLoop
    rw [if_neg (by simp [h k (le_refl _) (by omega)])]
    exact ih _ _ _ (fun i h1 h2 => h i (by omega) (by omega))

theorem scanLoop_null_inv (c : Config) (K : Nat) :
    ∀ (n k ssplit : Nat) (st st' : State), K < k →
      scanLoop c K n k ssplit st = .ok (st', 0) →
      st' = st ∧ ∀ i, k ≤ i → i < k + n → st.memoryControlBlock i = 0 := by
  intro n
  induction n with
  | zero =>
    intro k ssplit st st' _ h
    unfold scanLoop at h
    cases h
    exact ⟨rfl, fun i h1 h2 => by omega⟩
  | succ n ih =>
    intro k ssplit st st' hK h
    unfold scanLoop at h
    by_cases h0 : st.memoryControlBlock k = 0
    · rw [if_neg (by simp [h0])] at h
      obtain ⟨e, hall⟩ := ih _ _ _ _ (by omega) h
      refine ⟨e, fun i h1 h2 => ?_⟩
      by_cases hik : i = k
      · rw [hik]; exact h0
      · exact hall i (by omega) (by omega)
    · rw [if_pos h0] at h
      exfalso
      simp only at h
      split_ifs at h with hv
      generalize hr : splitLoop c K (st.memoryControlBlock k) (k - 1)
        ((ssplit <<< (c.MX_Ks - 1 + k)) % 65536) _ = r at h
      cases r with
      | error e => simp at h
      | ok res =>
        obtain ⟨st2, rfl⟩ := splitLoop_returns c K _ _ _ _ _ (by omega) hr
        simp at h

theorem scanLoop_ok (c : Config) (K : Nat) (hKs : 3 ≤ c.MX_Ks) :
    ∀ (n k ssplit : Nat) (st : State), K < k → ssplit ≤ 1 → k + n = c.MX_Ko →
      HeadsInArena c st →
      (∃ i, k ≤ i ∧ i < k + n ∧ st.memoryControlBlock i ≠ 0) →
      ∃ st' p, scanLoop c K n k ssplit st = .ok (st', p) ∧ p ≠ 0 := by
  intro n
  induction n with
  | zero => intro k ssplit st _ _ _ _ h; obtain ⟨i, h1, h2, _⟩ := h; omega
  | succ n ih =>
    intro k ssplit st hK hss hn hH hex
    unfold scanLoop
    by_cases h0 : st.memoryControlBlock k = 0
    · rw [if_neg (by simp [h0])]
      apply ih _ _ _ (by omega) hss (by omega) hH
      obtain ⟨i, h1, h2, h3⟩ := hex
      refine ⟨i, ?_, by omega, h3⟩
      by_contra hlt
      have : i = k := by omega
      rw [this] at h3; exact h3 h0
    · rw [if_pos h0]
      obtain ⟨hb, ht⟩ := hH k (by omega) h0
      have hk1 : c.MX_Ks + k = c.MX_Ks + (k - 1) + 1 := by omega
      have h8 : 8 ≤ 2 ^ (c.MX_Ks + k) := eight_le_two_pow _ (by omega)
      have hv : c.validItem (st.memoryControlBlock k) := by
        unfold Config.validItem Config.valid; omega
      simp only [hv, not_true_eq_false, if_false]
      have hs : (ssplit <<< (c.MX_Ks - 1 + k)) % 65536 ≤ 2 ^ (c.MX_Ks + (k - 1)) := by
        refine le_trans (Nat.mod_le _ _) ?_
        rw [Nat.shiftLeft_eq]
        have : c.MX_Ks - 1 + k = c.MX_Ks + (k - 1) := by omega
        rw [this]
        calc ssplit * 2 ^ (c.MX_Ks + (k - 1)) ≤ 1 * 2 ^ (c.MX_Ks + (k - 1)) :=
              Nat.mul_le_mul_right _ hss
          _ = _ := one_mul _
      obtain ⟨st2, h2⟩ := splitLoop_ok c K (st.memoryControlBlock k) hKs hb (k - 1)
        ((ssplit <<< (c.MX_Ks - 1 + k)) % 65536)
        ⟨st.mainMemory, upd st.memoryControlBlock k
          (rd32 st.mainMemory (st.memoryControlBlock k - c.base))⟩ (by omega) hs
        (by rw [← hk1]; exact ht)
      rw [h2]
      exact ⟨st2, _, rfl, by omega⟩

theorem emm_malloc_null_iff (c : Config) (st : State) (size : Nat) :
    (∃ st', emm_malloc c st size = .ok (st', 0)) ↔ NoBlockFor c st size := by
  unfold NoBlockFor
  constructor
  · rintro ⟨st', h⟩
    unfold emm_malloc at h
    simp only at h
    by_cases hK : Krequired c size ≥ c.MX_Ko
    · exact Or.inl hK
    · right
      rw [if_neg hK] at h
      by_cases h0 : st.memoryControlBlock (Krequired c size) = 0
      · rw [if_neg (by simp [h0])] at h
        obtain ⟨_, hall⟩ := scanLoop_null_inv c _ _ _ _ _ _ (by omega) h
        intro k h1 h2
        by_cases hk : k = Krequired c size
        · rw [hk]; exact h0
        · exact hall k (by omega) (by omega)
      · rw [if_pos h0] at h
        split_ifs at h
        simp at h
  · rintro (hK | hall)
    · refine ⟨st, ?_⟩
      unfold emm_malloc
      simp only
      rw [if_pos hK]
    · refine ⟨st, ?_⟩
      unfold emm_malloc
      simp only
      by_cases hK : Krequired c size ≥ c.MX_Ko
      · rw [if_pos hK]
      · rw [if_neg hK, if_neg (by simp [hall _ (le_refl _) (by omega)])]
        exact scanLoop_null c _ _ _ _ _ (fun i h1 h2 => hall i (by omega) (by omega))

theorem emm_malloc_nonnull (c : Config) (st : State) (size : Nat) (hKs : 3 ≤ c.MX_Ks)
    (hH : HeadsInArena c st) (hn : ¬ NoBlockFor c st size) :
    ∃ st' p, emm_malloc c st size = .ok (st', p) ∧ p ≠ 0 := by
  unfold NoBlockFor at hn
  push_neg at hn
  obtain ⟨hK, k, hk1, hk2, hk3⟩ := hn
  unfold emm_malloc
  simp only
  rw [if_neg (by omega)]
  by_cases h0 : st.memoryControlBlock (Krequired c size) = 0
  · rw [if_neg (by simp [h0])]
    apply scanLoop_ok c _ hKs _ _ _ _ (by omega) (le_refl _) (by omega) hH
    refine ⟨k, ?_, by omega, hk3⟩
    by_contra hlt
    have : k = Krequired c size := by omega
    rw [this] at hk3; exact hk3 h0
  · rw [if_pos h0]
    obtain ⟨hb, ht⟩ := hH _ hK h0
    have h8 : 8 ≤ 2 ^ (c.MX_Ks + Krequired c size) := eight_le_two_pow _ (by omega)
    have hv : c.validItem (st.memoryControlBlock (Krequired c size)) := by
      unfold Config.validItem Config.valid; omega
    simp only [hv, not_true_eq_false, if_false]
    exact ⟨_, _, rfl, by omega⟩

theorem emm_malloc_null_state (c : Config) (st st' : State) (size : Nat)
    (h : emm_malloc c st size = .ok (st', 0)) : st' = st := by
  unfold emm_malloc at h
  simp only at h
  by_cases hK : Krequired c size ≥ c.MX_Ko
  · rw [if_pos hK] at h; cases h; rfl
  · rw [if_neg hK] at h
    by_cases h0 : st.memoryControlBlock (Krequired c size) = 0
    · rw [if_neg (by simp [h0])] at h
      exact (scanLoop_null_inv c _ _ _ _ _ _ (by omega) h).1
    · rw [if_pos h0] at h
      split_ifs at h
      simp at h

/-! ## Arithmetic of blocks -/

theorem blockSize_pos (c : Config) (k : Nat) : 0 < c.blockSize k := by
  unfold Config.blockSize; positivity

theorem blockSize_succ (c : Config) (k : Nat) : c.blockSize (k + 1) = 2 * c.blockSize k := by
  unfold Config.blockSize
  have e : c.MX_Ks + (k + 1) = c.MX_Ks + k + 1 := by omega
  rw [e]; exact two_pow_succ_eq _

theorem arenaSize_eq (c : Config) : c.arenaSize = 2 ^ (c.MX_Ks + c.MX_Ko - 1) := by
  unfold Config.arenaSize; exact Nat.one_shiftLeft _

theorem arenaSize_eq_blockSize (c : Config) (h : 1 ≤ c.MX_Ko) :
    c.arenaSize = c.blockSize (c.MX_Ko - 1) := by
  rw [arenaSize_eq]; unfold Config.blockSize
  congr 1; omega

theorem blockSize_le (c : Config) {j k : Nat} (h : j ≤ k) : c.blockSize j ≤ c.blockSize k := by
  unfold Config.blockSize
  exact Nat.pow_le_pow_right (by norm_num) (by omega)

theorem blockSize_dvd (c : Config) {j k : Nat} (h : j ≤ k) : c.blockSize j ∣ c.blockSize k := by
  unfold Config.blockSize
  exact pow_dvd_pow 2 (by omega)

theorem blockSize_le_iff (c : Config) (j k : Nat) : c.blockSize j ≤ c.blockSize k ↔ j ≤ k := by
  unfold Config.blockSize
  rw [Nat.pow_le_pow_iff_right (by norm_num)]
  omega

theorem eight_dvd_blockSize (c : Config) (h : 3 ≤ c.MX_Ks) (k : Nat) : 8 ∣ c.blockSize k := by
  unfold Config.blockSize
  have : (8 : Nat) = 2 ^ 3 := by norm_num
  rw [this]
  exact pow_dvd_pow 2 (by omega)

theorem eight_le_blockSize (c : Config) (h : 3 ≤ c.MX_Ks) (k : Nat) : 8 ≤ c.blockSize k :=
  Nat.le_of_dvd (blockSize_pos c k) (eight_dvd_blockSize c h k)

theorem arenaSize_le (c : Config) (h : c.WF) : c.arenaSize ≤ 65536 := by
  rw [arenaSize_eq]
  have : (65536 : Nat) = 2 ^ 16 := by norm_num
  rw [this]
  obtain ⟨_, _, h3, _⟩ := h
  exact Nat.pow_le_pow_right (by norm_num) (by omega)

theorem IsBlock.lt_arena {c : Config} {a k : Nat} (h : IsBlock c a k) : a < c.arenaSize := by
  have := blockSize_pos c k
  have := h.2.2
  omega

theorem IsBlock.eight_dvd {c : Config} {a k : Nat} (hc : c.WF) (h : IsBlock c a k) : 8 ∣ a :=
  dvd_trans (eight_dvd_blockSize c hc.1 k) h.2.1

theorem IsBlock.add_eight_le {c : Config} {a k : Nat} (hc : c.WF) (h : IsBlock c a k) :
    a + 8 ≤ c.arenaSize := by
  have := eight_le_blockSize c hc.1 k
  have := h.2.2
  omega

theorem IsBlock.item_valid {c : Config} {a k : Nat} (hc : c.WF) (h : IsBlock c a k) :
    c.validItem (c.base + a) := by
  have := h.add_eight_le hc
  unfold Config.validItem Config.valid
  omega

/-- The order-`k+1` block at `a` is made of the order-`k` blocks at `a` and
`a + blockSize k`. -/
theorem IsBlock.halves {c : Config} {a k : Nat} (h : IsBlock c a (k + 1)) :
    IsBlock c a k ∧ IsBlock c (a + c.blockSize k) k := by
  obtain ⟨h1, h2, h3⟩ := h
  rw [blockSize_succ] at h3
  have hd : c.blockSize k ∣ a := dvd_trans (blockSize_dvd c (Nat.le_succ k)) h2
  refine ⟨⟨by omega, hd, by omega⟩, ⟨by omega, ?_, by omega⟩⟩
  exact Dvd.dvd.add hd (dvd_refl _)

theorem covers_halves (c : Config) (x a k : Nat) :
    covers c x a (k + 1) = covers c x a k + covers c x (a + c.blockSize k) k := by
  unfold covers
  rw [blockSize_succ]
  have := blockSize_pos c k
  split_ifs <;> omega

theorem covers_le_one (c : Config) (x a k : Nat) : covers c x a k ≤ 1 := by
  unfold covers; split_ifs <;> omega

theorem covers_self (c : Config) (a k : Nat) : covers c a a k = 1 := by
  unfold covers
  have := blockSize_pos c k
  rw [if_pos ⟨le_refl _, by omega⟩]

theorem covers_eq_one_iff (c : Config) (x a k : Nat) :
    covers c x a k = 1 ↔ a ≤ x ∧ x < a + c.blockSize k := by
  unfold covers; split_ifs with h <;> simp [h]

theorem covers_eq_zero_iff (c : Config) (x a k : Nat) :
    covers c x a k = 0 ↔ ¬ (a ≤ x ∧ x < a + c.blockSize k) := by
  unfold covers; split_ifs with h <;> simp [h]

/-- An aligned interval that meets an aligned unit contains it. -/
theorem aligned_interval (S x y n z : Nat) (hx : S ∣ x) (hy : S ∣ y) (hn : S ∣ n)
    (h1 : x ≤ z) (h2 : z < x + n) (h3 : y ≤ z) (h4 : z < y + S) : x ≤ y ∧ y + S ≤ x + n := by
  obtain ⟨u, rfl⟩ := hx
  obtain ⟨r, rfl⟩ := hy
  obtain ⟨v, rfl⟩ := hn
  have e1 : S * u < S * (r + 1) := by rw [Nat.mul_add, Nat.mul_one]; omega
  have e2 : S * r < S * (u + v) := by rw [Nat.mul_add]; omega
  have f1 : u < r + 1 := Nat.lt_of_mul_lt_mul_left e1
  have f2 : r < u + v := Nat.lt_of_mul_lt_mul_left e2
  constructor
  · exact Nat.mul_le_mul_left S (by omega)
  · have : S * (r + 1) ≤ S * (u + v) := Nat.mul_le_mul_left S (by omega)
    rw [Nat.mul_add, Nat.mul_one, Nat.mul_add] at this
    exact this

/-- The buddy and the parent of an aligned block, by the parity of its
tier-relative address. -/
theorem buddy_arith (S a : Nat) (hS : 0 < S) (h : S ∣ a) :
    ((a / S) % 2 = 0 ∧ 2 * S * (a / (2 * S)) = a) ∨
      ((a / S) % 2 = 1 ∧ S ≤ a ∧ 2 * S * (a / (2 * S)) = a - S) := by
  obtain ⟨q, rfl⟩ := h
  have hq : S * q / S = q := Nat.mul_div_cancel_left q hS
  have hdiv : S * q / (2 * S) = q / 2 := by
    rw [mul_comm 2 S, ← Nat.div_div_eq_div_mul, hq]
  rw [hq, hdiv]
  rcases Nat.mod_two_eq_zero_or_one q with h0 | h1
  · left
    refine ⟨h0, ?_⟩
    have : q = 2 * (q / 2) := by omega
    calc 2 * S * (q / 2) = S * (2 * (q / 2)) := by ring
      _ = S * q := by rw [← this]
  · right
    have hq2 : q = 2 * (q / 2) + 1 := by omega
    refine ⟨h1, ?_, ?_⟩
    · calc S = S * 1 := (Nat.mul_one S).symm
        _ ≤ S * q := Nat.mul_le_mul_left S (by omega)
    · have : S * q = 2 * S * (q / 2) + S := by
        calc S * q = S * (2 * (q / 2) + 1) := by rw [← hq2]
          _ = 2 * S * (q / 2) + S := by ring
      omega

theorem buddy_cases (c : Config) (a k : Nat) (h : c.blockSize k ∣ a) :
    (buddyOf c a k = a + c.blockSize k ∧ parentOf c a k = a ∧ (a / c.blockSize k) % 2 = 0) ∨
      (c.blockSize k ≤ a ∧ buddyOf c a k = a - c.blockSize k ∧
        parentOf c a k = a - c.blockSize k ∧ (a / c.blockSize k) % 2 = 1) := by
  unfold buddyOf parentOf
  rw [blockSize_succ]
  rcases buddy_arith (c.blockSize k) a (blockSize_pos c k) h with ⟨h0, hp⟩ | ⟨h1, hle, hp⟩
  · left; exact ⟨by rw [if_pos h0], hp, h0⟩
  · right; exact ⟨hle, by rw [if_neg (by omega)], hp, h1⟩

theorem parent_dvd (c : Config) (a k : Nat) : c.blockSize (k + 1) ∣ parentOf c a k :=
  Dvd.intro _ rfl

theorem buddy_ne (c : Config) (a k : Nat) (h : c.blockSize k ∣ a) : buddyOf c a k ≠ a := by
  have := blockSize_pos c k
  rcases buddy_cases c a k h with ⟨h1, _, _⟩ | ⟨h0, h1, _, _⟩ <;> omega

theorem buddy_dvd (c : Config) (a k : Nat) (h : c.blockSize k ∣ a) :
    c.blockSize k ∣ buddyOf c a k := by
  rcases buddy_cases c a k h with ⟨h1, _, _⟩ | ⟨h0, h1, _, _⟩
  · rw [h1]; exact Dvd.dvd.add h (dvd_refl _)
  · rw [h1]; exact Nat.dvd_sub' h (dvd_refl _)

theorem buddy_buddy (c : Config) (a k : Nat) (h : c.blockSize k ∣ a) :
    buddyOf c (buddyOf c a k) k = a := by
  have hpos := blockSize_pos c k
  have hb := buddy_dvd c a k h
  have hpa := parent_dvd c a k
  have hpb := parent_dvd c (buddyOf c a k) k
  rw [blockSize_succ] at hpa hpb
  rcases buddy_cases c a k h with ⟨h1, h2, _⟩ | ⟨h0, h1, h2, _⟩ <;>
    rcases buddy_cases c (buddyOf c a k) k hb with ⟨g1, g2, _⟩ | ⟨g0, g1, g2, _⟩
  · exfalso
    rw [h2] at hpa; rw [g2, h1] at hpb
    have := (Nat.dvd_add_right hpa).1 hpb
    have := Nat.le_of_dvd hpos this
    omega
  · rw [g1, h1]; omega
  · rw [g1, h1]; omega
  · exfalso
    rw [h2] at hpa; rw [g2, h1] at hpb
    have h3 : a - c.blockSize k - c.blockSize k + c.blockSize k = a - c.blockSize k := by omega
    rw [← h3] at hpa
    have := (Nat.dvd_add_right hpb).1 hpa
    have := Nat.le_of_dvd hpos this
    omega

/-- A block and its buddy are the two halves of their parent. -/
theorem IsBlock.parent {c : Config} {a k : Nat} (hc : c.WF) (h : IsBlock c a k)
    (hb : IsBlock c (buddyOf c a k) k) : IsBlock c (parentOf c a k) (k + 1) := by
  have hpos := blockSize_pos c k
  have hsz : parentOf c a k + c.blockSize (k + 1) ≤ c.arenaSize := by
    rw [blockSize_succ]
    have := h.2.2
    have := hb.2.2
    rcases buddy_cases c a k h.2.1 with ⟨h1, h2, _⟩ | ⟨h0, h1, h2, _⟩ <;> omega
  refine ⟨?_, parent_dvd c a k, hsz⟩
  have hle : c.blockSize (k + 1) ≤ c.blockSize (c.MX_Ko - 1) := by
    rw [← arenaSize_eq_blockSize c hc.2.1]; omega
  have := (blockSize_le_iff c _ _).1 hle
  have := hc.2.1
  omega

theorem xor_one_even (q : Nat) (h : q % 2 = 0) : q ^^^ 1 = q + 1 := by
  have e := Nat.xor_bit false (q / 2) true 0
  simp only [Nat.bit_val] at e
  have hq : q = 2 * (q / 2) := by omega
  rw [hq]
  simpa using e

theorem xor_one_odd (q : Nat) (h : q % 2 = 1) : q ^^^ 1 = q - 1 := by
  have e := Nat.xor_bit true (q / 2) true 0
  simp only [Nat.bit_val] at e
  have hq : q = 2 * (q / 2) + 1 := by omega
  rw [hq]
  simpa using e

/-! ## Weighted sums over the blocks -/

theorem updl_same (fl : Nat → List Nat) (k : Nat) (l : List Nat) : updl fl k l k = l := by
  simp [updl]

theorem updl_other (fl : Nat → List Nat) (k : Nat) (l : List Nat) {i : Nat} (h : i ≠ k) :
    updl fl k l i = fl i := by
  simp [updl, h]

theorem lsum_nil (w : Nat → Nat → Nat) (k : Nat) : lsum w k [] = 0 := rfl

theorem lsum_cons (w : Nat → Nat → Nat) (k a : Nat) (l : List Nat) :
    lsum w k (a :: l) = w a k + lsum w k l := by
  simp [lsum]

theorem lsum_append (w : Nat → Nat → Nat) (k : Nat) (l1 l2 : List Nat) :
    lsum w k (l1 ++ l2) = lsum w k l1 + lsum w k l2 := by
  simp [lsum]

theorem ownSum_nil (w : Nat → Nat → Nat) : ownSum w [] = 0 := rfl

theorem ownSum_cons (w : Nat → Nat → Nat) (b : Nat × Nat) (l : List (Nat × Nat)) :
    ownSum w (b :: l) = w b.1 b.2 + ownSum w l := by
  simp [ownSum]

theorem ownSum_append (w : Nat → Nat → Nat) (l1 l2 : List (Nat × Nat)) :
    ownSum w (l1 ++ l2) = ownSum w l1 + ownSum w l2 := by
  simp [ownSum]

theorem ownSum_perm (w : Nat → Nat → Nat) {l1 l2 : List (Nat × Nat)} (h : l1.Perm l2) :
    ownSum w l1 = ownSum w l2 :=
  (h.map _).sum_eq

theorem freeSum_updl (c : Config) (w : Nat → Nat → Nat) (fl : Nat → List Nat) (k : Nat)
    (l : List Nat) (hk : k < c.MX_Ko) :
    freeSum c w (updl fl k l) + lsum w k (fl k) = freeSum c w fl + lsum w k l := by
  unfold freeSum
  have hm : k ∈ Finset.range c.MX_Ko := Finset.mem_range.2 hk
  rw [← Finset.add_sum_erase _ _ hm, ← Finset.add_sum_erase (Finset.range c.MX_Ko) _ hm]
  have hrest : Finset.sum ((Finset.range c.MX_Ko).erase k) (fun i => lsum w i (updl fl k l i))
      = Finset.sum ((Finset.range c.MX_Ko).erase k) (fun i => lsum w i (fl i)) := by
    apply Finset.sum_congr rfl
    intro i hi
    rw [updl_other fl k l (Finset.ne_of_mem_erase hi)]
  rw [hrest, updl_same]
  omega

theorem freeSum_empty (c : Config) (w : Nat → Nat → Nat) : freeSum c w (fun _ => []) = 0 := by
  unfold freeSum
  apply Finset.sum_eq_zero
  intro i _
  rfl

theorem lsum_mem_le (w : Nat → Nat → Nat) (k : Nat) {a : Nat} {l : List Nat} (h : a ∈ l) :
    w a k ≤ lsum w k l := by
  induction l with
  | nil => cases h
  | cons b t ih =>
    rw [lsum_cons]
    rcases List.mem_cons.1 h with rfl | h'
    · omega
    · have := ih h'; omega

theorem ownSum_mem_le (w : Nat → Nat → Nat) {b : Nat × Nat} {l : List (Nat × Nat)}
    (h : b ∈ l) : w b.1 b.2 ≤ ownSum w l := by
  induction l with
  | nil => cases h
  | cons b' t ih =>
    rw [ownSum_cons]
    rcases List.mem_cons.1 h with rfl | h'
    · omega
    · have := ih h'; omega

theorem freeSum_list_le (c : Config) (w : Nat → Nat → Nat) (fl : Nat → List Nat) {k : Nat}
    (hk : k < c.MX_Ko) : lsum w k (fl k) ≤ freeSum c w fl := by
  have := freeSum_updl c w fl k [] hk
  rw [lsum_nil] at this
  omega

theorem freeSum_mem_le (c : Config) (w : Nat → Nat → Nat) (fl : Nat → List Nat) {k a : Nat}
    (hk : k < c.MX_Ko) (h : a ∈ fl k) : w a k ≤ freeSum c w fl :=
  le_trans (lsum_mem_le w k h) (freeSum_list_le c w fl hk)

theorem freeSum_two_le (c : Config) (w : Nat → Nat → Nat) (fl : Nat → List Nat)
    {k k' a a' : Nat} (hk : k < c.MX_Ko) (hk' : k' < c.MX_Ko) (hne : k ≠ k')
    (h : a ∈ fl k) (h' : a' ∈ fl k') : w a k + w a' k' ≤ freeSum c w fl := by
  have e := freeSum_updl c w fl k [] hk
  rw [lsum_nil] at e
  have h2 : a' ∈ updl fl k [] k' := by rw [updl_other fl k [] (Ne.symm hne)]; exact h'
  have := freeSum_mem_le c w (updl fl k []) hk' h2
  have := lsum_mem_le w k h
  omega

theorem freeSum_pos (c : Config) (w : Nat → Nat → Nat) (fl : Nat → List Nat)
    (h : 0 < freeSum c w fl) : ∃ k a, k < c.MX_Ko ∧ a ∈ fl k ∧ 0 < w a k := by
  by_contra hne
  push_neg at hne
  have : freeSum c w fl = 0 := by
    unfold freeSum
    apply Finset.sum_eq_zero
    intro i hi
    unfold lsum
    apply List.sum_eq_zero
    intro x hx
    obtain ⟨a, ha, rfl⟩ := List.mem_map.1 hx
    have := hne i a (Finset.mem_range.1 hi) ha
    omega
  omega

/-! ## The four moves on the ghost state -/

/-- Taking a block off its free list. -/
theorem Inv.take {c : Config} {fl : Nat → List Nat} {owned : List (Nat × Nat)}
    (h : Inv c fl owned) {k a : Nat} {l1 l2 : List Nat} (hl : fl k = l1 ++ a :: l2) :
    Inv c (updl fl k (l1 ++ l2)) ((a, k) :: owned) := by
  have hmem : ∀ x, x ∈ l1 ++ l2 → x ∈ fl k := by
    intro x hx; rw [hl]
    rcases List.mem_append.1 hx with h1 | h2
    · exact List.mem_append_left _ h1
    · exact List.mem_append_right _ (List.mem_cons_of_mem _ h2)
  have ha : a ∈ fl k := by rw [hl]; simp
  have hk : k < c.MX_Ko := (h.free_blk k a ha).1
  have hsum : ∀ w : Nat → Nat → Nat,
      ownSum w ((a, k) :: owned) + freeSum c w (updl fl k (l1 ++ l2))
        = ownSum w owned + freeSum c w fl := by
    intro w
    have e := freeSum_updl c w fl k (l1 ++ l2) hk
    rw [hl, lsum_append, lsum_append, lsum_cons] at e
    rw [ownSum_cons]
    simp only
    omega
  refine ⟨?_, ?_, ?_, ?_, ?_⟩
  · intro i x hx
    by_cases hi : i = k
    · subst hi; rw [updl_same] at hx; exact h.free_blk _ _ (hmem x hx)
    · rw [updl_other _ _ _ hi] at hx; exact h.free_blk _ _ hx
  · intro b hb
    rcases List.mem_cons.1 hb with rfl | hb'
    · exact h.free_blk k a ha
    · exact h.own_blk b hb'
  · intro x hx; rw [hsum]; exact h.cover x hx
  · rw [hsum]; exact h.total
  · intro i x hx
    by_cases hi : i = k
    · subst hi; rw [updl_same] at hx ⊢
      exact fun hb => h.nobuddy _ _ (hmem x hx) (hmem _ hb)
    · rw [updl_other _ _ _ hi] at hx ⊢; exact h.nobuddy _ _ hx

/-- Taking the head of a free list. -/
theorem Inv.take_head {c : Config} {fl : Nat → List Nat} {owned : List (Nat × Nat)}
    (h : Inv c fl owned) {k a : Nat} {t : List Nat} (hl : fl k = a :: t) :
    Inv c (updl fl k t) ((a, k) :: owned) :=
  @Inv.take c fl owned h k a [] t hl

/-- Putting a block on its free list when its buddy is not there. -/
theorem Inv.give {c : Config} {fl : Nat → List Nat} {owned : List (Nat × Nat)} {a k : Nat}
    (h : Inv c fl ((a, k) :: owned)) (hb : buddyOf c a k ∉ fl k) :
    Inv c (updl fl k (a :: fl k)) owned := by
  have hblk : IsBlock c a k := h.own_blk (a, k) (List.mem_cons_self _ _)
  have hk : k < c.MX_Ko := hblk.1
  have hsum : ∀ w : Nat → Nat → Nat,
      ownSum w owned + freeSum c w (updl fl k (a :: fl k))
        = ownSum w ((a, k) :: owned) + freeSum c w fl := by
    intro w
    have e := freeSum_updl c w fl k (a :: fl k) hk
    rw [lsum_cons] at e
    rw [ownSum_cons]
    simp only
    omega
  refine ⟨?_, ?_, ?_, ?_, ?_⟩
  · intro i x hx
    by_cases hi : i = k
    · subst hi; rw [updl_same] at hx
      rcases List.mem_cons.1 hx with rfl | hx'
      · exact hblk
      · exact h.free_blk _ _ hx'
    · rw [updl_other _ _ _ hi] at hx; exact h.free_blk _ _ hx
  · intro b hb'; exact h.own_blk b (List.mem_cons_of_mem _ hb')
  · intro x hx; rw [hsum]; exact h.cover x hx
  · rw [hsum]; exact h.total
  · intro i x hx
    by_cases hi : i = k
    · subst hi; rw [updl_same] at hx ⊢
      intro hmem
      rcases List.mem_cons.1 hx with rfl | hx'
      · rcases List.mem_cons.1 hmem with e | hm
        · exact buddy_ne c _ _ hblk.2.1 e
        · exact hb hm
      · rcases List.mem_cons.1 hmem with e | hm
        · have := buddy_buddy c x i (h.free_blk _ _ hx').2.1
          rw [e] at this
          rw [this] at hb
          exact hb hx'
        · exact h.nobuddy _ _ hx' hm
    · rw [updl_other _ _ _ hi] at hx ⊢; exact h.nobuddy _ _ hx

/-- Splitting an owned block of order `k+1`: the upper half goes on the
(empty) list of order `k`, the lower half stays owned. -/
theorem Inv.split {c : Config} {fl : Nat → List Nat} {owned : List (Nat × Nat)} {a k : Nat}
    (h : Inv c fl ((a, k + 1) :: owned)) (he : fl k = []) :
    Inv c (updl fl k [a + c.blockSize k]) ((a, k) :: owned) := by
  have hblk : IsBlock c a (k + 1) := h.own_blk (a, k + 1) (List.mem_cons_self _ _)
  obtain ⟨hlo, hhi⟩ := hblk.halves
  have hk : k < c.MX_Ko := hlo.1
  have hsum : ∀ w : Nat → Nat → Nat,
      (∀ x, w x (k + 1) = w x k + w (x + c.blockSize k) k) →
      ownSum w ((a, k) :: owned) + freeSum c w (updl fl k [a + c.blockSize k])
        = ownSum w ((a, k + 1) :: owned) + freeSum c w fl := by
    intro w hw
    have e := freeSum_updl c w fl k [a + c.blockSize k] hk
    rw [he, lsum_cons, lsum_nil] at e
    rw [ownSum_cons, ownSum_cons]
    simp only
    rw [hw a]
    omega
  refine ⟨?_, ?_, ?_, ?_, ?_⟩
  · intro i x hx
    by_cases hi : i = k
    · subst hi; rw [updl_same] at hx
      rw [List.mem_singleton.1 hx]; exact hhi
    · rw [updl_other _ _ _ hi] at hx; exact h.free_blk _ _ hx
  · intro b hb
    rcases List.mem_cons.1 hb with rfl | hb'
    · exact hlo
    · exact h.own_blk b (List.mem_cons_of_mem _ hb')
  · intro x hx
    rw [hsum _ (fun y => covers_halves c x y k)]; exact h.cover x hx
  · rw [hsum _ (fun _ => by rw [blockSize_succ]; omega)]; exact h.total
  · intro i x hx
    by_cases hi : i = k
    · subst hi; rw [updl_same] at hx ⊢
      rw [List.mem_singleton.1 hx]
      intro hm
      exact buddy_ne c _ _ hhi.2.1 (List.mem_singleton.1 hm)
    · rw [updl_other _ _ _ hi] at hx ⊢; exact h.nobuddy _ _ hx

/-- Merging an owned block with its owned buddy. -/
theorem Inv.merge {c : Config} {fl : Nat → List Nat} {owned : List (Nat × Nat)} {a k : Nat}
    (hc : c.WF) (h : Inv c fl ((a, k) :: (buddyOf c a k, k) :: owned)) :
    Inv c fl ((parentOf c a k, k + 1) :: owned) := by
  have ha : IsBlock c a k := h.own_blk (a, k) (List.mem_cons_self _ _)
  have hb : IsBlock c (buddyOf c a k) k :=
    h.own_blk (buddyOf c a k, k) (List.mem_cons_of_mem _ (List.mem_cons_self _ _))
  have hsum : ∀ w : Nat → Nat → Nat,
      (∀ x, w x (k + 1) = w x k + w (x + c.blockSize k) k) →
      ownSum w ((parentOf c a k, k + 1) :: owned)
        = ownSum w ((a, k) :: (buddyOf c a k, k) :: owned) := by
    intro w hw
    rw [ownSum_cons, ownSum_cons, ownSum_cons]
    simp only
    rw [hw]
    rcases buddy_cases c a k ha.2.1 with ⟨h1, h2, _⟩ | ⟨h0, h1, h2, _⟩
    · rw [h1, h2]; omega
    · rw [h1, h2]
      have : a - c.blockSize k + c.blockSize k = a := by omega
      rw [this]; omega
  refine ⟨h.free_blk, ?_, ?_, ?_, h.nobuddy⟩
  · intro b hb'
    rcases List.mem_cons.1 hb' with rfl | hb''
    · exact ha.parent hc hb
    · exact h.own_blk b (List.mem_cons_of_mem _ (List.mem_cons_of_mem _ hb''))
  · intro x hx
    rw [hsum _ (fun y => covers_halves c x y k)]; exact h.cover x hx
  · rw [hsum _ (fun _ => by rw [blockSize_succ]; omega)]; exact h.total

/-- The invariant does not depend on the order of the owned blocks. -/
theorem Inv.perm {c : Config} {fl : Nat → List Nat} {owned owned' : List (Nat × Nat)}
    (h : Inv c fl owned) (hp : owned.Perm owned') : Inv c fl owned' := by
  refine ⟨h.free_blk, ?_, ?_, ?_, h.nobuddy⟩
  · intro b hb; exact h.own_blk b (hp.symm.subset hb)
  · intro x hx; rw [← ownSum_perm _ hp]; exact h.cover x hx
  · rw [← ownSum_perm _ hp]; exact h.total

/-! ## Consequences of the invariant: blocks do not overlap -/

theorem Inv.own_free_le {c : Config} {fl : Nat → List Nat} {owned : List (Nat × Nat)}
    (h : Inv c fl owned) {b : Nat × Nat} (hb : b ∈ owned) {k a : Nat} (ha : a ∈ fl k)
    {x : Nat} (hx : x < c.arenaSize) : covers c x b.1 b.2 + covers c x a k ≤ 1 := by
  have h1 := ownSum_mem_le (covers c x) hb
  have h2 := freeSum_mem_le c (covers c x) fl (h.free_blk k a ha).1 ha
  have := h.cover x hx
  omega

theorem Inv.free_free_le {c : Config} {fl : Nat → List Nat} {owned : List (Nat × Nat)}
    (h : Inv c fl owned) {k k' a a' : Nat} (hne : k ≠ k') (ha : a ∈ fl k) (ha' : a' ∈ fl k')
    {x : Nat} (hx : x < c.arenaSize) : covers c x a k + covers c x a' k' ≤ 1 := by
  have h2 := freeSum_two_le c (covers c x) fl (h.free_blk k a ha).1 (h.free_blk k' a' ha').1
    hne ha ha'
  have := h.cover x hx
  omega

theorem Inv.free_list_le {c : Config} {fl : Nat → List Nat} {owned : List (Nat × Nat)}
    (h : Inv c fl owned) {k : Nat} (hk : k < c.MX_Ko) {x : Nat} (hx : x < c.arenaSize) :
    lsum (covers c x) k (fl k) ≤ 1 := by
  have := freeSum_list_le c (covers c x) fl hk
  have := h.cover x hx
  omega

theorem Inv.own_le {c : Config} {fl : Nat → List Nat} {owned : List (Nat × Nat)}
    (h : Inv c fl owned) {x : Nat} (hx : x < c.arenaSize) : ownSum (covers c x) owned ≤ 1 := by
  have := h.cover x hx
  omega

/-- An owned block does not contain the start of a free block. -/
theorem Inv.free_not_in_own {c : Config} {fl : Nat → List Nat} {owned : List (Nat × Nat)}
    (h : Inv c fl owned) {b : Nat × Nat} (hb : b ∈ owned) {k a : Nat} (ha : a ∈ fl k) :
    ¬ (b.1 ≤ a ∧ a < b.1 + c.blockSize b.2) := by
  have hx := (h.free_blk k a ha).lt_arena
  have := h.own_free_le hb ha hx
  rw [covers_self] at this
  exact (covers_eq_zero_iff c a b.1 b.2).1 (by omega)

theorem Inv.free_ne_own {c : Config} {fl : Nat → List Nat} {owned : List (Nat × Nat)}
    (h : Inv c fl owned) {b : Nat × Nat} (hb : b ∈ owned) {k a : Nat} (ha : a ∈ fl k) :
    a ≠ b.1 := by
  intro e
  have := blockSize_pos c b.2
  exact h.free_not_in_own hb ha ⟨by omega, by omega⟩

theorem Inv.free_ne_free {c : Config} {fl : Nat → List Nat} {owned : List (Nat × Nat)}
    (h : Inv c fl owned) {k k' a : Nat} (hne : k ≠ k') (ha : a ∈ fl k) : a ∉ fl k' := by
  intro ha'
  have hx := (h.free_blk k a ha).lt_arena
  have := h.free_free_le hne ha ha' hx
  rw [covers_self, covers_self] at this
  omega

theorem nodup_of_lsum_le (c : Config) (k : Nat) :
    ∀ l : List Nat, (∀ a, a ∈ l → ∀ x, x ∈ l → lsum (covers c x) k l ≤ 1) → l.Nodup := by
  intro l
  induction l with
  | nil => intro _; exact List.nodup_nil
  | cons a t ih =>
    intro h
    rw [List.nodup_cons]
    constructor
    · intro hmem
      have := h a (List.mem_cons_self _ _) a (List.mem_cons_self _ _)
      rw [lsum_cons, covers_self] at this
      have h2 := lsum_mem_le (covers c a) k hmem
      rw [covers_self] at h2
      omega
    · apply ih
      intro b hb x hx
      have := h b (List.mem_cons_of_mem _ hb) x (List.mem_cons_of_mem _ hx)
      rw [lsum_cons] at this
      omega

theorem Inv.free_nodup {c : Config} {fl : Nat → List Nat} {owned : List (Nat × Nat)}
    (h : Inv c fl owned) (k : Nat) : (fl k).Nodup := by
  apply nodup_of_lsum_le c k
  intro a ha x hx
  exact h.free_list_le (h.free_blk k a ha).1 (h.free_blk k x hx).lt_arena

theorem nodup_of_ownSum_le (c : Config) :
    ∀ l : List (Nat × Nat), (∀ x, x ∈ l → ownSum (covers c x.1) l ≤ 1) →
      (l.map Prod.fst).Nodup := by
  intro l
  induction l with
  | nil => intro _; exact List.nodup_nil
  | cons b t ih =>
    intro h
    rw [List.map_cons, List.nodup_cons]
    constructor
    · intro hmem
      obtain ⟨b', hb', e⟩ := List.mem_map.1 hmem
      have := h b (List.mem_cons_self _ _)
      rw [ownSum_cons, covers_self] at this
      have h2 := ownSum_mem_le (covers c b.1) hb'
      rw [e, covers_self] at h2
      omega
    · apply ih
      intro x hx
      have := h x (List.mem_cons_of_mem _ hx)
      rw [ownSum_cons] at this
      omega

theorem Inv.own_nodup {c : Config} {fl : Nat → List Nat} {owned : List (Nat × Nat)}
    (h : Inv c fl owned) : (owned.map Prod.fst).Nodup := by
  apply nodup_of_ownSum_le c
  intro x hx
  exact h.own_le (h.own_blk x hx).lt_arena

/-- Two owned blocks at different places of the list do not share a byte. -/
theorem Inv.own_own_le {c : Config} {fl : Nat → List Nat} {owned : List (Nat × Nat)}
    {b : Nat × Nat} (h : Inv c fl (b :: owned)) {b' : Nat × Nat} (hb' : b' ∈ owned)
    {x : Nat} (hx : x < c.arenaSize) : covers c x b.1 b.2 + covers c x b'.1 b'.2 ≤ 1 := by
  have := h.own_le hx
  rw [ownSum_cons] at this
  have := ownSum_mem_le (covers c x) hb'
  omega

theorem Inv.head_ne_own {c : Config} {fl : Nat → List Nat} {owned : List (Nat × Nat)}
    {b : Nat × Nat} (h : Inv c fl (b :: owned)) {b' : Nat × Nat} (hb' : b' ∈ owned) :
    b'.1 ≠ b.1 := by
  have := h.own_nodup
  rw [List.map_cons, List.nodup_cons] at this
  intro e
  exact this.1 (e ▸ List.mem_map_of_mem _ hb')

/-! ## The state after `emm_init`, and the state in which every block is free -/

theorem Inv.init {c : Config} (hc : c.WF) : Inv c (initFl c) [] := by
  have hko : c.MX_Ko - 1 < c.MX_Ko := by have := hc.2.1; omega
  have hsum : ∀ w : Nat → Nat → Nat, freeSum c w (initFl c) = w 0 (c.MX_Ko - 1) := by
    intro w
    have e := freeSum_updl c w (fun _ => []) (c.MX_Ko - 1) [0] hko
    rw [freeSum_empty, lsum_nil, lsum_cons, lsum_nil] at e
    unfold initFl
    omega
  have hmem : ∀ k a, a ∈ initFl c k → k = c.MX_Ko - 1 ∧ a = 0 := by
    intro k a ha
    unfold initFl at ha
    by_cases hk : k = c.MX_Ko - 1
    · subst hk; rw [updl_same] at ha; exact ⟨rfl, List.mem_singleton.1 ha⟩
    · rw [updl_other _ _ _ hk] at ha; cases ha
  refine ⟨?_, ?_, ?_, ?_, ?_⟩
  · intro k a ha
    obtain ⟨rfl, rfl⟩ := hmem k a ha
    exact ⟨hko, dvd_zero _, by rw [arenaSize_eq_blockSize c hc.2.1]; omega⟩
  · intro b hb; cases hb
  · intro x hx
    rw [hsum, ownSum_nil, zero_add, covers_eq_one_iff]
    rw [arenaSize_eq_blockSize c hc.2.1] at hx
    omega
  · rw [hsum, ownSum_nil, zero_add, arenaSize_eq_blockSize c hc.2.1]
  · intro k a ha hb
    obtain ⟨rfl, rfl⟩ := hmem k a ha
    obtain ⟨_, e⟩ := hmem _ _ hb
    exact buddy_ne c 0 _ (dvd_zero _) e

/-- When no block is owned, the lists below the highest order are empty. -/
theorem Inv.lower_empty {c : Config} {fl : Nat → List Nat} (hc : c.WF) (h : Inv c fl []) :
    ∀ k, k + 1 < c.MX_Ko → fl k = [] := by
  intro k
  induction k using Nat.strong_induction_on with
  | _ k ih =>
    intro hk
    by_contra hne
    obtain ⟨a, ha⟩ := List.exists_mem_of_ne_nil _ hne
    have hblk := h.free_blk k a ha
    have hpos := blockSize_pos c k
    -- the parent block lies in the arena
    have hpd := parent_dvd c a k
    have hdv : c.blockSize (k + 1) ∣ c.arenaSize := by
      rw [arenaSize_eq_blockSize c hc.2.1]; exact blockSize_dvd c (by omega)
    have hpar : parentOf c a k ≤ a ∧ a < parentOf c a k + c.blockSize (k + 1) ∧
        parentOf c a k ≤ buddyOf c a k ∧ buddyOf c a k < parentOf c a k + c.blockSize (k + 1) := by
      rw [blockSize_succ]
      rcases buddy_cases c a k hblk.2.1 with ⟨h1, h2, _⟩ | ⟨h0, h1, h2, _⟩ <;> omega
    have hin : parentOf c a k + c.blockSize (k + 1) ≤ c.arenaSize := by
      have := aligned_interval (c.blockSize (k + 1)) 0 (parentOf c a k) c.arenaSize a
        (dvd_zero _) hpd hdv (Nat.zero_le _) (by have := hblk.lt_arena; omega) hpar.1 hpar.2.1
      omega
    have hbx : buddyOf c a k < c.arenaSize := by omega
    -- some free block contains the first byte of the buddy
    have hcov := h.cover _ hbx
    rw [ownSum_nil, zero_add] at hcov
    obtain ⟨j, a', hj, ha', hw⟩ := freeSum_pos c (covers c (buddyOf c a k)) fl
      (by rw [hcov]; exact Nat.one_pos)
    have hcov' : covers c (buddyOf c a k) a' j = 1 := by
      have := covers_le_one c (buddyOf c a k) a' j; omega
    rw [covers_eq_one_iff] at hcov'
    have hblk' := h.free_blk j a' ha'
    rcases Nat.lt_trichotomy j k with hlt | heq | hgt
    · rw [ih j hlt (by omega)] at ha'; cases ha'
    · subst heq
      have := aligned_interval (c.blockSize j) a' (buddyOf c a j) (c.blockSize j)
        (buddyOf c a j) hblk'.2.1 (buddy_dvd c a j hblk.2.1) (dvd_refl _) hcov'.1 hcov'.2
        (le_refl _) (by omega)
      have e : a' = buddyOf c a j := by omega
      rw [e] at ha'
      exact h.nobuddy _ _ ha ha'
    · have hd1 : c.blockSize (k + 1) ∣ a' := dvd_trans (blockSize_dvd c (by omega)) hblk'.2.1
      have hd2 : c.blockSize (k + 1) ∣ c.blockSize j := blockSize_dvd c (by omega)
      have := aligned_interval (c.blockSize (k + 1)) a' (parentOf c a k) (c.blockSize j)
        (buddyOf c a k) hd1 hpd hd2 hcov'.1 hcov'.2 hpar.2.2.1 hpar.2.2.2
      have hc2 : covers c a a' j = 1 := by
        rw [covers_eq_one_iff]; omega
      have := h.free_free_le (Nat.ne_of_gt hgt) ha' ha hblk.lt_arena
      rw [covers_self, hc2] at this
      omega

/-- When no block is owned, the registry is the one `emm_init` makes. -/
theorem Inv.all_free {c : Config} {fl : Nat → List Nat} (hc : c.WF) (h : Inv c fl []) :
    ∀ k, fl k = initFl c k := by
  have hko : c.MX_Ko - 1 < c.MX_Ko := by have := hc.2.1; omega
  have hlow := h.lower_empty hc
  have hzero : ∀ a, a ∈ fl (c.MX_Ko - 1) → a = 0 := by
    intro a ha
    have := (h.free_blk _ a ha).2.2
    rw [arenaSize_eq_blockSize c hc.2.1] at this
    omega
  have hfs : ∀ w : Nat → Nat → Nat, freeSum c w fl = lsum w (c.MX_Ko - 1) (fl (c.MX_Ko - 1)) := by
    intro w
    have e := freeSum_updl c w fl (c.MX_Ko - 1) [] hko
    have hz : freeSum c w (updl fl (c.MX_Ko - 1) []) = 0 := by
      unfold freeSum
      apply Finset.sum_eq_zero
      intro i hi
      by_cases hik : i = c.MX_Ko - 1
      · subst hik; rw [updl_same]; rfl
      · rw [updl_other _ _ _ hik, hlow i (by have := Finset.mem_range.1 hi; omega)]; rfl
    rw [hz, lsum_nil] at e
    omega
  have hcov := h.cover 0 (by rw [arenaSize_eq]; positivity)
  rw [ownSum_nil, zero_add, hfs] at hcov
  intro k
  unfold initFl
  by_cases hk : k = c.MX_Ko - 1
  · subst hk
    rw [updl_same]
    generalize hl : fl (c.MX_Ko - 1) = l at hcov hzero
    match l, hcov, hzero with
    | [], hcov, _ => simp [lsum] at hcov
    | [a], _, hz => rw [hz a (List.mem_singleton_self _)]
    | a :: b :: t, hcov, hz =>
      exfalso
      rw [lsum_cons, lsum_cons, hz a (by simp), hz b (by simp), covers_self] at hcov
      omega
  · rw [updl_other _ _ _ hk]
    by_cases hk2 : k + 1 < c.MX_Ko
    · exact hlow k hk2
    · by_contra hne
      obtain ⟨a, ha⟩ := List.exists_mem_of_ne_nil _ hne
      have := (h.free_blk k a ha).1
      omega

/-! ## Reading and writing memory -/

theorem upd_same (f : Nat → Nat) (a v : Nat) : upd f a v a = v := by simp [upd]

theorem upd_other (f : Nat → Nat) (a v : Nat) {x : Nat} (h : x ≠ a) : upd f a v x = f x := by
  simp [upd, h]

theorem wr8_other (m : Nat → Nat) (a v : Nat) {x : Nat} (h : x ≠ a) : wr8 m a v x = m x := by
  unfold wr8; exact upd_other _ _ _ h

theorem wr16_other (m : Nat → Nat) (a v : Nat) {x : Nat} (h : x < a ∨ a + 2 ≤ x) :
    wr16 m a v x = m x := by
  unfold wr16
  rw [upd_other _ _ _ (by omega), upd_other _ _ _ (by omega)]

theorem wr32_other (m : Nat → Nat) (a v : Nat) {x : Nat} (h : x < a ∨ a + 4 ≤ x) :
    wr32 m a v x = m x := by
  unfold wr32
  rw [upd_other _ _ _ (by omega), upd_other _ _ _ (by omega), upd_other _ _ _ (by omega),
    upd_other _ _ _ (by omega)]

theorem rd8_wr8 (m : Nat → Nat) (a v : Nat) (h : v < 256) : rd8 (wr8 m a v) a = v := by
  unfold rd8 wr8
  rw [upd_same]; exact Nat.mod_eq_of_lt h

theorem rd16_wr16 (m : Nat → Nat) (a v : Nat) (h : v < 65536) : rd16 (wr16 m a v) a = v := by
  have e0 : wr16 m a v a = v % 256 := by
    unfold wr16
    rw [upd_other _ _ _ (by omega), upd_same]
  have e1 : wr16 m a v (a + 1) = v / 256 % 256 := by
    unfold wr16
    rw [upd_same]
  unfold rd16
  rw [e0, e1]
  omega

theorem rd32_wr32 (m : Nat → Nat) (a v : Nat) (h : v < 4294967296) :
    rd32 (wr32 m a v) a = v := by
  have e0 : wr32 m a v a = v % 256 := by
    unfold wr32
    rw [upd_other _ _ _ (by omega), upd_other _ _ _ (by omega), upd_other _ _ _ (by omega),
      upd_same]
  have e1 : wr32 m a v (a + 1) = v / 256 % 256 := by
    unfold wr32
    rw [upd_other _ _ _ (by omega), upd_other _ _ _ (by omega), upd_same]
  have e2 : wr32 m a v (a + 2) = v / 65536 % 256 := by
    unfold wr32
    rw [upd_other _ _ _ (by omega), upd_same]
  have e3 : wr32 m a v (a + 3) = v / 16777216 % 256 := by
    unfold wr32
    rw [upd_same]
  unfold rd32
  rw [e0, e1, e2, e3]
  omega

theorem rd16_congr {m m' : Nat → Nat} {a : Nat} (h : ∀ x, a ≤ x → x < a + 2 → m' x = m x) :
    rd16 m' a = rd16 m a := by
  unfold rd16
  rw [h a (by omega) (by omega), h (a + 1) (by omega) (by omega)]

theorem rd32_congr {m m' : Nat → Nat} {a : Nat} (h : ∀ x, a ≤ x → x < a + 4 → m' x = m x) :
    rd32 m' a = rd32 m a := by
  unfold rd32
  rw [h a (by omega) (by omega), h (a + 1) (by omega) (by omega),
    h (a + 2) (by omega) (by omega), h (a + 3) (by omega) (by omega)]

theorem AgreeOff.refl (m : Nat → Nat) (f : Nat) : AgreeOff m m f := fun _ _ => rfl

theorem AgreeOff.trans {m1 m2 m3 : Nat → Nat} {f : Nat} (h1 : AgreeOff m1 m2 f)
    (h2 : AgreeOff m2 m3 f) : AgreeOff m1 m3 f :=
  fun x hx => (h2 x hx).trans (h1 x hx)

theorem AgreeOff.of_wr8 (m : Nat → Nat) (f v : Nat) : AgreeOff m (wr8 m f v) f :=
  fun _ hx => wr8_other m f v (by omega)

theorem AgreeOff.of_wr16 (m : Nat → Nat) (f v : Nat) : AgreeOff m (wr16 m (f + 4) v) f :=
  fun _ hx => wr16_other m (f + 4) v (by omega)

theorem AgreeOff.of_wr32 (m : Nat → Nat) (f v : Nat) : AgreeOff m (wr32 m f v) f :=
  fun _ hx => wr32_other m f v (by omega)

/-- A byte of another 8-byte unit is not changed. -/
theorem AgreeOff.unit {m1 m2 : Nat → Nat} {f : Nat} (h : AgreeOff m1 m2 f) {a : Nat}
    (hf : 8 ∣ f) (ha : 8 ∣ a) (hne : a ≠ f) {x : Nat} (h1 : a ≤ x) (h2 : x < a + 8) :
    m2 x = m1 x :=
  h x (by omega)

/-! ## Linked lists in memory -/

theorem Chain.nil_iff (c : Config) (m : Nat → Nat) (k p : Nat) : Chain c m k p [] ↔ p = 0 :=
  Iff.rfl

theorem Chain.cons_iff (c : Config) (m : Nat → Nat) (k p a : Nat) (l : List Nat) :
    Chain c m k p (a :: l) ↔
      p = c.base + a ∧ rd16 m (a + 4) = a >>> (c.MX_Ks + k) ∧ Chain c m k (rd32 m a) l :=
  Iff.rfl

theorem Chain.eq_nil {c : Config} {m : Nat → Nat} {k : Nat} {l : List Nat} (hb : 0 < c.base)
    (h : Chain c m k 0 l) : l = [] := by
  cases l with
  | nil => rfl
  | cons a t => have := h.1; omega

theorem Chain.exists_cons {c : Config} {m : Nat → Nat} {k p : Nat} {l : List Nat}
    (h : Chain c m k p l) (hp : p ≠ 0) : ∃ a t, l = a :: t ∧ p = c.base + a := by
  cases l with
  | nil => exact absurd h hp
  | cons a t => exact ⟨a, t, rfl, h.1⟩

/-- A list is not affected by a write to the unit of a block that is not on it. -/
theorem Chain.frame_list {c : Config} {m m' : Nat → Nat} {k f : Nat} (hm : AgreeOff m m' f)
    (hf : 8 ∣ f) : ∀ {p : Nat} {l : List Nat}, Chain c m k p l →
      (∀ a, a ∈ l → 8 ∣ a ∧ a ≠ f) → Chain c m' k p l := by
  intro p l
  induction l generalizing p with
  | nil => intro h _; exact h
  | cons a t ih =>
    intro h hl
    obtain ⟨h1, h2, h3⟩ := h
    obtain ⟨ha8, hane⟩ := hl a (List.mem_cons_self _ _)
    have e16 : rd16 m' (a + 4) = rd16 m (a + 4) :=
      rd16_congr (fun x hx1 hx2 => hm.unit hf ha8 hane (by omega) (by omega))
    have e32 : rd32 m' a = rd32 m a :=
      rd32_congr (fun x hx1 hx2 => hm.unit hf ha8 hane (by omega) (by omega))
    refine ⟨h1, by rw [e16]; exact h2, ?_⟩
    rw [e32]
    exact ih h3 (fun b hb => hl b (List.mem_cons_of_mem _ hb))

/-- The pointer stored at the head of a list of blocks of the arena fits 32 bits. -/
theorem Chain.head_lt {c : Config} {m : Nat → Nat} {k p : Nat} {l : List Nat} (hc : c.WF)
    (h : Chain c m k p l) (hl : ∀ a, a ∈ l → a < c.arenaSize) : p < 4294967296 := by
  have htop := hc.2.2.2.2
  cases l with
  | nil => rw [(Chain.nil_iff c m k p).1 h]; norm_num
  | cons a t =>
    have := h.1
    have := hl a (List.mem_cons_self _ _)
    omega

/-- Unlinking the node `b` that follows the node `q`. -/
theorem Chain.unlink {c : Config} {m : Nat → Nat} {k b : Nat} {l2 : List Nat} (hc : c.WF)
    (q : Nat) : ∀ (l1 : List Nat) (p : Nat), Chain c m k p (l1 ++ q :: b :: l2) →
      (l1 ++ q :: b :: l2).Nodup → (∀ a, a ∈ l1 ++ q :: b :: l2 → 8 ∣ a ∧ a < c.arenaSize) →
      Chain c (wr32 m q (rd32 m b)) k p (l1 ++ q :: l2) := by
  intro l1
  induction l1 with
  | nil =>
    intro p h hnd hal
    simp only [List.nil_append] at h hnd hal ⊢
    obtain ⟨h1, h2, h3⟩ := h
    obtain ⟨_, _, h6⟩ := h3
    have hq8 := (hal q (List.mem_cons_self _ _)).1
    have hlt : rd32 m b < 4294967296 :=
      Chain.head_lt hc h6 (fun a ha => (hal a (by simp [ha])).2)
    refine ⟨h1, ?_, ?_⟩
    · rw [← h2]
      exact rd16_congr (fun x hx1 hx2 => wr32_other m q _ (by omega))
    · rw [rd32_wr32 _ _ _ hlt]
      apply Chain.frame_list (AgreeOff.of_wr32 m q _) hq8 h6
      intro a ha
      refine ⟨(hal a (by simp [ha])).1, ?_⟩
      rintro rfl
      rw [List.nodup_cons] at hnd
      exact hnd.1 (List.mem_cons_of_mem _ ha)
  | cons x t ih =>
    intro p h hnd hal
    simp only [List.cons_append] at h hnd hal ⊢
    obtain ⟨h1, h2, h3⟩ := h
    have hq8 := (hal q (by simp)).1
    have hx8 := (hal x (List.mem_cons_self _ _)).1
    have hne : x ≠ q := by
      rintro rfl
      rw [List.nodup_cons] at hnd
      exact hnd.1 (by simp)
    have hag := AgreeOff.of_wr32 m q (rd32 m b)
    have e16 : rd16 (wr32 m q (rd32 m b)) (x + 4) = rd16 m (x + 4) :=
      rd16_congr (fun y hy1 hy2 => hag.unit hq8 hx8 hne (by omega) (by omega))
    have e32 : rd32 (wr32 m q (rd32 m b)) x = rd32 m x :=
      rd32_congr (fun y hy1 hy2 => hag.unit hq8 hx8 hne (by omega) (by omega))
    refine ⟨h1, by rw [e16]; exact h2, ?_⟩
    rw [e32]
    exact ih _ h3 (List.nodup_cons.1 hnd).2 (fun a ha => hal a (List.mem_cons_of_mem _ ha))

/-- Following the list visits exactly its nodes. -/
theorem Chain.walk_eq {c : Config} {st : State} {k : Nat} (hbase : 0 < c.base) :
    ∀ (l : List Nat) (p n : Nat), Chain c st.mainMemory k p l →
      (∀ a, a ∈ l → c.validItem (c.base + a)) → l.length < n →
      walk c st n p = some (l.map (fun a => c.base + a)) := by
  intro l
  induction l with
  | nil =>
    intro p n h _ hn
    cases n with
    | zero => simp at hn
    | succ n => rw [(Chain.nil_iff _ _ _ _).1 h]; simp [EMM.walk]
  | cons a t ih =>
    intro p n h hv hn
    cases n with
    | zero => simp at hn
    | succ n =>
      obtain ⟨h1, _, h3⟩ := h
      have hva := hv a (List.mem_cons_self _ _)
      have hp : p ≠ 0 := by
        intro e
        rw [e] at h1
        omega
      have hn' : t.length < n := by simpa using hn
      have := ih _ n h3 (fun b hb => hv b (List.mem_cons_of_mem _ hb)) hn'
      unfold EMM.walk
      rw [if_neg hp, h1, if_pos hva]
      have e : c.base + a - c.base = a := by omega
      rw [e, this]
      rfl

/-! ## The state and the ghost lists -/

theorem Sim.frame_unit {c : Config} {st : State} {fl : Nat → List Nat} {owned : List (Nat × Nat)}
    {m' : Nat → Nat} {f : Nat} (hs : Sim c st fl owned) (hf : 8 ∣ f)
    (hm : AgreeOff st.mainMemory m' f) (hfl : ∀ k a, a ∈ fl k → 8 ∣ a ∧ a ≠ f)
    (how : ∀ b, b ∈ owned → 8 ∣ b.1 ∧ b.1 ≠ f) :
    Sim c ⟨m', st.memoryControlBlock⟩ fl owned := by
  constructor
  · intro k hk
    exact Chain.frame_list hm hf (hs.chain k hk) (hfl k)
  · intro b hb
    obtain ⟨h8, hne⟩ := how b hb
    have := hs.saved b hb
    unfold rd8 at this ⊢
    simp only
    rw [hm.unit hf h8 hne (le_refl _) (by omega)]
    exact this

/-- Writing into the first 8 bytes of a block that is owned and not among the
tagged ones. -/
theorem Sim.write_unit {c : Config} {st : State} {fl : Nat → List Nat}
    {owned : List (Nat × Nat)} {m' : Nat → Nat} {f j : Nat} (hc : c.WF)
    (hs : Sim c st fl owned) (hi : Inv c fl ((f, j) :: owned))
    (hm : AgreeOff st.mainMemory m' f) : Sim c ⟨m', st.memoryControlBlock⟩ fl owned := by
  have hf : 8 ∣ f := (hi.own_blk (f, j) (List.mem_cons_self _ _)).eight_dvd hc
  apply hs.frame_unit hf hm
  · intro k a ha
    exact ⟨(hi.free_blk k a ha).eight_dvd hc, hi.free_ne_own (List.mem_cons_self _ _) ha⟩
  · intro b hb
    exact ⟨(hi.own_blk b (List.mem_cons_of_mem _ hb)).eight_dvd hc, hi.head_ne_own hb⟩

/-- Writing into the first 8 bytes of a block that is on a free list changes
no other list and no tag. -/
theorem Sim.write_free {c : Config} {st : State} {fl : Nat → List Nat}
    {owned owned' : List (Nat × Nat)} {m' : Nat → Nat} {q k : Nat} (hc : c.WF)
    (hs : Sim c st fl owned) (hi : Inv c fl owned') (hsub : ∀ b, b ∈ owned → b ∈ owned')
    (hq : q ∈ fl k) (hm : AgreeOff st.mainMemory m' q) :
    (∀ i, i < c.MX_Ko → i ≠ k → Chain c m' i (st.memoryControlBlock i) (fl i)) ∧
      ∀ b, b ∈ owned → rd8 m' b.1 = b.2 := by
  have hq8 : 8 ∣ q := (hi.free_blk k q hq).eight_dvd hc
  constructor
  · intro i hi' hne
    apply Chain.frame_list hm hq8 (hs.chain i hi')
    intro a ha
    refine ⟨(hi.free_blk i a ha).eight_dvd hc, ?_⟩
    rintro rfl
    exact hi.free_ne_free (Ne.symm hne) hq ha
  · intro b hb
    have h8 := (hi.own_blk b (hsub b hb)).eight_dvd hc
    have hne : b.1 ≠ q := fun e => hi.free_ne_own (hsub b hb) hq e.symm
    have := hs.saved b hb
    unfold rd8 at this ⊢
    rw [hm.unit hq8 h8 hne (le_refl _) (by omega)]
    exact this

theorem Sim.set_list {c : Config} {st : State} {fl : Nat → List Nat}
    {owned : List (Nat × Nat)} {k p : Nat} {l : List Nat} (hs : Sim c st fl owned)
    (hk : Chain c st.mainMemory k p l) :
    Sim c ⟨st.mainMemory, upd st.memoryControlBlock k p⟩ (updl fl k l) owned := by
  constructor
  · intro i hi
    simp only
    by_cases hik : i = k
    · subst hik; rw [upd_same, updl_same]; exact hk
    · rw [upd_other _ _ _ hik, updl_other _ _ _ hik]; exact hs.chain i hi
  · exact hs.saved

theorem Sim.add_owned {c : Config} {st : State} {fl : Nat → List Nat}
    {owned : List (Nat × Nat)} {a k : Nat} (hs : Sim c st fl owned)
    (h : rd8 st.mainMemory a = k) : Sim c st fl ((a, k) :: owned) := by
  refine ⟨hs.chain, ?_⟩
  intro b hb
  rcases List.mem_cons.1 hb with rfl | hb'
  · exact h
  · exact hs.saved b hb'

theorem Sim.head_zero_iff {c : Config} {st : State} {fl : Nat → List Nat}
    {owned : List (Nat × Nat)} (hc : c.WF) (hs : Sim c st fl owned) {k : Nat}
    (hk : k < c.MX_Ko) : st.memoryControlBlock k = 0 ↔ fl k = [] := by
  constructor
  · intro h
    have := hs.chain k hk
    rw [h] at this
    exact this.eq_nil hc.2.2.2.1
  · intro h
    have := hs.chain k hk
    rw [h] at this
    exact this

theorem order_lt_256 {c : Config} (hc : c.WF) {k : Nat} (hk : k < c.MX_Ko) : k < 256 := by
  have := hc.2.2.1; omega

/-! ## `emm_malloc` on a good state -/

/-- Tagging the owned block at `B` with its order. -/
theorem split_final {c : Config} {st : State} {fl : Nat → List Nat}
    {owned : List (Nat × Nat)} {B K : Nat} (hc : c.WF) (hs : Sim c st fl owned)
    (hi : Inv c fl ((B, K) :: owned)) :
    c.valid (c.base + B) 1 ∧
      Sim c ⟨wr8 st.mainMemory B K, st.memoryControlBlock⟩ fl ((B, K) :: owned) := by
  have hblk := hi.own_blk (B, K) (List.mem_cons_self _ _)
  constructor
  · have := hblk.add_eight_le hc
    unfold Config.valid; omega
  · have h1 := hs.write_unit hc hi (AgreeOff.of_wr8 st.mainMemory B K)
    exact h1.add_owned (rd8_wr8 _ _ _ (order_lt_256 hc hblk.1))

/-- One pass of the splitting loop: the upper half of the owned block goes on
the empty list of order `j`. -/
theorem split_step {c : Config} {st : State} {fl : Nat → List Nat}
    {owned : List (Nat × Nat)} {B j : Nat} (hc : c.WF) (hs : Sim c st fl owned)
    (hi : Inv c fl ((B, j + 1) :: owned)) (he : fl j = []) :
    c.validItem (c.base + (B + c.blockSize j)) ∧
      Sim c ⟨wr32 (wr16 st.mainMemory (B + c.blockSize j + 4)
                (((B + c.blockSize j) >>> (c.MX_Ks + j)) % 65536))
              (B + c.blockSize j) (st.memoryControlBlock j),
            upd st.memoryControlBlock j (c.base + (B + c.blockSize j))⟩
          (updl fl j [B + c.blockSize j]) owned ∧
      Inv c (updl fl j [B + c.blockSize j]) ((B, j) :: owned) := by
  have hi1 := hi.split he
  have hblk := hi.own_blk (B, j + 1) (List.mem_cons_self _ _)
  obtain ⟨hlo, hhi⟩ := hblk.halves
  have hj : j < c.MX_Ko := hlo.1
  have hf : B + c.blockSize j ∈ updl fl j [B + c.blockSize j] j := by
    rw [updl_same]; exact List.mem_singleton_self _
  have hmcb : st.memoryControlBlock j = 0 := (hs.head_zero_iff hc hj).2 he
  set f := B + c.blockSize j with hfdef
  set m1 := wr16 st.mainMemory (f + 4) ((f >>> (c.MX_Ks + j)) % 65536) with hm1
  set m2 := wr32 m1 f (st.memoryControlBlock j) with hm2
  have hag : AgreeOff st.mainMemory m2 f :=
    (AgreeOff.of_wr16 st.mainMemory f _).trans (AgreeOff.of_wr32 m1 f _)
  have hf8 : 8 ∣ f := hhi.eight_dvd hc
  -- the other lists and the tags are not touched
  have hs1 : Sim c ⟨m2, st.memoryControlBlock⟩ fl owned := by
    apply hs.frame_unit hf8 hag
    · intro k a ha
      refine ⟨(hi.free_blk k a ha).eight_dvd hc, ?_⟩
      rintro rfl
      by_cases hk : k = j
      · subst hk; rw [he] at ha; cases ha
      · have ha' : f ∈ updl fl j [f] k := by rw [updl_other _ _ _ hk]; exact ha
        exact hi1.free_ne_free (Ne.symm hk) hf ha'
    · intro b hb
      refine ⟨(hi.own_blk b (List.mem_cons_of_mem _ hb)).eight_dvd hc, ?_⟩
      intro e
      exact hi1.free_ne_own (List.mem_cons_of_mem _ hb) hf e.symm
  -- the new one-node list
  have hlt : f >>> (c.MX_Ks + j) < 65536 := by
    have h1 : f >>> (c.MX_Ks + j) ≤ f := by
      rw [Nat.shiftRight_eq_div_pow]; exact Nat.div_le_self _ _
    have h2 := hhi.lt_arena
    have h3 := arenaSize_le c hc
    omega
  have hch : Chain c m2 j (c.base + f) [f] := by
    refine ⟨rfl, ?_, ?_⟩
    · have e : rd16 m2 (f + 4) = rd16 m1 (f + 4) :=
        rd16_congr (fun x hx1 hx2 => wr32_other m1 f _ (by omega))
      rw [e, hm1, rd16_wr16 _ _ _ (Nat.mod_lt _ (by norm_num)), Nat.mod_eq_of_lt hlt]
    · rw [hm2, hmcb, rd32_wr32 _ _ _ (by norm_num)]
      exact (Chain.nil_iff _ _ _ _).2 rfl
  exact ⟨hhi.item_valid hc, hs1.set_list hch, hi1⟩

theorem splitFl_step (c : Config) (fl : Nat → List Nat) (B K j : Nat) (h : K ≤ j + 1) :
    splitFl c (updl fl (j + 1) [B + c.blockSize (j + 1)]) B K j = splitFl c fl B K (j + 1) := by
  funext i
  unfold splitFl
  by_cases h1 : K ≤ i ∧ i ≤ j
  · rw [if_pos h1, if_pos (by omega)]
  · rw [if_neg h1]
    by_cases h2 : i = j + 1
    · subst h2; rw [updl_same, if_pos (by omega)]
    · rw [updl_other _ _ _ h2, if_neg (by omega)]

theorem splitFl_same (c : Config) (fl : Nat → List Nat) (B K : Nat) :
    splitFl c fl B K K = updl fl K [B + c.blockSize K] := by
  funext i
  unfold splitFl
  by_cases h : K ≤ i ∧ i ≤ K
  · have : i = K := by omega
    subst this
    rw [if_pos h, updl_same]
  · rw [if_neg h, updl_other _ _ _ (by omega)]

theorem blockSize_shift (c : Config) (j : Nat) : c.blockSize (j + 1) >>> 1 = c.blockSize j := by
  rw [Nat.shiftRight_eq_div_pow, blockSize_succ, pow_one]
  omega

/-- The splitting loop of `emm_malloc` on an owned block of order `j + 1`. -/
theorem splitLoop_sim {c : Config} {owned : List (Nat × Nat)} (hc : c.WF) (K B : Nat) :
    ∀ (j : Nat) (st : State) (fl : Nat → List Nat), K ≤ j → Sim c st fl owned →
      Inv c fl ((B, j + 1) :: owned) → (∀ i, K ≤ i → i ≤ j → fl i = []) →
      ∃ st', splitLoop c K (c.base + B) j (c.blockSize j) st
            = .ok (.returned st' (c.base + B + 1)) ∧
        Sim c st' (splitFl c fl B K j) ((B, K) :: owned) ∧
        Inv c (splitFl c fl B K j) ((B, K) :: owned) := by
  intro j
  induction j with
  | zero =>
    intro st fl hK hs hi he
    have hK0 : K = 0 := by omega
    subst hK0
    obtain ⟨hv, hs1, hi1⟩ := split_step hc hs hi (he 0 (le_refl _) (le_refl _))
    obtain ⟨hv1, hs2⟩ := split_final hc hs1 hi1
    have e1 : c.base + B + c.blockSize 0 - c.base = B + c.blockSize 0 := by omega
    have e2 : c.base + B - c.base = B := by omega
    have e3 : c.base + B + c.blockSize 0 = c.base + (B + c.blockSize 0) := by omega
    unfold splitLoop
    simp only [Nat.lt_irrefl, if_false, if_true, e1, e2]
    rw [e3]
    simp only [hv, not_true_eq_false, if_false, hv1, if_true]
    rw [splitFl_same]
    exact ⟨_, rfl, hs2, hi1⟩
  | succ j ih =>
    intro st fl hK hs hi he
    obtain ⟨hv, hs1, hi1⟩ := split_step hc hs hi (he (j + 1) hK (le_refl _))
    have e1 : c.base + B + c.blockSize (j + 1) - c.base = B + c.blockSize (j + 1) := by omega
    have e2 : c.base + B - c.base = B := by omega
    have e3 : c.base + B + c.blockSize (j + 1) = c.base + (B + c.blockSize (j + 1)) := by omega
    unfold splitLoop
    rw [if_neg (by omega)]
    simp only [e1, e2]
    rw [e3]
    simp only [hv, not_true_eq_false, if_false]
    by_cases hjK : j + 1 = K
    · subst hjK
      obtain ⟨hv1, hs2⟩ := split_final hc hs1 hi1
      rw [if_pos rfl, if_pos hv1, splitFl_same]
      exact ⟨_, rfl, hs2, hi1⟩
    · rw [if_neg hjK, blockSize_shift]
      have := ih _ (updl fl (j + 1) [B + c.blockSize (j + 1)]) (by omega) hs1 hi1
        (fun i h1 h2 => by rw [updl_other _ _ _ (by omega)]; exact he i h1 (by omega))
      rw [splitFl_step c fl B K j hK] at this
      exact this

theorem ssplit_eq {c : Config} (hc : c.WF) {k : Nat} (hk1 : 1 ≤ k) (hk : k < c.MX_Ko) :
    (1 <<< (c.MX_Ks - 1 + k)) % 65536 = c.blockSize (k - 1) := by
  have h1 := hc.1
  have h3 := hc.2.2.1
  have e : c.MX_Ks - 1 + k = c.MX_Ks + (k - 1) := by omega
  rw [Nat.one_shiftLeft, e]
  unfold Config.blockSize
  apply Nat.mod_eq_of_lt
  have : (65536 : Nat) = 2 ^ 16 := by norm_num
  rw [this]
  exact Nat.pow_lt_pow_right (by norm_num) (by omega)

/-- The search of `emm_malloc` for a larger block, and the split that follows. -/
theorem scanLoop_sim {c : Config} {owned : List (Nat × Nat)} (hc : c.WF) (K : Nat) :
    ∀ (n k : Nat) (st : State) (fl : Nat → List Nat), K < k → k + n = c.MX_Ko →
      Sim c st fl owned → Inv c fl owned → (∀ i, K ≤ i → i < k → fl i = []) →
      (scanLoop c K n k 1 st = .ok (st, 0) ∧ ∀ i, K ≤ i → i < c.MX_Ko → fl i = []) ∨
      ∃ st' B k' t, k ≤ k' ∧ k' < c.MX_Ko ∧ fl k' = B :: t ∧
        (∀ i, K ≤ i → i < k' → fl i = []) ∧
        scanLoop c K n k 1 st = .ok (st', c.base + B + 1) ∧
        Sim c st' (splitFl c (updl fl k' t) B K (k' - 1)) ((B, K) :: owned) ∧
        Inv c (splitFl c (updl fl k' t) B K (k' - 1)) ((B, K) :: owned) := by
  intro n
  induction n with
  | zero =>
    intro k st fl _ hn _ _ he
    left
    exact ⟨rfl, fun i h1 h2 => he i h1 (by omega)⟩
  | succ n ih =>
    intro k st fl hK hn hs hi he
    have hk : k < c.MX_Ko := by omega
    by_cases hnil : fl k = []
    · have hmcb := (hs.head_zero_iff hc hk).2 hnil
      have hstep : scanLoop c K (n + 1) k 1 st = scanLoop c K n (k + 1) 1 st := by
        rw [scanLoop, if_neg (by simp [hmcb])]
      rw [hstep]
      rcases ih (k + 1) st fl (by omega) (by omega) hs hi
        (fun i h1 h2 => by
          by_cases hik : i = k
          · rw [hik]; exact hnil
          · exact he i h1 (by omega)) with h | ⟨st', B, k', t, h1, h2, h3, h4, h5⟩
      · exact Or.inl h
      · exact Or.inr ⟨st', B, k', t, by omega, h2, h3, h4, h5⟩
    · right
      have hmcb0 : st.memoryControlBlock k ≠ 0 := fun e => hnil ((hs.head_zero_iff hc hk).1 e)
      obtain ⟨B, t, hl, hp⟩ := (hs.chain k hk).exists_cons hmcb0
      have hch := hs.chain k hk
      rw [hl] at hch
      have hblk := hi.free_blk k B (by rw [hl]; exact List.mem_cons_self _ _)
      have hv := hblk.item_valid hc
      have hi1 : Inv c (updl fl k t) ((B, k) :: owned) := hi.take_head hl
      have hs1 : Sim c ⟨st.mainMemory, upd st.memoryControlBlock k (rd32 st.mainMemory B)⟩
          (updl fl k t) owned := hs.set_list hch.2.2
      have hk1 : k - 1 + 1 = k := by omega
      obtain ⟨st', hsp, hs2, hi2⟩ := splitLoop_sim hc K B (k - 1) _ (updl fl k t) (by omega)
        hs1 (by rw [hk1]; exact hi1)
        (fun i h1 h2 => by rw [updl_other _ _ _ (by omega)]; exact he i h1 (by omega))
      refine ⟨st', B, k, t, le_refl _, hk, hl, he, ?_, hs2, hi2⟩
      have e2 : c.base + B - c.base = B := by omega
      rw [scanLoop, if_pos hmcb0]
      simp only [hp, hv, not_true_eq_false, if_false, e2, ssplit_eq hc (by omega) hk]
      rw [hsp]

theorem blockOf_ptr (c : Config) (B size : Nat) :
    blockOf c (c.base + B + 1, size) = (B, Krequired c size) := by
  unfold blockOf
  simp only
  congr 1
  omega

/-- On a good state `emm_malloc` returns, and the state it leaves is good. -/
theorem emm_malloc_good {c : Config} (hc : c.WF) (s : Sys) (hg : Good c s) (size : Nat)
    (hsz : size < 65536) :
    ∃ st' p, emm_malloc c s.st size = .ok (st', p) ∧
      Good c ⟨st', if p = 0 then s.live else (p, size) :: s.live⟩ := by
  obtain ⟨fl, hs, hi, hl⟩ := hg
  by_cases hK : Krequired c size ≥ c.MX_Ko
  · refine ⟨s.st, 0, ?_, ?_⟩
    · unfold emm_malloc; simp only; rw [if_pos hK]
    · rw [if_pos rfl]; exact ⟨fl, hs, hi, hl⟩
  · have hK' : Krequired c size < c.MX_Ko := by omega
    by_cases hnil : fl (Krequired c size) = []
    · have hmcb := (hs.head_zero_iff hc hK').2 hnil
      have hstep : emm_malloc c s.st size
          = scanLoop c (Krequired c size) (c.MX_Ko - (Krequired c size + 1))
              (Krequired c size + 1) 1 s.st := by
        unfold emm_malloc; simp only; rw [if_neg hK, if_neg (by simp [hmcb])]
      rw [hstep]
      rcases scanLoop_sim hc (Krequired c size) (c.MX_Ko - (Krequired c size + 1))
        (Krequired c size + 1) s.st fl (by omega)
        (by omega) hs hi (fun i h1 h2 => by
          have : i = Krequired c size := by omega
          rw [this]; exact hnil) with ⟨h, _⟩ | ⟨st', B, k', t, _, _, _, _, h5, h6, h7⟩
      · refine ⟨s.st, 0, h, ?_⟩
        rw [if_pos rfl]; exact ⟨fl, hs, hi, hl⟩
      · refine ⟨st', c.base + B + 1, h5, ?_⟩
        rw [if_neg (by omega)]
        refine ⟨splitFl c (updl fl k' t) B (Krequired c size) (k' - 1), ?_, ?_, ?_⟩
        · simp only [List.map_cons, blockOf_ptr]; exact h6
        · simp only [List.map_cons, blockOf_ptr]; exact h7
        · intro e he
          rcases List.mem_cons.1 he with rfl | he'
          · exact ⟨by simp, hsz⟩
          · exact hl e he'
    · have hmcb0 : s.st.memoryControlBlock (Krequired c size) ≠ 0 :=
        fun e => hnil ((hs.head_zero_iff hc hK').1 e)
      obtain ⟨B, t, hlst, hp⟩ := (hs.chain _ hK').exists_cons hmcb0
      have hch := hs.chain _ hK'
      rw [hlst] at hch
      have hblk := hi.free_blk _ B (by rw [hlst]; exact List.mem_cons_self _ _)
      have hv := hblk.item_valid hc
      have hi1 : Inv c (updl fl (Krequired c size) t)
          ((B, Krequired c size) :: s.live.map (blockOf c)) := hi.take_head hlst
      have hs1 : Sim c ⟨s.st.mainMemory,
          upd s.st.memoryControlBlock (Krequired c size) (rd32 s.st.mainMemory B)⟩
          (updl fl (Krequired c size) t) (s.live.map (blockOf c)) := hs.set_list hch.2.2
      obtain ⟨_, hs2⟩ := split_final hc hs1 hi1
      have e2 : c.base + B - c.base = B := by omega
      refine ⟨⟨wr8 s.st.mainMemory B (Krequired c size),
          upd s.st.memoryControlBlock (Krequired c size) (rd32 s.st.mainMemory B)⟩,
        c.base + B + 1, ?_, ?_⟩
      · unfold emm_malloc
        simp only
        rw [if_neg hK, if_pos hmcb0]
        simp only [hp, hv, not_true_eq_false, if_false, e2]
      · rw [if_neg (by omega)]
        refine ⟨updl fl (Krequired c size) t, ?_, ?_, ?_⟩
        · simp only [List.map_cons, blockOf_ptr]; exact hs2
        · simp only [List.map_cons, blockOf_ptr]; exact hi1
        · intro e he
          rcases List.mem_cons.1 he with rfl | he'
          · exact ⟨by simp, hsz⟩
          · exact hl e he'

/-! ## The search loop of `emm_free` -/

theorem lastPtr_concat (c : Config) (q : Nat) :
    ∀ (l : List Nat) (prior : Option Nat), lastPtr c prior (l ++ [q]) = some (c.base + q) := by
  intro l
  induction l with
  | nil => intro prior; rfl
  | cons a t ih => intro prior; exact ih _

theorem buddyScan_none {c : Config} (st : State) {k t : Nat} (hbase : 0 < c.base) :
    ∀ (l : List Nat) (n p : Nat) (prior : Option Nat), Chain c st.mainMemory k p l →
      (∀ a, a ∈ l → c.validItem (c.base + a)) → (∀ a, a ∈ l → a >>> (c.MX_Ks + k) ≠ t) →
      l.length < n → buddyScan c st k t n p prior = .ok none := by
  intro l
  induction l with
  | nil =>
    intro n p prior h _ _ hn
    cases n with
    | zero => simp at hn
    | succ n => rw [(Chain.nil_iff _ _ _ _).1 h]; simp [buddyScan]
  | cons a l ih =>
    intro n p prior h hv hne hn
    cases n with
    | zero => simp at hn
    | succ n =>
      obtain ⟨h1, h2, h3⟩ := h
      have hva := hv a (List.mem_cons_self _ _)
      have hp : p ≠ 0 := by rw [h1]; omega
      have e : c.base + a - c.base = a := by omega
      have hn' : l.length < n := by simpa using hn
      rw [buddyScan, if_neg hp, h1]
      simp only [hva, not_true_eq_false, if_false, e]
      rw [h2, if_neg (hne a (List.mem_cons_self _ _))]
      exact ih n _ _ h3 (fun b hb => hv b (List.mem_cons_of_mem _ hb))
        (fun b hb => hne b (List.mem_cons_of_mem _ hb)) hn'

theorem buddyScan_found {c : Config} (st : State) {k t b : Nat} {l2 : List Nat}
    (hbase : 0 < c.base) :
    ∀ (l1 : List Nat) (n p : Nat) (prior : Option Nat),
      Chain c st.mainMemory k p (l1 ++ b :: l2) →
      (∀ a, a ∈ l1 ++ b :: l2 → c.validItem (c.base + a)) →
      (∀ a, a ∈ l1 → a >>> (c.MX_Ks + k) ≠ t) → b >>> (c.MX_Ks + k) = t →
      l1.length < n →
      buddyScan c st k t n p prior
        = .ok (some (unlinkState c st k (lastPtr c prior l1) (rd32 st.mainMemory b))) := by
  intro l1
  induction l1 with
  | nil =>
    intro n p prior h hv _ hb hn
    cases n with
    | zero => simp at hn
    | succ n =>
      simp only [List.nil_append] at h hv
      obtain ⟨h1, h2, _⟩ := h
      have hvb := hv b (List.mem_cons_self _ _)
      have hp : p ≠ 0 := by rw [h1]; omega
      have e : c.base + b - c.base = b := by omega
      rw [buddyScan, if_neg hp, h1]
      simp only [hvb, not_true_eq_false, if_false, e]
      rw [h2, if_pos hb]
      cases prior <;> rfl
  | cons a l ih =>
    intro n p prior h hv hne hb hn
    cases n with
    | zero => simp at hn
    | succ n =>
      simp only [List.cons_append] at h hv
      obtain ⟨h1, h2, h3⟩ := h
      have hva := hv a (List.mem_cons_self _ _)
      have hp : p ≠ 0 := by rw [h1]; omega
      have e : c.base + a - c.base = a := by omega
      have hn' : l.length < n := by simpa using hn
      rw [buddyScan, if_neg hp, h1]
      simp only [hva, not_true_eq_false, if_false, e]
      rw [h2, if_neg (hne a (List.mem_cons_self _ _))]
      exact ih n _ _ h3 (fun x hx => hv x (List.mem_cons_of_mem _ hx))
        (fun x hx => hne x (List.mem_cons_of_mem _ hx)) hb hn'

/-- The state after the buddy has been unlinked holds the list without it. -/
theorem unlink_sim {c : Config} {st : State} {fl : Nat → List Nat}
    {owned owned' : List (Nat × Nat)} {k b : Nat} {l1 l2 : List Nat} (hc : c.WF)
    (hs : Sim c st fl owned) (hi : Inv c fl owned') (hsub : ∀ x, x ∈ owned → x ∈ owned')
    (hl : fl k = l1 ++ b :: l2) :
    Sim c (unlinkState c st k (lastPtr c none l1) (rd32 st.mainMemory b))
      (updl fl k (l1 ++ l2)) owned := by
  have hbk : b ∈ fl k := by rw [hl]; simp
  have hk : k < c.MX_Ko := (hi.free_blk k b hbk).1
  have hch := hs.chain k hk
  rcases List.eq_nil_or_concat l1 with rfl | ⟨l1', q, rfl⟩
  · simp only [List.nil_append] at hl ⊢
    rw [hl] at hch
    exact hs.set_list hch.2.2
  · rw [List.concat_eq_append] at hl ⊢
    rw [lastPtr_concat]
    have e : c.base + q - c.base = q := by omega
    have hl' : fl k = l1' ++ q :: b :: l2 := by rw [hl]; simp
    have hql : q ∈ fl k := by rw [hl']; simp
    have hnd := hi.free_nodup k
    rw [hl'] at hch hnd
    have hal : ∀ a, a ∈ l1' ++ q :: b :: l2 → 8 ∣ a ∧ a < c.arenaSize := by
      intro a ha
      have hb := hi.free_blk k a (by rw [hl']; exact ha)
      exact ⟨hb.eight_dvd hc, hb.lt_arena⟩
    have hun := Chain.unlink hc q l1' _ hch hnd hal
    obtain ⟨hoth, hsv⟩ := hs.write_free hc hi hsub hql (AgreeOff.of_wr32 st.mainMemory q
      (rd32 st.mainMemory b))
    unfold unlinkState
    simp only [e]
    constructor
    · intro i hi'
      simp only
      by_cases hik : i = k
      · subst hik
        rw [updl_same]
        have : l1' ++ [q] ++ l2 = l1' ++ q :: l2 := by simp
        rw [this]; exact hun
      · rw [updl_other _ _ _ hik]; exact hoth i hi' hik
    · exact hsv

/-! ## Ordered addresses -/

theorem shr_eq_div (c : Config) (a k : Nat) : a >>> (c.MX_Ks + k) = a / c.blockSize k :=
  Nat.shiftRight_eq_div_pow _ _

theorem aligned_div_inj {S x y : Nat} (hx : S ∣ x) (hy : S ∣ y) (h : x / S = y / S) : x = y := by
  rw [← Nat.div_mul_cancel hx, ← Nat.div_mul_cancel hy, h]

theorem oaddr_lt {c : Config} (hc : c.WF) {a k : Nat} (h : IsBlock c a k) :
    a / c.blockSize k < 8192 := by
  have h8 := eight_le_blockSize c hc.1 k
  have hlt := h.lt_arena
  have := arenaSize_le c hc
  have h1 : a / c.blockSize k ≤ a / 8 := Nat.div_le_div_left h8 (by norm_num)
  omega

/-- The ordered address the search looks for is the buddy's. -/
theorem target_eq {c : Config} (hc : c.WF) {a k : Nat} (h : IsBlock c a k) :
    ((a / c.blockSize k) ^^^ 1) % 65536 = buddyOf c a k / c.blockSize k := by
  have hpos := blockSize_pos c k
  have hq := oaddr_lt hc h
  rcases buddy_cases c a k h.2.1 with ⟨h1, _, h3⟩ | ⟨h0, h1, _, h3⟩
  · rw [h1, xor_one_even _ h3, Nat.add_div_right _ hpos]
    exact Nat.mod_eq_of_lt (by omega)
  · rw [h1, xor_one_odd _ h3]
    have : (a - c.blockSize k) / c.blockSize k = a / c.blockSize k - 1 := by
      obtain ⟨q, rfl⟩ := h.2.1
      rw [Nat.mul_div_cancel_left _ hpos]
      have hq1 : 1 ≤ q := by
        rcases Nat.eq_zero_or_pos q with rfl | h'
        · simp at h0; omega
        · exact h'
      have : c.blockSize k * q - c.blockSize k = c.blockSize k * (q - 1) := by
        rw [Nat.mul_sub, Nat.mul_one]
      rw [this, Nat.mul_div_cancel_left _ hpos]
    rw [this]
    exact Nat.mod_eq_of_lt (by omega)

/-- Toggling the low bit of the buddy's ordered address gives the block's own. -/
theorem target_back {c : Config} (hc : c.WF) {a k : Nat} (h : IsBlock c a k) :
    ((buddyOf c a k / c.blockSize k) ^^^ 1) % 65536 = a / c.blockSize k := by
  have hq := oaddr_lt hc h
  have ht : ((a / c.blockSize k) ^^^ 1) % 65536 = (a / c.blockSize k) ^^^ 1 := by
    apply Nat.mod_eq_of_lt
    rcases Nat.mod_two_eq_zero_or_one (a / c.blockSize k) with h0 | h1
    · rw [xor_one_even _ h0]; omega
    · rw [xor_one_odd _ h1]; omega
  rw [← target_eq hc h, ht, Nat.xor_assoc, Nat.xor_self, Nat.xor_zero]
  exact Nat.mod_eq_of_lt (by omega)

theorem buddy_half {c : Config} {a k : Nat} (h : c.blockSize k ∣ a) :
    (buddyOf c a k / c.blockSize k) >>> 1 = a / c.blockSize (k + 1) := by
  have hpos := blockSize_pos c k
  have e : a / c.blockSize (k + 1) = a / c.blockSize k / 2 := by
    rw [blockSize_succ, mul_comm, Nat.div_div_eq_div_mul]
  rw [Nat.shiftRight_eq_div_pow, pow_one, e]
  rcases buddy_cases c a k h with ⟨h1, _, h3⟩ | ⟨h0, h1, _, h3⟩
  · rw [h1, Nat.add_div_right _ hpos]; omega
  · rw [h1]
    obtain ⟨q, rfl⟩ := h
    rw [Nat.mul_div_cancel_left _ hpos] at h3 ⊢
    have : c.blockSize k * q - c.blockSize k = c.blockSize k * (q - 1) := by
      rw [Nat.mul_sub, Nat.mul_one]
    rw [this, Nat.mul_div_cancel_left _ hpos]
    omega

theorem parent_div (c : Config) (a k : Nat) :
    parentOf c a k / c.blockSize (k + 1) = a / c.blockSize (k + 1) := by
  unfold parentOf
  exact Nat.mul_div_cancel_left _ (blockSize_pos c (k + 1))

theorem length_le_lsum (c : Config) (k : Nat) (l : List Nat) :
    l.length ≤ lsum (fun _ j => c.blockSize j) k l := by
  induction l with
  | nil => simp [lsum]
  | cons a t ih =>
    rw [lsum_cons, List.length_cons]
    have := blockSize_pos c k
    omega

theorem Inv.length_le {c : Config} {fl : Nat → List Nat} {owned : List (Nat × Nat)}
    (h : Inv c fl owned) {k : Nat} (hk : k < c.MX_Ko) : (fl k).length ≤ c.arenaSize := by
  have h1 := length_le_lsum c k (fl k)
  have h2 := freeSum_list_le c (fun _ j => c.blockSize j) fl hk
  have h3 := h.total
  omega

/-! ## `emm_free` on a good state -/

/-- Putting the owned block at `a` at the head of its list. -/
theorem insert_sim {c : Config} {st : State} {fl : Nat → List Nat} {owned : List (Nat × Nat)}
    {a k : Nat} (hc : c.WF) (hs : Sim c st fl owned) (hi : Inv c fl ((a, k) :: owned)) :
    Sim c ⟨wr32 (wr16 st.mainMemory (a + 4) (a / c.blockSize k)) a (st.memoryControlBlock k),
          upd st.memoryControlBlock k (c.base + a)⟩ (updl fl k (a :: fl k)) owned := by
  have hblk := hi.own_blk (a, k) (List.mem_cons_self _ _)
  have hk : k < c.MX_Ko := hblk.1
  have hq : a / c.blockSize k < 8192 := oaddr_lt hc hblk
  set m1 := wr16 st.mainMemory (a + 4) (a / c.blockSize k) with hm1
  set m2 := wr32 m1 a (st.memoryControlBlock k) with hm2
  have hag : AgreeOff st.mainMemory m2 a :=
    (AgreeOff.of_wr16 st.mainMemory a _).trans (AgreeOff.of_wr32 m1 a _)
  have hs1 := hs.write_unit hc hi hag
  have hlt : st.memoryControlBlock k < 4294967296 :=
    Chain.head_lt hc (hs.chain k hk) (fun x hx => (hi.free_blk k x hx).lt_arena)
  have hch : Chain c m2 k (c.base + a) (a :: fl k) := by
    refine ⟨rfl, ?_, ?_⟩
    · have e16 : rd16 m2 (a + 4) = rd16 m1 (a + 4) :=
        rd16_congr (fun x hx1 hx2 => wr32_other m1 a _ (by omega))
      rw [e16, hm1, rd16_wr16 _ _ _ (by omega), shr_eq_div]
    · rw [hm2, rd32_wr32 _ _ _ hlt]
      exact hs1.chain k hk
  exact hs1.set_list hch

/-- The `RETRY` loop of `emm_free` on an owned block: it ends, and leaves a
good state in which the block is owned no more. -/
theorem retry_sim {c : Config} {owned : List (Nat × Nat)} (hc : c.WF) :
    ∀ (n k a : Nat) (st : State) (fl : Nat → List Nat), c.MX_Ko - k < n →
      Sim c st fl owned → Inv c fl ((a, k) :: owned) →
      ∃ st' fl', retry c n st k (c.base + a) (a >>> (c.MX_Ks + k)) = .ok st' ∧
        Sim c st' fl' owned ∧ Inv c fl' owned := by
  intro n
  induction n with
  | zero => intro k a st fl hn; omega
  | succ n ih =>
    intro k a st fl hn hs hi
    have hblk := hi.own_blk (a, k) (List.mem_cons_self _ _)
    have hk : k < c.MX_Ko := hblk.1
    have hv := hblk.item_valid hc
    have e : c.base + a - c.base = a := by omega
    have hbase := hc.2.2.2.1
    rw [shr_eq_div]
    by_cases hnil : fl k = []
    · have hmcb := (hs.head_zero_iff hc hk).2 hnil
      have hi1 := hi.give (by rw [hnil]; simp)
      have hs1 := insert_sim hc hs hi
      rw [hmcb] at hs1
      refine ⟨_, updl fl k (a :: fl k), ?_, hs1, hi1⟩
      rw [retry, if_neg (by omega), if_pos hmcb]
      simp only [hv, not_true_eq_false, if_false, e]
    · have hmcb0 : st.memoryControlBlock k ≠ 0 := fun h0 => hnil ((hs.head_zero_iff hc hk).1 h0)
      have ht := target_eq hc hblk
      have hvall : ∀ x, x ∈ fl k → c.validItem (c.base + x) :=
        fun x hx => (hi.free_blk k x hx).item_valid hc
      have hlen : (fl k).length < c.arenaSize + 1 := by
        have := hi.length_le hk; omega
      by_cases hm : buddyOf c a k ∈ fl k
      · obtain ⟨l1, l2, hl⟩ := List.append_of_mem hm
        have hnd := hi.free_nodup k
        rw [hl] at hnd
        have hb1 : buddyOf c a k ∉ l1 := by
          intro hmem
          exact (List.disjoint_of_nodup_append hnd) hmem (List.mem_cons_self _ _)
        have hch := hs.chain k hk
        rw [hl] at hch hvall hlen
        have hscan := buddyScan_found st (k := k) (t := buddyOf c a k / c.blockSize k)
          hbase l1 (c.arenaSize + 1) (st.memoryControlBlock k) none hch hvall
          (fun x hx heq => by
            rw [shr_eq_div] at heq
            have hxk : x ∈ fl k := by rw [hl]; exact List.mem_append_left _ hx
            have := aligned_div_inj (hi.free_blk k x hxk).2.1 (buddy_dvd c a k hblk.2.1) heq
            exact hb1 (this ▸ hx))
          (shr_eq_div c _ k)
          (by simp only [List.length_append, List.length_cons] at hlen; omega)
        have hi2 : Inv c (updl fl k (l1 ++ l2)) ((parentOf c a k, k + 1) :: owned) :=
          ((hi.take hl).perm (List.Perm.swap _ _ _)).merge hc
        have hs2 := unlink_sim hc hs hi (fun x hx => List.mem_cons_of_mem _ hx) hl
        have hpb := hi2.own_blk (parentOf c a k, k + 1) (List.mem_cons_self _ _)
        obtain ⟨st', fl', hr, hs3, hi3⟩ := ih (k + 1) (parentOf c a k) _ _ (by omega) hs2 hi2
        refine ⟨st', fl', ?_, hs3, hi3⟩
        rw [retry, if_neg (by omega), if_neg hmcb0]
        simp only [ht]
        rw [hscan]
        simp only
        have hk1 : (k + 1) % 256 = k + 1 :=
          Nat.mod_eq_of_lt (by have := order_lt_256 hc hpb.1; omega)
        have hsh : 1 <<< (c.MX_Ks + (k + 1)) = c.blockSize (k + 1) := Nat.one_shiftLeft _
        have hpar : c.blockSize (k + 1) * (a / c.blockSize (k + 1)) = parentOf c a k := rfl
        have hplt : parentOf c a k % 4294967296 = parentOf c a k := by
          apply Nat.mod_eq_of_lt
          have := hpb.lt_arena
          have := hc.2.2.2.2
          omega
        rw [hk1, buddy_half hblk.2.1, hsh, hpar, hplt]
        rw [shr_eq_div, parent_div] at hr
        exact hr
      · have hscan := buddyScan_none st (k := k) (t := buddyOf c a k / c.blockSize k)
          hbase (fl k) (c.arenaSize + 1) (st.memoryControlBlock k) none (hs.chain k hk) hvall
          (fun x hx heq => by
            rw [shr_eq_div] at heq
            have := aligned_div_inj (hi.free_blk k x hx).2.1 (buddy_dvd c a k hblk.2.1) heq
            exact hm (this ▸ hx))
          hlen
        have hi1 := hi.give hm
        have hs1 := insert_sim hc hs hi
        refine ⟨_, updl fl k (a :: fl k), ?_, hs1, hi1⟩
        rw [retry, if_neg (by omega), if_neg hmcb0]
        simp only [ht]
        rw [hscan]
        simp only [hv, not_true_eq_false, if_false, e, target_back hc hblk]

theorem perm_filter_of_nodup :
    ∀ (l : List (Nat × Nat)) (e : Nat × Nat), (l.map Prod.fst).Nodup → e ∈ l →
      l.Perm (e :: l.filter (fun x => x.1 ≠ e.1)) := by
  intro l
  induction l with
  | nil => intro e _ he; cases he
  | cons x t ih =>
    intro e hnd he
    rw [List.map_cons, List.nodup_cons] at hnd
    rcases List.mem_cons.1 he with rfl | he'
    · have hself : (e :: t).filter (fun x => x.1 ≠ e.1) = t := by
        rw [List.filter_cons_of_neg (by simp)]
        apply List.filter_eq_self.2
        intro y hy
        have : y.1 ≠ e.1 := fun h => hnd.1 (h ▸ List.mem_map_of_mem _ hy)
        simpa using this
      rw [hself]
    · have hne : x.1 ≠ e.1 := fun h => hnd.1 (h ▸ List.mem_map_of_mem _ he')
      rw [List.filter_cons_of_pos (by simpa using hne)]
      exact ((ih e hnd.2 he').cons x).trans (List.Perm.swap _ _ _)

theorem Good.ptr_nodup {c : Config} {s : Sys} (hg : Good c s) : (s.live.map Prod.fst).Nodup := by
  obtain ⟨fl, _, hi, _⟩ := hg
  have h := hi.own_nodup
  rw [List.map_map] at h
  have e : (Prod.fst ∘ blockOf c) = (fun p => p - 1 - c.base) ∘ Prod.fst := by
    funext x; rfl
  rw [e, ← List.map_map] at h
  exact h.of_map _

/-- On a good state `emm_free` of a live pointer returns, and the state it
leaves is good. -/
theorem emm_free_good {c : Config} (hc : c.WF) (s : Sys) (hg : Good c s) (ptr : Nat)
    (hp : ptr ∈ s.live.map Prod.fst) :
    ∃ st', emm_free c s.st ptr = .ok st' ∧
      Good c ⟨st', s.live.filter (fun a => a.1 ≠ ptr)⟩ := by
  have hnd := hg.ptr_nodup
  obtain ⟨fl, hs, hi, hl⟩ := hg
  obtain ⟨e, he, rfl⟩ := List.mem_map.1 hp
  obtain ⟨hle, _⟩ := hl e he
  have hperm := perm_filter_of_nodup s.live e hnd he
  have hi' : Inv c fl ((e.1 - 1 - c.base, Krequired c e.2)
      :: (s.live.filter (fun a => a.1 ≠ e.1)).map (blockOf c)) :=
    hi.perm (hperm.map (blockOf c))
  have hs' : Sim c s.st fl ((s.live.filter (fun a => a.1 ≠ e.1)).map (blockOf c)) := by
    refine ⟨hs.chain, ?_⟩
    intro b hb
    obtain ⟨x, hx, rfl⟩ := List.mem_map.1 hb
    exact hs.saved _ (List.mem_map_of_mem _ (List.mem_filter.1 hx).1)
  have hblk := hi'.own_blk _ (List.mem_cons_self _ _)
  have hsaved : rd8 s.st.mainMemory (e.1 - 1 - c.base) = Krequired c e.2 :=
    hs.saved (blockOf c e) (List.mem_map_of_mem _ he)
  obtain ⟨st', fl', hr, hs3, hi3⟩ := retry_sim hc (c.MX_Ko + 1) (Krequired c e.2)
    (e.1 - 1 - c.base) s.st fl (by omega) hs' hi'
  have htop := hc.2.2.2.2
  have hlt := hblk.lt_arena
  have hraw : (e.1 + 4294967295) % 4294967296 = e.1 - 1 := by
    simp only at hlt; omega
  have hv : c.valid (e.1 - 1) 1 := by
    simp only at hlt; unfold Config.valid; omega
  have hoa : (e.1 - 1 - c.base) >>> (c.MX_Ks + Krequired c e.2) % 65536
      = (e.1 - 1 - c.base) >>> (c.MX_Ks + Krequired c e.2) := by
    apply Nat.mod_eq_of_lt
    rw [shr_eq_div]
    have := oaddr_lt hc hblk
    simp only at this; omega
  have hfl : c.base + (e.1 - 1 - c.base) = e.1 - 1 := by omega
  refine ⟨st', ?_, fl', hs3, hi3, fun x hx => hl x (List.mem_filter.1 hx).1⟩
  unfold emm_free
  simp only [hraw, hv, not_true_eq_false, if_false, hsaved, hoa]
  rw [if_neg (by omega)]
  rw [hfl] at hr
  exact hr

theorem init_good {c : Config} (hc : c.WF) :
    ∃ st0, emm_init c zeroState = .ok st0 ∧ Good c ⟨st0, []⟩ ∧
      Sim c st0 (initFl c) [] := by
  have hko : c.MX_Ko - 1 < c.MX_Ko := by have := hc.2.1; omega
  have hi := Inv.init hc
  have hblk := hi.free_blk (c.MX_Ko - 1) 0 (by unfold initFl; rw [updl_same]; simp)
  have hv : c.validItem c.base := by
    have := hblk.item_valid hc; simpa using this
  have hs : Sim c ⟨wr32 zeroState.mainMemory 0 0,
      upd zeroState.memoryControlBlock (c.MX_Ko - 1) c.base⟩ (initFl c) [] := by
    constructor
    · intro k hk
      simp only
      unfold initFl
      by_cases hkk : k = c.MX_Ko - 1
      · subst hkk
        rw [upd_same, updl_same]
        refine ⟨rfl, ?_, ?_⟩
        · have : rd16 (wr32 zeroState.mainMemory 0 0) (0 + 4) = rd16 zeroState.mainMemory (0 + 4) :=
            rd16_congr (fun x hx1 hx2 => wr32_other _ 0 _ (by omega))
          rw [this]
          simp [rd16, zeroState]
        · rw [rd32_wr32 _ _ _ (by norm_num)]
          exact rfl
      · rw [upd_other _ _ _ hkk, updl_other _ _ _ hkk]
        exact rfl
    · intro b hb; cases hb
  refine ⟨_, ?_, ⟨initFl c, hs, hi, fun e he => by cases he⟩, hs⟩
  unfold emm_init
  simp only [hv, if_true]

/-- Every call of a run keeps the state good; the only way a call on a good
state does not return is a `free` of a pointer that is not live. -/
theorem step_good {c : Config} (hc : c.WF) (s : Sys) (hg : Good c s) (op : Op) :
    (∃ s', step c s op = .ok s' ∧ Good c s') ∨ step c s op = .error .notLive := by
  cases op with
  | malloc size =>
    left
    obtain ⟨st', p, h1, h2⟩ := emm_malloc_good hc s hg (size % 65536)
      (Nat.mod_lt _ (by norm_num))
    refine ⟨_, ?_, h2⟩
    simp only [step, h1]
  | free ptr =>
    by_cases hp : ptr ∈ s.live.map Prod.fst
    · left
      obtain ⟨st', h1, h2⟩ := emm_free_good hc s hg ptr hp
      refine ⟨_, ?_, h2⟩
      simp only [step, if_pos hp, h1]
    · right
      simp only [step, if_neg hp]

theorem runFrom_good {c : Config} (hc : c.WF) :
    ∀ (ops : List Op) (s s' : Sys), Good c s → runFrom c ops s = .ok s' → Good c s' := by
  intro ops
  induction ops with
  | nil => intro s s' hg h; simp only [runFrom] at h; cases h; exact hg
  | cons op ops ih =>
    intro s s' hg h
    rcases step_good hc s hg op with ⟨s1, h1, hg1⟩ | h1
    · simp only [runFrom, h1] at h
      exact ih s1 s' hg1 h
    · simp only [runFrom, h1] at h
      cases h

/-- A run from a good state returns, unless it frees a pointer that is not live. -/
theorem runFrom_returns {c : Config} (hc : c.WF) :
    ∀ (ops : List Op) (s : Sys), Good c s →
      runFrom c ops s = .error .notLive ∨ ∃ s', runFrom c ops s = .ok s' := by
  intro ops
  induction ops with
  | nil => intro s _; exact Or.inr ⟨s, rfl⟩
  | cons op ops ih =>
    intro s hg
    rcases step_good hc s hg op with ⟨s1, h1, hg1⟩ | h1
    · simp only [runFrom, h1]
      exact ih s1 hg1
    · left
      simp only [runFrom, h1]

theorem run_returns {c : Config} (hc : c.WF) (ops : List Op) :
    run c ops = .error .notLive ∨ ∃ s, run c ops = .ok s := by
  obtain ⟨st0, h0, hg0, _⟩ := init_good hc
  simp only [run, h0]
  exact runFrom_returns hc ops _ hg0

theorem run_good {c : Config} (hc : c.WF) (ops : List Op) (s : Sys)
    (h : run c ops = .ok s) : Good c s := by
  obtain ⟨st0, h0, hg0, _⟩ := init_good hc
  simp only [run, h0] at h
  exact runFrom_good hc ops _ s hg0 h

/-! ## What a good state shows -/

theorem Sim.freeList_eq {c : Config} {st : State} {fl : Nat → List Nat}
    {owned owned' : List (Nat × Nat)} (hc : c.WF) (hs : Sim c st fl owned)
    (hi : Inv c fl owned') {k : Nat} (hk : k < c.MX_Ko) :
    freeList c st k = some ((fl k).map (fun a => c.base + a)) := by
  unfold freeList
  apply Chain.walk_eq hc.2.2.2.1 (fl k) _ _ (hs.chain k hk)
  · exact fun a ha => (hi.free_blk k a ha).item_valid hc
  · have := hi.length_le hk; omega

theorem Sim.registry_eq {c : Config} {st : State} {fl : Nat → List Nat}
    {owned owned' : List (Nat × Nat)} (hc : c.WF) (hs : Sim c st fl owned)
    (hi : Inv c fl owned') :
    registry c st = (List.range c.MX_Ko).map (fun k => some ((fl k).map (fun a => c.base + a))) := by
  unfold registry
  apply List.map_congr_left
  intro k hk
  exact hs.freeList_eq hc hi (List.mem_range.1 hk)

theorem good_empty_registry {c : Config} (hc : c.WF) (s : Sys) (hg : Good c s)
    (hl : s.live = []) : registry c s.st = topRegistry c := by
  obtain ⟨fl, hs, hi, _⟩ := hg
  rw [hl] at hi
  simp only [List.map_nil] at hi
  rw [hs.registry_eq hc hi]
  unfold topRegistry
  apply List.map_congr_left
  intro k _
  rw [hi.all_free hc k]
  unfold initFl
  by_cases hk : k = c.MX_Ko - 1
  · rw [if_pos hk, hk, updl_same]; rfl
  · rw [if_neg hk, updl_other _ _ _ hk]; rfl

theorem lsum_size (c : Config) (k : Nat) (l : List Nat) :
    lsum (fun _ j => c.blockSize j) k l = l.length * c.blockSize k := by
  induction l with
  | nil => simp [lsum]
  | cons a t ih => rw [lsum_cons, ih, List.length_cons]; ring

theorem outcome_ok {α : Type} (d : α) (r : Except Fault α) (h : returned r = true) :
    r = .ok (outcome d r) := by
  cases r with
  | ok a => rfl
  | error e => cases h

/-- The payload of an allocation fits its block. -/
theorem payload_fits {c : Config} (size : Nat) (h : size < 65536) :
    size + 1 ≤ c.blockSize (Krequired c size) :=
  (Krequired_le_iff c size h _).2 (le_refl _)

theorem apart_of_ownSum (c : Config) (hKs : 3 ≤ c.MX_Ks) :
    ∀ l : List (Nat × Nat),
      (∀ x, x < c.arenaSize → ownSum (covers c x) (l.map (blockOf c)) ≤ 1) →
      (∀ e, e ∈ l → c.base + 1 ≤ e.1 ∧ e.2 < 65536 ∧
        IsBlock c (e.1 - 1 - c.base) (Krequired c e.2)) →
      l.Pairwise Apart := by
  intro l
  induction l with
  | nil => intro _ _; exact List.Pairwise.nil
  | cons e t ih =>
    intro hsum hall
    rw [List.pairwise_cons]
    constructor
    · intro e' he'
      unfold Apart
      by_contra hcon
      push_neg at hcon
      obtain ⟨h1, h2, h3⟩ := hall e (List.mem_cons_self _ _)
      obtain ⟨h1', h2', h3'⟩ := hall e' (List.mem_cons_of_mem _ he')
      have hf := payload_fits (c := c) e.2 h2
      have hf' := payload_fits (c := c) e'.2 h2'
      have h8 := eight_le_blockSize c hKs (Krequired c e.2)
      have h8' := eight_le_blockSize c hKs (Krequired c e'.2)
      have hin := h3.2.2
      have hin' := h3'.2.2
      have hx : max e.1 e'.1 - c.base < c.arenaSize := by
        rcases le_total e.1 e'.1 with hle | hle
        · rw [max_eq_right hle]; omega
        · rw [max_eq_left hle]; omega
      have := hsum _ hx
      rw [List.map_cons, ownSum_cons] at this
      have hm := ownSum_mem_le (covers c (max e.1 e'.1 - c.base)) (List.mem_map_of_mem (blockOf c) he')
      have c1 : covers c (max e.1 e'.1 - c.base) (blockOf c e).1 (blockOf c e).2 = 1 := by
        rw [covers_eq_one_iff]; unfold blockOf; simp only
        rcases le_total e.1 e'.1 with hle | hle
        · rw [max_eq_right hle]; omega
        · rw [max_eq_left hle]; omega
      have c2 : covers c (max e.1 e'.1 - c.base) (blockOf c e').1 (blockOf c e').2 = 1 := by
        rw [covers_eq_one_iff]; unfold blockOf; simp only
        rcases le_total e.1 e'.1 with hle | hle
        · rw [max_eq_right hle]; omega
        · rw [max_eq_left hle]; omega
      omega
    · apply ih
      · intro x hx
        have := hsum x hx
        rw [List.map_cons, ownSum_cons] at this
        omega
      · intro e' he'; exact hall e' (List.mem_cons_of_mem _ he')

/-! ## The claims -/

/-- C2: `emm_malloc` returns `NULL` exactly when the needed order is not
configured or every free list from the needed order upwards is empty; in
every other case, on a registry whose heads are blocks of the arena, it
returns a non-null pointer; with `Ks = 3`, `Ko = 4` a request of 64 bytes
fails in every state. -/
theorem emm_malloc_fails_iff (c : Config) (st : State) (size : Nat) :
    ((∃ st', emm_malloc c st size = .ok (st', 0)) ↔ NoBlockFor c st size) ∧
    (3 ≤ c.MX_Ks → HeadsInArena c st → ¬ NoBlockFor c st size →
      ∃ st' p, emm_malloc c st size = .ok (st', p) ∧ p ≠ 0) ∧
    (∀ (base : Nat) (st64 : State), emm_malloc ⟨3, 4, base⟩ st64 64 = .ok (st64, 0)) := by
  refine ⟨emm_malloc_null_iff c st size, emm_malloc_nonnull c st size, ?_⟩
  intro base st64
  have hK : Krequired ⟨3, 4, base⟩ 64 = 4 := by
    have e : Krequired ⟨3, 4, base⟩ 64 = Krequired ⟨3, 4, 0⟩ 64 := rfl
    rw [e]; decide
  unfold emm_malloc
  simp only [hK]
  rfl

theorem emm_malloc_fails_iff_witness :
    3 ≤ smallConfig.MX_Ks ∧ HeadsInArena smallConfig (initOf smallConfig) ∧
      ¬ NoBlockFor smallConfig (initOf smallConfig) 7 ∧
      ∃ st' p, emm_malloc smallConfig (initOf smallConfig) 7 = .ok (st', p) ∧ p ≠ 0 :=
  ⟨by decide, by unfold HeadsInArena; decide!, by unfold NoBlockFor; decide!,
    (emm_malloc_fails_iff smallConfig (initOf smallConfig) 7).2.1 (by decide)
      (by unfold HeadsInArena; decide!) (by unfold NoBlockFor; decide!)⟩

/-- C3: when `emm_malloc` returns `NULL`, the state (every list head and every
arena byte) is the one before the call. -/
theorem emm_malloc_failure_unchanged (c : Config) (st st' : State) (size : Nat)
    (h : emm_malloc c st size = .ok (st', 0)) : st' = st :=
  emm_malloc_null_state c st st' size h

theorem emm_malloc_failure_unchanged_witness :
    emm_malloc smallConfig zeroState 64 = .ok (zeroState, 0) ∧ zeroState = zeroState :=
  ⟨rfl, emm_malloc_failure_unchanged smallConfig zeroState zeroState 64 rfl⟩

/-- C10 (code): `emm_free(NULL)` reads `savedOrder` through the pointer
`NULL - 1` before it tests `ptr == NULL`; that address is not in `mainMemory`,
so the call makes an invalid access instead of returning. -/
theorem emm_free_null_invalid (c : Config) (st : State)
    (h : c.base + c.arenaSize < 4294967296) : emm_free c st 0 = .error .invalidAccess := by
  have hv : ¬ c.valid 4294967295 1 := by unfold Config.valid; omega
  unfold emm_free
  simp only [Nat.zero_add, Nat.reduceMod, hv, not_false_eq_true, if_true]

theorem emm_free_null_invalid_witness :
    sourceConfig.base + sourceConfig.arenaSize < 4294967296 ∧
      emm_free sourceConfig (initOf sourceConfig) 0 = .error .invalidAccess :=
  ⟨by decide, emm_free_null_invalid sourceConfig (initOf sourceConfig) (by decide)⟩

/-- C4: every sequence of `emm_malloc` calls and `emm_free` calls on live
pointers made after `emm_init` returns, and in the state it reaches the
payload region of every live allocation lies in the arena and the regions of
two live allocations do not overlap. -/
theorem live_payloads_apart (c : Config) (hc : c.WF) (ops : List Op) :
    (run c ops = .error .notLive ∨ ∃ s, run c ops = .ok s) ∧
    ∀ s, run c ops = .ok s →
      (∀ e, e ∈ s.live → c.base ≤ e.1 ∧ e.1 + e.2 ≤ c.base + c.arenaSize) ∧
        s.live.Pairwise Apart := by
  refine ⟨run_returns hc ops, ?_⟩
  intro s h
  obtain ⟨fl, _, hi, hl⟩ := run_good hc ops s h
  have hall : ∀ e, e ∈ s.live → c.base + 1 ≤ e.1 ∧ e.2 < 65536 ∧
      IsBlock c (e.1 - 1 - c.base) (Krequired c e.2) := by
    intro e he
    obtain ⟨h1, h2⟩ := hl e he
    exact ⟨h1, h2, hi.own_blk (blockOf c e) (List.mem_map_of_mem _ he)⟩
  constructor
  · intro e he
    obtain ⟨h1, h2, h3⟩ := hall e he
    have := payload_fits (c := c) e.2 h2
    have := h3.2.2
    omega
  · exact apart_of_ownSum c hc.1 s.live (fun x hx => hi.own_le hx) hall

theorem live_payloads_apart_witness :
    sourceConfig.WF ∧
      run sourceConfig (testOps.take 10) = .ok (endOf sourceConfig (testOps.take 10)) ∧
      ((∀ e, e ∈ (endOf sourceConfig (testOps.take 10)).live →
          sourceConfig.base ≤ e.1 ∧ e.1 + e.2 ≤ sourceConfig.base + sourceConfig.arenaSize) ∧
        (endOf sourceConfig (testOps.take 10)).live.Pairwise Apart) :=
  ⟨by decide, outcome_ok _ _ (by decide!),
    (live_payloads_apart sourceConfig (by decide) (testOps.take 10)).2 _
      (outcome_ok _ _ (by decide!))⟩

/-- C9: every sequence of `emm_malloc` calls and `emm_free` calls on live
pointers made after `emm_init` returns, and in the state it reaches every free
list is a proper list, and the free blocks of all orders times their sizes,
plus the blocks of the live allocations by their order tags, add up to the
arena size. -/
theorem conservation (c : Config) (hc : c.WF) (ops : List Op) :
    (run c ops = .error .notLive ∨ ∃ s, run c ops = .ok s) ∧
    ∀ s, run c ops = .ok s →
      (∀ k, k < c.MX_Ko → (freeList c s.st k).isSome = true) ∧
        freeBytes c s.st + liveBytes c s = c.arenaSize := by
  refine ⟨run_returns hc ops, ?_⟩
  intro s h
  obtain ⟨fl, hs, hi, _⟩ := run_good hc ops s h
  constructor
  · intro k hk
    rw [hs.freeList_eq hc hi hk]; rfl
  · have hfree : freeBytes c s.st = freeSum c (fun _ j => c.blockSize j) fl := by
      unfold freeBytes freeSum
      apply Finset.sum_congr rfl
      intro k hk
      unfold freeCount
      rw [hs.freeList_eq hc hi (Finset.mem_range.1 hk), lsum_size]
      simp only [List.length_map]
      rfl
    have hlive : liveBytes c s = ownSum (fun _ j => c.blockSize j) (s.live.map (blockOf c)) := by
      unfold liveBytes ownSum
      rw [List.map_map]
      congr 1
      apply List.map_congr_left
      intro e he
      have := hs.saved (blockOf c e) (List.mem_map_of_mem _ he)
      simp only [Function.comp]
      unfold savedOrder
      unfold blockOf at this
      simp only at this
      rw [this]
      rfl
    rw [hfree, hlive, Nat.add_comm]
    exact hi.total

theorem conservation_witness :
    sourceConfig.WF ∧
      run sourceConfig (testOps.take 20) = .ok (endOf sourceConfig (testOps.take 20)) ∧
      ((∀ k, k < sourceConfig.MX_Ko →
          (freeList sourceConfig (endOf sourceConfig (testOps.take 20)).st k).isSome = true) ∧
        freeBytes sourceConfig (endOf sourceConfig (testOps.take 20)).st
          + liveBytes sourceConfig (endOf sourceConfig (testOps.take 20))
          = sourceConfig.arenaSize) :=
  ⟨by decide, outcome_ok _ _ (by decide!),
    (conservation sourceConfig (by decide) (testOps.take 20)).2 _
      (outcome_ok _ _ (by decide!))⟩

/-- C8: every sequence of `emm_malloc` calls and `emm_free` calls on live
pointers made after `emm_init` returns, and when it ends with no allocation
live it ends in the registry `emm_init` makes: the block at offset 0 alone on
the list of order `MX_Ko - 1`, every other list empty. -/
theorem no_leak (c : Config) (hc : c.WF) (ops : List Op) :
    (run c ops = .error .notLive ∨ ∃ s, run c ops = .ok s) ∧
    ∀ s, run c ops = .ok s → s.live = [] →
      registry c s.st = topRegistry c ∧
        ∀ st0, emm_init c zeroState = .ok st0 → registry c s.st = registry c st0 := by
  refine ⟨run_returns hc ops, ?_⟩
  intro s h hl
  have h1 := good_empty_registry hc s (run_good hc ops s h) hl
  refine ⟨h1, ?_⟩
  intro st0 h0
  obtain ⟨st0', h0', hg0, _⟩ := init_good hc
  rw [h0] at h0'
  cases h0'
  rw [h1, good_empty_registry hc ⟨st0, []⟩ hg0 rfl]

theorem no_leak_witness :
    sourceConfig.WF ∧ run sourceConfig testOps = .ok (endOf sourceConfig testOps) ∧
      (endOf sourceConfig testOps).live = [] ∧
      (registry sourceConfig (endOf sourceConfig testOps).st = topRegistry sourceConfig ∧
        ∀ st0, emm_init sourceConfig zeroState = .ok st0 →
          registry sourceConfig (endOf sourceConfig testOps).st = registry sourceConfig st0) :=
  ⟨by decide, outcome_ok _ _ (by decide!), by decide!,
    (no_leak sourceConfig (by decide) testOps).2 _ (outcome_ok _ _ (by decide!))
      (by decide!)⟩

theorem init_head {c : Config} (hc : c.WF) {st0 : State} (h0 : emm_init c zeroState = .ok st0) :
    st0.memoryControlBlock (c.MX_Ko - 1) = c.base ∧ Good c ⟨st0, []⟩ := by
  obtain ⟨st0', h0', hg0, _⟩ := init_good hc
  rw [h0] at h0'
  cases h0'
  refine ⟨?_, hg0⟩
  unfold emm_init at h0
  simp only at h0
  split_ifs at h0
  cases h0
  exact upd_same _ _ _

/-- After `emm_init` a request whose order is configured is served. -/
theorem init_malloc_nonnull {c : Config} (hc : c.WF) {st0 st1 : State} {size p : Nat}
    (h0 : emm_init c zeroState = .ok st0) (hK : Krequired c size < c.MX_Ko)
    (h1 : emm_malloc c st0 size = .ok (st1, p)) : p ≠ 0 := by
  rintro rfl
  have hn := (emm_malloc_null_iff c st0 size).1 ⟨st1, h1⟩
  rcases hn with hn | hn
  · omega
  · have := hn (c.MX_Ko - 1) (by omega) (by omega)
    rw [(init_head hc h0).1] at this
    have := hc.2.2.2.1
    omega

/-- C6: after `emm_init`, for every size whose order is configured,
`p = emm_malloc(size)` succeeds and `emm_free(p)` then leaves the registry
`emm_init` made: the block at offset 0 alone on the list of order `MX_Ko - 1`. -/
theorem malloc_free_roundtrip (c : Config) (hc : c.WF) (size : Nat) (hsz : size < 65536)
    (hK : Krequired c size < c.MX_Ko) :
    ∃ st0 st1 p st2, emm_init c zeroState = .ok st0 ∧ emm_malloc c st0 size = .ok (st1, p) ∧
      p ≠ 0 ∧ emm_free c st1 p = .ok st2 ∧ registry c st2 = registry c st0 ∧
      registry c st2 = topRegistry c := by
  obtain ⟨st0, h0, hg0, _⟩ := init_good hc
  obtain ⟨st1, p, h1, hg1⟩ := emm_malloc_good hc ⟨st0, []⟩ hg0 size hsz
  have hp := init_malloc_nonnull hc h0 hK h1
  rw [if_neg hp] at hg1
  obtain ⟨st2, h2, hg2⟩ := emm_free_good hc ⟨st1, [(p, size)]⟩ hg1 p (by simp)
  have hr2 := good_empty_registry hc _ hg2 (by simp)
  have hr0 := good_empty_registry hc ⟨st0, []⟩ hg0 rfl
  exact ⟨st0, st1, p, st2, h0, h1, hp, h2, by rw [hr2, hr0], hr2⟩

theorem malloc_free_roundtrip_witness :
    smallConfig.WF ∧ (7 : Nat) < 65536 ∧ Krequired smallConfig 7 < smallConfig.MX_Ko ∧
      ∃ st0 st1 p st2, emm_init smallConfig zeroState = .ok st0 ∧
        emm_malloc smallConfig st0 7 = .ok (st1, p) ∧ p ≠ 0 ∧
        emm_free smallConfig st1 p = .ok st2 ∧
        registry smallConfig st2 = registry smallConfig st0 ∧
        registry smallConfig st2 = topRegistry smallConfig :=
  ⟨by decide, by decide, by decide,
    malloc_free_roundtrip smallConfig (by decide) 7 (by decide) (by decide)⟩

/-- Two allocations made one after the other from the state after `emm_init`,
freed one after the other. -/
theorem two_frees {c : Config} (hc : c.WF) {st : State} {a b s1 s2 : Nat}
    (hg : Good c ⟨st, [(b, s2), (a, s1)]⟩) :
    (∃ st1 st2, emm_free c st a = .ok st1 ∧ emm_free c st1 b = .ok st2 ∧
        registry c st2 = topRegistry c) ∧
      (∃ st1 st2, emm_free c st b = .ok st1 ∧ emm_free c st1 a = .ok st2 ∧
        registry c st2 = topRegistry c) := by
  have hnd := hg.ptr_nodup
  have hne : b ≠ a := by
    simp only [List.map_cons, List.map_nil, List.nodup_cons, List.mem_singleton] at hnd
    exact hnd.1
  constructor
  · obtain ⟨st1, h1, hg1⟩ := emm_free_good hc _ hg a (by simp)
    have e1 : List.filter (fun x : Nat × Nat => decide (x.1 ≠ a)) [(b, s2), (a, s1)]
        = [(b, s2)] := by
      simp [List.filter, hne]
    simp only at hg1
    rw [e1] at hg1
    obtain ⟨st2, h2, hg2⟩ := emm_free_good hc _ hg1 b (by simp)
    exact ⟨st1, st2, h1, h2, good_empty_registry hc _ hg2 (by simp)⟩
  · obtain ⟨st1, h1, hg1⟩ := emm_free_good hc _ hg b (by simp)
    have e1 : List.filter (fun x : Nat × Nat => decide (x.1 ≠ b)) [(b, s2), (a, s1)]
        = [(a, s1)] := by
      simp [List.filter, Ne.symm hne]
    simp only at hg1
    rw [e1] at hg1
    obtain ⟨st2, h2, hg2⟩ := emm_free_good hc _ hg1 a (by simp)
    exact ⟨st1, st2, h1, h2, good_empty_registry hc _ hg2 (by simp)⟩

/-- C7: after `emm_init`, when `a = emm_malloc(s1)` and `b = emm_malloc(s2)`
both succeed, freeing `a` then `b`, or `b` then `a`, leaves the registry with
the block at offset 0 alone on the list of order `MX_Ko - 1`. -/
theorem split_merge_symmetry (c : Config) (hc : c.WF) (s1 s2 : Nat) (hs1 : s1 < 65536)
    (hs2 : s2 < 65536) (st0 sta stb : State) (a b : Nat)
    (h0 : emm_init c zeroState = .ok st0) (ha : emm_malloc c st0 s1 = .ok (sta, a))
    (hb : emm_malloc c sta s2 = .ok (stb, b)) (hane : a ≠ 0) (hbne : b ≠ 0) :
    (∃ st1 st2, emm_free c stb a = .ok st1 ∧ emm_free c st1 b = .ok st2 ∧
        registry c st2 = topRegistry c) ∧
      (∃ st1 st2, emm_free c stb b = .ok st1 ∧ emm_free c st1 a = .ok st2 ∧
        registry c st2 = topRegistry c) := by
  have hg0 := (init_head hc h0).2
  obtain ⟨sta', a', ha', hga⟩ := emm_malloc_good hc ⟨st0, []⟩ hg0 s1 hs1
  rw [ha] at ha'
  cases ha'
  rw [if_neg hane] at hga
  obtain ⟨stb', b', hb', hgb⟩ := emm_malloc_good hc ⟨sta, [(a, s1)]⟩ hga s2 hs2
  simp only at hb'
  rw [hb] at hb'
  cases hb'
  rw [if_neg hbne] at hgb
  exact two_frees hc hgb

theorem split_merge_symmetry_witness :
    smallConfig.WF ∧
      emm_init smallConfig zeroState = .ok (initOf smallConfig) ∧
      emm_malloc smallConfig (initOf smallConfig) 7 = .ok (firstAlloc.1, firstAlloc.2) ∧
      emm_malloc smallConfig firstAlloc.1 7 = .ok (secondAlloc.1, secondAlloc.2) ∧
      firstAlloc.2 ≠ 0 ∧ secondAlloc.2 ≠ 0 ∧
      ((∃ st1 st2, emm_free smallConfig secondAlloc.1 firstAlloc.2 = .ok st1 ∧
          emm_free smallConfig st1 secondAlloc.2 = .ok st2 ∧
          registry smallConfig st2 = topRegistry smallConfig) ∧
        (∃ st1 st2, emm_free smallConfig secondAlloc.1 secondAlloc.2 = .ok st1 ∧
          emm_free smallConfig st1 firstAlloc.2 = .ok st2 ∧
          registry smallConfig st2 = topRegistry smallConfig)) :=
  ⟨by decide, outcome_ok zeroState _ (by decide!), outcome_ok (zeroState, 0) _ (by decide!),
    outcome_ok (zeroState, 0) _ (by decide!), by decide!, by decide!,
    split_merge_symmetry smallConfig (by decide) 7 7 (by decide) (by decide)
      (initOf smallConfig) firstAlloc.1 secondAlloc.1 firstAlloc.2 secondAlloc.2
      (outcome_ok zeroState _ (by decide!)) (outcome_ok (zeroState, 0) _ (by decide!))
      (outcome_ok (zeroState, 0) _ (by decide!)) (by decide!) (by decide!)⟩

/-- The largest request of a configuration needs the highest order. -/
theorem Krequired_top {c : Config} (hc : c.WF) :
    Krequired c (2 ^ (c.MX_Ks + c.MX_Ko - 1) - 1) = c.MX_Ko - 1 := by
  have hko := hc.2.1
  have hpos : 0 < 2 ^ (c.MX_Ks + c.MX_Ko - 1) := by positivity
  have hlt : 2 ^ (c.MX_Ks + c.MX_Ko - 1) - 1 < 65536 := by
    have := arenaSize_le c hc
    rw [arenaSize_eq] at this
    omega
  have hsz : 2 ^ (c.MX_Ks + c.MX_Ko - 1) - 1 + 1 = 2 ^ (c.MX_Ks + c.MX_Ko - 1) := by omega
  have h1 := (Krequired_le_iff c _ hlt (c.MX_Ko - 1)).1 (by
    rw [hsz]; exact Nat.pow_le_pow_right (by norm_num) (by omega))
  have h2 := (Krequired_le_iff c _ hlt (Krequired c (2 ^ (c.MX_Ks + c.MX_Ko - 1) - 1))).2
    (le_refl _)
  rw [hsz] at h2
  have h3 := (Nat.pow_le_pow_iff_right (by norm_num : 1 < 2)).1 h2
  omega

/-- A request larger than the arena minus the tag byte needs an order that is
not configured. -/
theorem Krequired_large {c : Config} (hc : c.WF) {s : Nat}
    (h : 2 ^ (c.MX_Ks + c.MX_Ko - 1) - 1 < s) (hs : s < 65536) : c.MX_Ko ≤ Krequired c s := by
  by_contra hcon
  have hko := hc.2.1
  have h1 := (Krequired_le_iff c s hs (c.MX_Ko - 1)).2 (by omega)
  have e : c.MX_Ks + (c.MX_Ko - 1) = c.MX_Ks + c.MX_Ko - 1 := by omega
  rw [e] at h1
  omega

/-- C5 (fails as stated): with `Ks = 3`, `Ko = 4` the claimed maximum is 31,
but a request of 31 bytes leaves the block at offset 32 on the list of order 2
(it does not take the whole arena), and a request of 32 bytes succeeds. -/
theorem max_payload_counterexample :
    2 ^ (smallConfig.MX_Ks + smallConfig.MX_Ko - 2) - 1 = 31 ∧
      observe smallConfig (run smallConfig [.malloc 31])
        = some ([some [], some [], some [65568], some []], [(65537, 31)]) ∧
      observe smallConfig (run smallConfig [.malloc 32])
        = some ([some [], some [], some [], some []], [(65537, 32)]) := by
  decide!

/-- C5 (amended): the largest payload of one allocation is
`2^(MX_Ks + MX_Ko - 1) - 1` bytes: after `emm_init` a request of that size is
served at order `MX_Ko - 1` by the block at offset 0 and leaves every free
list empty, and every larger 16-bit request fails in every state. -/
theorem max_payload (c : Config) (hc : c.WF) :
    (Krequired c (2 ^ (c.MX_Ks + c.MX_Ko - 1) - 1) = c.MX_Ko - 1 ∧
      ∃ st0 st1, emm_init c zeroState = .ok st0 ∧
        emm_malloc c st0 (2 ^ (c.MX_Ks + c.MX_Ko - 1) - 1) = .ok (st1, c.base + 1) ∧
        registry c st1 = (List.range c.MX_Ko).map (fun _ => some [])) ∧
    (∀ (st : State) (s : Nat), 2 ^ (c.MX_Ks + c.MX_Ko - 1) - 1 < s → s < 65536 →
      emm_malloc c st s = .ok (st, 0)) := by
  have hko := hc.2.1
  have hK := Krequired_top hc
  have hlt : 2 ^ (c.MX_Ks + c.MX_Ko - 1) - 1 < 65536 := by
    have := arenaSize_le c hc
    rw [arenaSize_eq] at this
    have hpos : 0 < 2 ^ (c.MX_Ks + c.MX_Ko - 1) := by positivity
    omega
  refine ⟨⟨hK, ?_⟩, ?_⟩
  · obtain ⟨st0, h0, hg0, _⟩ := init_good hc
    obtain ⟨st1, p, h1, hg1⟩ := emm_malloc_good hc ⟨st0, []⟩ hg0 _ hlt
    have hp := init_malloc_nonnull hc h0 (by rw [hK]; omega) h1
    rw [if_neg hp] at hg1
    obtain ⟨fl, hs, hi, hl⟩ := hg1
    simp only [List.map_cons, List.map_nil] at hs hi
    have hblk := hi.own_blk _ (List.mem_cons_self _ _)
    obtain ⟨hle, _⟩ := hl _ (List.mem_cons_self _ _)
    have hsz := hblk.2.2
    unfold blockOf at hsz hi
    simp only [hK] at hsz hi
    rw [← arenaSize_eq_blockSize c hko] at hsz
    have hpe : p = c.base + 1 := by simp only at hle; omega
    subst hpe
    refine ⟨st0, st1, h0, h1, ?_⟩
    rw [hs.registry_eq hc hi]
    apply List.map_congr_left
    intro k hk
    have htot := hi.total
    rw [ownSum_cons, ownSum_nil] at htot
    simp only at htot
    rw [← arenaSize_eq_blockSize c hko] at htot
    have hle2 := freeSum_list_le c (fun _ j => c.blockSize j) fl (List.mem_range.1 hk)
    rw [lsum_size] at hle2
    have hz : (fl k).length * c.blockSize k = 0 := by omega
    have hpos := blockSize_pos c k
    have hlen : (fl k).length = 0 := by
      rcases Nat.mul_eq_zero.1 hz with h | h
      · exact h
      · omega
    rw [List.length_eq_zero.1 hlen]
    rfl
  · intro st s h1 h2
    have := Krequired_large hc h1 h2
    unfold emm_malloc
    simp only
    rw [if_pos this]

theorem max_payload_witness :
    smallConfig.WF ∧
      ((Krequired smallConfig (2 ^ (smallConfig.MX_Ks + smallConfig.MX_Ko - 1) - 1)
          = smallConfig.MX_Ko - 1 ∧
        ∃ st0 st1, emm_init smallConfig zeroState = .ok st0 ∧
          emm_malloc smallConfig st0 (2 ^ (smallConfig.MX_Ks + smallConfig.MX_Ko - 1) - 1)
            = .ok (st1, smallConfig.base + 1) ∧
          registry smallConfig st1 = (List.range smallConfig.MX_Ko).map (fun _ => some [])) ∧
      (∀ (st : State) (s : Nat),
        2 ^ (smallConfig.MX_Ks + smallConfig.MX_Ko - 1) - 1 < s → s < 65536 →
        emm_malloc smallConfig st s = .ok (st, 0))) :=
  ⟨by decide, max_payload smallConfig (by decide)⟩

/-! ## `emm_init` on an arbitrary state -/

theorem walk_null (c : Config) (st : State) (n : Nat) : walk c st (n + 1) 0 = some [] := by
  simp [walk]

theorem freeList_null {c : Config} {st : State} {k : Nat}
    (h : st.memoryControlBlock k = 0) : freeList c st k = some [] := by
  unfold freeList
  rw [h]
  exact walk_null c st _

theorem arenaSize_pos (c : Config) : 0 < c.arenaSize := by
  rw [arenaSize_eq]; positivity

theorem validItem_base {c : Config} (hc : c.WF) : c.validItem c.base := by
  have h := (Inv.init hc).free_blk (c.MX_Ko - 1) 0
    (by unfold initFl; rw [updl_same]; exact List.mem_singleton_self _)
  have := h.item_valid hc
  simpa using this

/-- What `emm_init` does on any state. -/
theorem emm_init_any {c : Config} (hc : c.WF) (st : State) :
    emm_init c st = .ok ⟨wr32 st.mainMemory 0 0, upd st.memoryControlBlock (c.MX_Ko - 1) c.base⟩ ∧
      freeList c ⟨wr32 st.mainMemory 0 0, upd st.memoryControlBlock (c.MX_Ko - 1) c.base⟩
        (c.MX_Ko - 1) = some [c.base] := by
  have hv := validItem_base hc
  have hb := hc.2.2.2.1
  constructor
  · unfold emm_init
    simp only [hv, if_true]
  · unfold freeList
    simp only [upd_same]
    obtain ⟨n, hn⟩ : ∃ n, c.arenaSize = n + 1 := ⟨c.arenaSize - 1, by
      have := arenaSize_pos c; omega⟩
    rw [hn]
    unfold walk
    rw [if_neg (by omega), if_pos hv]
    simp only [Nat.sub_self]
    rw [rd32_wr32 _ _ _ (by norm_num), walk_null]
    rfl

/-- C11 (fails as stated): with `Ks = 3`, `Ko = 4`, after `emm_init`, one
request of 7 bytes and a second `emm_init`, the lists of the orders 0, 1 and 2
still hold the blocks at the offsets 8, 16 and 32, next to the block at offset
0 on the list of order 3. -/
theorem emm_init_rerun_counterexample :
    registry smallConfig (outcome zeroState (emm_init smallConfig rerunState))
      = [some [65544], some [65552], some [65568], some [65536]] := by
  decide!

/-! ## The order tag -/

theorem Krequired_le_16 (c : Config) (size : Nat) : Krequired c size ≤ 16 := by
  have hlt : ((size + 1 - 1) % 65536) >>> c.MX_Ks < 2 ^ 16 := by
    rw [Nat.shiftRight_eq_div_pow]
    exact lt_of_le_of_lt (Nat.div_le_self _ _) (by norm_num; omega)
  obtain ⟨_, _, h3⟩ := Krequired_loop_spec 16 _ 0 hlt (by norm_num)
  have := h3 16 hlt
  unfold Krequired
  simp only
  omega

/-- When it returns, the split loop has tagged the block it returns. -/
theorem splitLoop_tag (c : Config) (K B : Nat) (hK16 : K < 256) :
    ∀ (j ssplit : Nat) (st : State) (r : SplitResult), K ≤ j →
      splitLoop c K B j ssplit st = .ok r →
      ∃ st', r = .returned st' (B + 1) ∧ rd8 st'.mainMemory (B - c.base) = K := by
  intro j
  induction j with
  | zero =>
    intro ssplit st r hK h
    have hK0 : K = 0 := by omega
    subst hK0
    unfold splitLoop at h
    simp only [Nat.lt_irrefl, if_false, if_true] at h
    split_ifs at h
    · cases h; exact ⟨_, rfl, rd8_wr8 _ _ _ hK16⟩
  | succ j ih =>
    intro ssplit st r hK h
    unfold splitLoop at h
    rw [if_neg (by omega)] at h
    simp only at h
    split_ifs at h with h1 h2 h3
    · cases h; exact ⟨_, rfl, rd8_wr8 _ _ _ hK16⟩
    · exact ih _ _ _ (by omega) h

/-- A non-null result of the search loop is the head of the first non-empty
list plus one, and the block is tagged. -/
theorem scanLoop_tag (c : Config) (K : Nat) (hK16 : K < 256) :
    ∀ (n k ssplit : Nat) (st st' : State) (p : Nat), K < k →
      scanLoop c K n k ssplit st = .ok (st', p) → p ≠ 0 →
      ∃ k', k ≤ k' ∧ k' < k + n ∧ st.memoryControlBlock k' ≠ 0 ∧
        (∀ i, k ≤ i → i < k' → st.memoryControlBlock i = 0) ∧
        p = st.memoryControlBlock k' + 1 ∧ rd8 st'.mainMemory (p - 1 - c.base) = K := by
  intro n
  induction n with
  | zero =>
    intro k ssplit st st' p _ h hp
    unfold scanLoop at h
    cases h
    exact absurd rfl hp
  | succ n ih =>
    intro k ssplit st st' p hK h hp
    unfold scanLoop at h
    by_cases h0 : st.memoryControlBlock k = 0
    · rw [if_neg (by simp [h0])] at h
      obtain ⟨k', h1, h2, h3, h4, h5⟩ := ih _ _ _ _ _ (by omega) h hp
      refine ⟨k', by omega, by omega, h3, ?_, h5⟩
      intro i hi1 hi2
      by_cases hik : i = k
      · rw [hik]; exact h0
      · exact h4 i (by omega) hi2
    · rw [if_pos h0] at h
      simp only at h
      split_ifs at h with hv
      generalize hr : splitLoop c K (st.memoryControlBlock k) (k - 1)
        ((ssplit <<< (c.MX_Ks - 1 + k)) % 65536) _ = r at h
      cases r with
      | error e => simp at h
      | ok res =>
        obtain ⟨st2, rfl, htag⟩ := splitLoop_tag c K _ hK16 _ _ _ _ (by omega) hr
        simp only at h
        cases h
        refine ⟨k, le_refl _, by omega, h0, fun i h1 h2 => by omega, rfl, ?_⟩
        simpa using htag

/-- A non-null result of `emm_malloc`, on any state: the block is the head of
the first non-empty list from the needed order upwards, the pointer is the
block address plus one, and the byte at the block address holds the order. -/
theorem emm_malloc_tag (c : Config) (st st' : State) (size p : Nat)
    (h : emm_malloc c st size = .ok (st', p)) (hp : p ≠ 0) :
    ∃ k, Krequired c size ≤ k ∧ k < c.MX_Ko ∧ st.memoryControlBlock k ≠ 0 ∧
      (∀ i, Krequired c size ≤ i → i < k → st.memoryControlBlock i = 0) ∧
      p = st.memoryControlBlock k + 1 ∧ savedOrder c st' p = Krequired c size := by
  have hK16 : Krequired c size < 256 := by have := Krequired_le_16 c size; omega
  unfold emm_malloc at h
  simp only at h
  by_cases hK : Krequired c size ≥ c.MX_Ko
  · rw [if_pos hK] at h; cases h; exact absurd rfl hp
  · rw [if_neg hK] at h
    by_cases h0 : st.memoryControlBlock (Krequired c size) = 0
    · rw [if_neg (by simp [h0])] at h
      obtain ⟨k', h1, h2, h3, h4, h5, h6⟩ := scanLoop_tag c _ hK16 _ _ _ _ _ _ (by omega) h hp
      refine ⟨k', by omega, by omega, h3, ?_, h5, h6⟩
      intro i hi1 hi2
      by_cases hik : i = Krequired c size
      · rw [hik]; exact h0
      · exact h4 i (by omega) hi2
    · rw [if_pos h0] at h
      split_ifs at h
      cases h
      refine ⟨_, le_refl _, by omega, h0, fun i h1 h2 => by omega, rfl, ?_⟩
      unfold savedOrder
      simp only [Nat.add_sub_cancel]
      exact rd8_wr8 _ _ _ hK16

/-- C12: whenever `emm_malloc(size)` returns a non-null pointer, it is the
address of the block taken (the head of the first non-empty list from the
needed order upwards) plus one, and the byte at the block address holds the
needed order of `size`; and in every state reached from `emm_init` by
`emm_malloc` calls and `emm_free` calls on live pointers, that byte of every
live allocation, which `emm_free` reads as `savedOrder`, is still the needed
order of the size it was served for. -/
theorem saved_order_kept (c : Config) (hc : c.WF) :
    (∀ (st st' : State) (size p : Nat), emm_malloc c st size = .ok (st', p) → p ≠ 0 →
      ∃ k, Krequired c size ≤ k ∧ k < c.MX_Ko ∧ st.memoryControlBlock k ≠ 0 ∧
        (∀ i, Krequired c size ≤ i → i < k → st.memoryControlBlock i = 0) ∧
        p = st.memoryControlBlock k + 1 ∧ savedOrder c st' p = Krequired c size) ∧
    (∀ (ops : List Op), run c ops = .error .notLive ∨ ∃ s, run c ops = .ok s) ∧
    (∀ (ops : List Op) (s : Sys), run c ops = .ok s →
      ∀ e, e ∈ s.live → savedOrder c s.st e.1 = Krequired c e.2) := by
  refine ⟨fun st st' size p h hp => emm_malloc_tag c st st' size p h hp,
    fun ops => run_returns hc ops, ?_⟩
  intro ops s h e he
  obtain ⟨fl, hs, _, _⟩ := run_good hc ops s h
  exact hs.saved (blockOf c e) (List.mem_map_of_mem _ he)

theorem saved_order_kept_witness :
    sourceConfig.WF ∧
      run sourceConfig (testOps.take 20) = .ok (endOf sourceConfig (testOps.take 20)) ∧
      ∀ e, e ∈ (endOf sourceConfig (testOps.take 20)).live →
        savedOrder sourceConfig (endOf sourceConfig (testOps.take 20)).st e.1
          = Krequired sourceConfig e.2 :=
  ⟨by decide, outcome_ok _ _ (by decide!),
    (saved_order_kept sourceConfig (by decide)).2.2 (testOps.take 20) _
      (outcome_ok _ _ (by decide!))⟩

/-! ## Invariants of the free lists in reachable states -/

theorem Chain.oaddr {c : Config} {m : Nat → Nat} {k : Nat} :
    ∀ {l : List Nat} {p : Nat}, Chain c m k p l →
      ∀ a, a ∈ l → rd16 m (a + 4) = a >>> (c.MX_Ks + k) := by
  intro l
  induction l with
  | nil => intro p _ a ha; cases ha
  | cons x t ih =>
    intro p h a ha
    rcases List.mem_cons.1 ha with rfl | ha'
    · exact h.2.1
    · exact ih h.2.2 a ha'

/-- A free block and an owned block do not share a byte. -/
theorem Inv.free_own_disjoint {c : Config} {fl : Nat → List Nat} {owned : List (Nat × Nat)}
    (h : Inv c fl owned) {b : Nat × Nat} (hb : b ∈ owned) {k x : Nat} (hx : x ∈ fl k) :
    x + c.blockSize k ≤ b.1 ∨ b.1 + c.blockSize b.2 ≤ x := by
  by_contra hcon
  push_neg at hcon
  have hbx := h.free_blk k x hx
  have hbb := h.own_blk b hb
  have hlt1 := hbx.2.2
  have hlt2 := hbb.2.2
  have hp1 := blockSize_pos c k
  have hp2 := blockSize_pos c b.2
  have hz : max x b.1 < c.arenaSize := by
    rcases le_total x b.1 with hle | hle
    · rw [max_eq_right hle]; omega
    · rw [max_eq_left hle]; omega
  have hsum := h.own_free_le hb hx hz
  have c1 : covers c (max x b.1) b.1 b.2 = 1 := by
    rw [covers_eq_one_iff]
    rcases le_total x b.1 with hle | hle
    · rw [max_eq_right hle]; omega
    · rw [max_eq_left hle]; omega
  have c2 : covers c (max x b.1) x k = 1 := by
    rw [covers_eq_one_iff]
    rcases le_total x b.1 with hle | hle
    · rw [max_eq_right hle]; omega
    · rw [max_eq_left hle]; omega
  omega

/-- The free lists of a good state, as the state shows them. -/
theorem Good.lists {c : Config} {s : Sys} (hc : c.WF) (hg : Good c s) :
    ∃ fl : Nat → List Nat, Sim c s.st fl (s.live.map (blockOf c)) ∧
      Inv c fl (s.live.map (blockOf c)) ∧
      (∀ e, e ∈ s.live → c.base + 1 ≤ e.1 ∧ e.2 < 65536) ∧
      ∀ k, k < c.MX_Ko → freeList c s.st k = some ((fl k).map (fun a => c.base + a)) := by
  obtain ⟨fl, hs, hi, hb⟩ := hg
  exact ⟨fl, hs, hi, hb, fun k hk => hs.freeList_eq hc hi hk⟩

/-- C15: in every state reached from `emm_init` by `emm_malloc` calls and
`emm_free` calls on live pointers, every free list is a proper list, no block
address occurs twice on the free lists taken together, and no block on a free
list shares a byte with the block of a live allocation. -/
theorem free_blocks_distinct (c : Config) (hc : c.WF) (ops : List Op) :
    (run c ops = .error .notLive ∨ ∃ s, run c ops = .ok s) ∧
    ∀ s, run c ops = .ok s →
      (∀ k, k < c.MX_Ko → (freeList c s.st k).isSome = true) ∧
      (freeBlocks c s.st).Nodup ∧
      ∀ k, k < c.MX_Ko → ∀ a, a ∈ (freeList c s.st k).getD [] → ∀ e, e ∈ s.live →
        a + 2 ^ (c.MX_Ks + k) ≤ e.1 - 1 ∨
          e.1 - 1 + 2 ^ (c.MX_Ks + savedOrder c s.st e.1) ≤ a := by
  refine ⟨run_returns hc ops, ?_⟩
  intro s h
  obtain ⟨fl, hs, hi, hbnd, hfl⟩ := (run_good hc ops s h).lists hc
  have hget : ∀ k, k < c.MX_Ko →
      (freeList c s.st k).getD [] = (fl k).map (fun a => c.base + a) := by
    intro k hk; rw [hfl k hk]; rfl
  refine ⟨fun k hk => by rw [hfl k hk]; rfl, ?_, ?_⟩
  · unfold freeBlocks
    rw [List.nodup_flatten]
    constructor
    · intro l hl
      obtain ⟨k, hk, rfl⟩ := List.mem_map.1 hl
      rw [hget k (List.mem_range.1 hk)]
      exact (hi.free_nodup k).map (fun x y hxy => Nat.add_left_cancel hxy)
    · rw [List.pairwise_map]
      apply List.Pairwise.imp_of_mem _ (List.nodup_range c.MX_Ko)
      intro k k' hk hk' hne
      rw [hget k (List.mem_range.1 hk), hget k' (List.mem_range.1 hk')]
      intro a ha ha'
      obtain ⟨x, hx, rfl⟩ := List.mem_map.1 ha
      obtain ⟨y, hy, hxy⟩ := List.mem_map.1 ha'
      have : y = x := Nat.add_left_cancel hxy
      subst this
      exact hi.free_ne_free hne hx hy
  · intro k hk a ha e he
    rw [hget k hk] at ha
    obtain ⟨x, hx, rfl⟩ := List.mem_map.1 ha
    have hsv := hs.saved (blockOf c e) (List.mem_map_of_mem _ he)
    have hd := hi.free_own_disjoint (List.mem_map_of_mem (blockOf c) he) hx
    have hle := (hbnd e he).1
    unfold savedOrder
    unfold blockOf at hsv hd
    simp only at hsv hd
    rw [hsv]
    unfold Config.blockSize at hd
    omega

theorem free_blocks_distinct_witness :
    sourceConfig.WF ∧
      run sourceConfig (testOps.take 20) = .ok (endOf sourceConfig (testOps.take 20)) ∧
      ((∀ k, k < sourceConfig.MX_Ko →
          (freeList sourceConfig (endOf sourceConfig (testOps.take 20)).st k).isSome = true) ∧
        (freeBlocks sourceConfig (endOf sourceConfig (testOps.take 20)).st).Nodup ∧
        ∀ k, k < sourceConfig.MX_Ko →
          ∀ a, a ∈ (freeList sourceConfig (endOf sourceConfig (testOps.take 20)).st k).getD [] →
          ∀ e, e ∈ (endOf sourceConfig (testOps.take 20)).live →
            a + 2 ^ (sourceConfig.MX_Ks + k) ≤ e.1 - 1 ∨
              e.1 - 1 + 2 ^ (sourceConfig.MX_Ks
                + savedOrder sourceConfig (endOf sourceConfig (testOps.take 20)).st e.1) ≤ a) :=
  ⟨by decide, outcome_ok _ _ (by decide!),
    (free_blocks_distinct sourceConfig (by decide) (testOps.take 20)).2 _
      (outcome_ok _ _ (by decide!))⟩

/-- C18: in every state reached from `emm_init` on the zero-initialised data
by `emm_malloc` calls and `emm_free` calls on live pointers, every node on the
free list of order `k` stores as `orderedAddress` its own tier-relative
address `(node - mainMemory) >> (MX_Ks + k)`, and that value fits 16 bits. -/
theorem ordered_address_own (c : Config) (hc : c.WF) (ops : List Op) :
    (run c ops = .error .notLive ∨ ∃ s, run c ops = .ok s) ∧
    ∀ s, run c ops = .ok s → ∀ k, k < c.MX_Ko →
      ∃ l, freeList c s.st k = some l ∧
        ∀ p, p ∈ l →
          rd16 s.st.mainMemory (p - c.base + 4) = (p - c.base) >>> (c.MX_Ks + k) ∧
            (p - c.base) >>> (c.MX_Ks + k) < 65536 := by
  refine ⟨run_returns hc ops, ?_⟩
  intro s h k hk
  obtain ⟨fl, hs, hi, _, hfl⟩ := (run_good hc ops s h).lists hc
  refine ⟨_, hfl k hk, ?_⟩
  intro p hp
  obtain ⟨x, hx, rfl⟩ := List.mem_map.1 hp
  simp only [Nat.add_sub_cancel_left]
  refine ⟨(hs.chain k hk).oaddr x hx, ?_⟩
  rw [shr_eq_div]
  have := oaddr_lt hc (hi.free_blk k x hx)
  omega

theorem ordered_address_own_witness :
    sourceConfig.WF ∧
      run sourceConfig (testOps.take 20) = .ok (endOf sourceConfig (testOps.take 20)) ∧
      ∀ k, k < sourceConfig.MX_Ko →
        ∃ l, freeList sourceConfig (endOf sourceConfig (testOps.take 20)).st k = some l ∧
          ∀ p, p ∈ l →
            rd16 (endOf sourceConfig (testOps.take 20)).st.mainMemory (p - sourceConfig.base + 4)
                = (p - sourceConfig.base) >>> (sourceConfig.MX_Ks + k) ∧
              (p - sourceConfig.base) >>> (sourceConfig.MX_Ks + k) < 65536 :=
  ⟨by decide, outcome_ok _ _ (by decide!),
    (ordered_address_own sourceConfig (by decide) (testOps.take 20)).2 _
      (outcome_ok _ _ (by decide!))⟩

/-! ## The capacity of the arena after `emm_init` -/

theorem max_lt (c : Config) (hc : c.WF) : 2 ^ (c.MX_Ks + c.MX_Ko - 1) - 1 < 65536 := by
  have := arenaSize_le c hc
  rw [arenaSize_eq] at this
  have hpos : 0 < 2 ^ (c.MX_Ks + c.MX_Ko - 1) := by positivity
  omega

theorem Krequired_zero (c : Config) : Krequired c 0 = 0 := by
  have h := (Krequired_le_iff c 0 (by norm_num) 0).1 (by
    have : 0 < 2 ^ (c.MX_Ks + 0) := by positivity
    omega)
  omega

theorem Krequired_small {c : Config} (hc : c.WF) {s : Nat}
    (h : s ≤ 2 ^ (c.MX_Ks + c.MX_Ko - 1) - 1) : Krequired c s < c.MX_Ko := by
  have hko := hc.2.1
  have hlt := max_lt c hc
  have hpos : 0 < 2 ^ (c.MX_Ks + c.MX_Ko - 1) := by positivity
  have e : c.MX_Ks + (c.MX_Ko - 1) = c.MX_Ks + c.MX_Ko - 1 := by omega
  have h1 := (Krequired_le_iff c s (by omega) (c.MX_Ko - 1)).1 (by rw [e]; omega)
  omega

/-- With nothing allocated, every request that fits the arena is served. -/
theorem good_empty_malloc {c : Config} (hc : c.WF) {st : State} (hg : Good c ⟨st, []⟩)
    {size : Nat} (h : size ≤ 2 ^ (c.MX_Ks + c.MX_Ko - 1) - 1) :
    ∃ st' p, emm_malloc c st size = .ok (st', p) ∧ p ≠ 0 := by
  have hko := hc.2.1
  have hlt := max_lt c hc
  have hK := Krequired_small hc h
  obtain ⟨st', p, h1, _⟩ := emm_malloc_good hc ⟨st, []⟩ hg size (by omega)
  refine ⟨st', p, h1, ?_⟩
  rintro rfl
  rcases (emm_malloc_null_iff c st size).1 ⟨st', h1⟩ with hn | hn
  · omega
  · obtain ⟨fl, hs, hi, _⟩ := hg
    simp only [List.map_nil] at hs hi
    have hz := (hs.head_zero_iff hc (by omega : c.MX_Ko - 1 < c.MX_Ko)).1
      (hn (c.MX_Ko - 1) (by omega) (by omega))
    rw [hi.all_free hc (c.MX_Ko - 1)] at hz
    unfold initFl at hz
    rw [updl_same] at hz
    cases hz

/-- The largest request takes the whole arena and empties every free list. -/
theorem full_alloc {c : Config} (hc : c.WF) :
    ∃ st0 st1, emm_init c zeroState = .ok st0 ∧ Good c ⟨st0, []⟩ ∧
      emm_malloc c st0 (2 ^ (c.MX_Ks + c.MX_Ko - 1) - 1) = .ok (st1, c.base + 1) ∧
      Good c ⟨st1, [(c.base + 1, 2 ^ (c.MX_Ks + c.MX_Ko - 1) - 1)]⟩ ∧
      (∀ k, k < c.MX_Ko → st1.memoryControlBlock k = 0) ∧
      registry c st1 = (List.range c.MX_Ko).map (fun _ => some []) := by
  have hko := hc.2.1
  have hK := Krequired_top hc
  have hlt := max_lt c hc
  obtain ⟨st0, h0, hg0, _⟩ := init_good hc
  obtain ⟨st1, p, h1, hg1⟩ := emm_malloc_good hc ⟨st0, []⟩ hg0 _ hlt
  have hp := init_malloc_nonnull hc h0 (by rw [hK]; omega) h1
  rw [if_neg hp] at hg1
  have hg1' := hg1
  obtain ⟨fl, hs, hi, hl⟩ := hg1
  simp only [List.map_cons, List.map_nil] at hs hi
  have hblk := hi.own_blk _ (List.mem_cons_self _ _)
  obtain ⟨hle, _⟩ := hl _ (List.mem_cons_self _ _)
  have hsz := hblk.2.2
  unfold blockOf at hsz hi
  simp only [hK] at hsz hi
  rw [← arenaSize_eq_blockSize c hko] at hsz
  have hpe : p = c.base + 1 := by simp only at hle; omega
  subst hpe
  have hnil : ∀ k, k < c.MX_Ko → fl k = [] := by
    intro k hk
    have htot := hi.total
    rw [ownSum_cons, ownSum_nil] at htot
    simp only at htot
    rw [← arenaSize_eq_blockSize c hko] at htot
    have hle2 := freeSum_list_le c (fun _ j => c.blockSize j) fl hk
    rw [lsum_size] at hle2
    have hz : (fl k).length * c.blockSize k = 0 := by omega
    have hpos := blockSize_pos c k
    have hlen : (fl k).length = 0 := by
      rcases Nat.mul_eq_zero.1 hz with h | h
      · exact h
      · omega
    exact List.length_eq_zero.1 hlen
  refine ⟨st0, st1, h0, hg0, h1, hg1', ?_, ?_⟩
  · intro k hk
    exact (hs.head_zero_iff hc hk).2 (hnil k hk)
  · rw [hs.registry_eq hc hi]
    apply List.map_congr_left
    intro k hk
    rw [hnil k (List.mem_range.1 hk)]
    rfl

/-- C20: from the state after `emm_init`, `emm_malloc(size)` returns for every
16-bit `size`, and returns a block exactly when
`size ≤ 2^(MX_Ks + MX_Ko - 1) - 1`; size 0 needs order 0.  After
`emm_malloc(2^(MX_Ks + MX_Ko - 1) - 1)` from that state every free list is
empty and every further `emm_malloc` returns `NULL` and changes nothing; after
`emm_free` of the block the registry is as `emm_init` made it and requests up
to the maximum are served again. -/
theorem init_capacity (c : Config) (hc : c.WF) :
    Krequired c 0 = 0 ∧
    ∃ st0, emm_init c zeroState = .ok st0 ∧
      (∀ size, size < 65536 → ∃ st1 p, emm_malloc c st0 size = .ok (st1, p) ∧
        (p ≠ 0 ↔ size ≤ 2 ^ (c.MX_Ks + c.MX_Ko - 1) - 1)) ∧
      ∃ st1, emm_malloc c st0 (2 ^ (c.MX_Ks + c.MX_Ko - 1) - 1) = .ok (st1, c.base + 1) ∧
        registry c st1 = (List.range c.MX_Ko).map (fun _ => some []) ∧
        (∀ size, emm_malloc c st1 size = .ok (st1, 0)) ∧
        ∃ st2, emm_free c st1 (c.base + 1) = .ok st2 ∧ registry c st2 = topRegistry c ∧
          ∀ size, size ≤ 2 ^ (c.MX_Ks + c.MX_Ko - 1) - 1 →
            ∃ st3 p, emm_malloc c st2 size = .ok (st3, p) ∧ p ≠ 0 := by
  obtain ⟨st0, st1, h0, hg0, h1, hg1, hz, hr⟩ := full_alloc hc
  refine ⟨Krequired_zero c, st0, h0, ?_, st1, h1, hr, ?_, ?_⟩
  · intro size hsz
    by_cases hle : size ≤ 2 ^ (c.MX_Ks + c.MX_Ko - 1) - 1
    · obtain ⟨st', p, h, hp⟩ := good_empty_malloc hc hg0 hle
      exact ⟨st', p, h, ⟨fun _ => hle, fun _ => hp⟩⟩
    · have hK := Krequired_large hc (not_le.1 hle) hsz
      refine ⟨st0, 0, ?_, ⟨fun h => absurd rfl h, fun h => absurd h hle⟩⟩
      unfold emm_malloc
      simp only
      rw [if_pos hK]
  · intro size
    obtain ⟨st', h⟩ := (emm_malloc_null_iff c st1 size).2 (Or.inr (fun k _ hk => hz k hk))
    have := emm_malloc_null_state c st1 st' size h
    rw [this] at h
    exact h
  · obtain ⟨st2, h2, hg2⟩ := emm_free_good hc ⟨st1, _⟩ hg1 (c.base + 1) (by simp)
    have hl : List.filter (fun a : Nat × Nat => decide (a.1 ≠ c.base + 1))
        [(c.base + 1, 2 ^ (c.MX_Ks + c.MX_Ko - 1) - 1)] = [] := by simp
    simp only at hg2
    rw [hl] at hg2
    exact ⟨st2, h2, good_empty_registry hc _ hg2 rfl,
      fun size hle => good_empty_malloc hc hg2 hle⟩

theorem init_capacity_witness :
    sourceConfig.WF ∧ 2 ^ (sourceConfig.MX_Ks + sourceConfig.MX_Ko - 1) - 1 = 4095 ∧
    (Krequired sourceConfig 0 = 0 ∧
    ∃ st0, emm_init sourceConfig zeroState = .ok st0 ∧
      (∀ size, size < 65536 → ∃ st1 p, emm_malloc sourceConfig st0 size = .ok (st1, p) ∧
        (p ≠ 0 ↔ size ≤ 2 ^ (sourceConfig.MX_Ks + sourceConfig.MX_Ko - 1) - 1)) ∧
      ∃ st1, emm_malloc sourceConfig st0 (2 ^ (sourceConfig.MX_Ks + sourceConfig.MX_Ko - 1) - 1)
          = .ok (st1, sourceConfig.base + 1) ∧
        registry sourceConfig st1 = (List.range sourceConfig.MX_Ko).map (fun _ => some []) ∧
        (∀ size, emm_malloc sourceConfig st1 size = .ok (st1, 0)) ∧
        ∃ st2, emm_free sourceConfig st1 (sourceConfig.base + 1) = .ok st2 ∧
          registry sourceConfig st2 = topRegistry sourceConfig ∧
          ∀ size, size ≤ 2 ^ (sourceConfig.MX_Ks + sourceConfig.MX_Ko - 1) - 1 →
            ∃ st3 p, emm_malloc sourceConfig st2 size = .ok (st3, p) ∧ p ≠ 0) :=
  ⟨by decide, by decide, init_capacity sourceConfig (by decide)⟩

/-! ## The record of `emm_malloc` -/

/-- Without its record the instrumented split loop is the split loop. -/
theorem splitLoopLog_drop (c : Config) (K B : Nat) :
    ∀ (j ssplit : Nat) (st : State),
      dropLog (splitLoopLog c K B j ssplit st) = splitLoop c K B j ssplit st := by
  intro j
  induction j with
  | zero =>
    intro ssplit st
    unfold splitLoopLog splitLoop
    simp only
    split_ifs <;> rfl
  | succ j ih =>
    intro ssplit st
    unfold splitLoopLog splitLoop
    simp only
    split_ifs
    all_goals first
      | rfl
      | (rw [← ih]
         generalize splitLoopLog c K B j _ _ = r
         rcases r with e | ⟨r, log⟩ <;> rfl)

theorem range_rev_succ (K j : Nat) (h : K ≤ j + 1) :
    (List.range' K (j + 1 + 1 - K)).reverse = (j + 1) :: (List.range' K (j + 1 - K)).reverse := by
  have e : j + 1 + 1 - K = (j + 1 - K) + 1 := by omega
  rw [e, List.range'_concat, List.reverse_append]
  simp only [List.reverse_cons, List.reverse_nil, List.nil_append, List.singleton_append,
    one_mul]
  congr 1
  omega

/-- The split loop started at `j ≥ K` makes the passes `j, j - 1, .., K`. -/
theorem splitLoopLog_passes (c : Config) (K B : Nat) :
    ∀ (j ssplit : Nat) (st : State) (r : SplitResult) (log : List Nat), K ≤ j →
      splitLoopLog c K B j ssplit st = .ok (r, log) →
      log = (List.range' K (j + 1 - K)).reverse := by
  intro j
  induction j with
  | zero =>
    intro ssplit st r log hK h
    have hK0 : K = 0 := by omega
    subst hK0
    unfold splitLoopLog at h
    simp only [Nat.lt_irrefl, if_false, if_true] at h
    split_ifs at h
    · cases h; rfl
  | succ j ih =>
    intro ssplit st r log hK h
    unfold splitLoopLog at h
    rw [if_neg (by omega)] at h
    simp only at h
    split_ifs at h with h1 h2 h3
    · cases h
      rw [← h2]
      have e : j + 1 + 1 - (j + 1) = 1 := by omega
      rw [e]
      rfl
    · generalize hr : splitLoopLog c K B j _ _ = res at h
      rcases res with e | ⟨r', log'⟩
      · cases h
      · simp only at h
        cases h
        have hK' : K ≤ j := by omega
        rw [ih _ _ _ _ hK' hr, range_rev_succ K j hK]

/-- Without its record the instrumented search loop is the search loop. -/
theorem scanLoopLog_drop (c : Config) (K : Nat) :
    ∀ (n k ssplit : Nat) (st : State),
      dropLog (scanLoopLog c K n k ssplit st) = scanLoop c K n k ssplit st := by
  intro n
  induction n with
  | zero => intro k ssplit st; rfl
  | succ n ih =>
    intro k ssplit st
    unfold scanLoopLog scanLoop
    simp only
    split_ifs
    all_goals first
      | rfl
      | exact ih _ _ _
      | (rw [← splitLoopLog_drop]
         generalize splitLoopLog c K _ _ _ _ = r
         rcases r with e | ⟨r, log⟩
         · rfl
         · cases r with
           | returned st2 p => rfl
           | exited st2 s2 => exact ih _ _ _)

/-- A non-null result of the instrumented search loop comes from the first
non-empty list `k'`, after the passes `k' - 1, .., K` of the split loop. -/
theorem scanLoopLog_passes (c : Config) (K : Nat) :
    ∀ (n k ssplit : Nat) (st st' : State) (p : Nat) (o : Option Nat) (log : List Nat), K < k →
      scanLoopLog c K n k ssplit st = .ok ((st', p), o, log) → p ≠ 0 →
      ∃ k', o = some k' ∧ k ≤ k' ∧ k' < k + n ∧ st.memoryControlBlock k' ≠ 0 ∧
        (∀ i, k ≤ i → i < k' → st.memoryControlBlock i = 0) ∧
        log = (List.range' K (k' - K)).reverse := by
  intro n
  induction n with
  | zero =>
    intro k ssplit st st' p o log _ h hp
    unfold scanLoopLog at h
    cases h
    exact absurd rfl hp
  | succ n ih =>
    intro k ssplit st st' p o log hK h hp
    unfold scanLoopLog at h
    by_cases h0 : st.memoryControlBlock k = 0
    · rw [if_neg (by simp [h0])] at h
      obtain ⟨k', ho, h1, h2, h3, h4, h5⟩ := ih _ _ _ _ _ _ _ (by omega) h hp
      refine ⟨k', ho, by omega, by omega, h3, fun i hi1 hi2 => ?_, h5⟩
      by_cases hik : i = k
      · rw [hik]; exact h0
      · exact h4 i (by omega) hi2
    · rw [if_pos h0] at h
      simp only at h
      split_ifs at h with hv
      generalize hr : splitLoopLog c K (st.memoryControlBlock k) (k - 1)
        ((ssplit <<< (c.MX_Ks - 1 + k)) % 65536) _ = res at h
      rcases res with e | ⟨r, log'⟩
      · cases h
      · have hd := splitLoopLog_drop c K (st.memoryControlBlock k) (k - 1)
          ((ssplit <<< (c.MX_Ks - 1 + k)) % 65536)
          ⟨st.mainMemory, upd st.memoryControlBlock k
            (rd32 st.mainMemory (st.memoryControlBlock k - c.base))⟩
        rw [hr] at hd
        obtain ⟨st2, rfl⟩ := splitLoop_returns c K _ _ _ _ _ (by omega) hd.symm
        simp only at h
        cases h
        have hlog := splitLoopLog_passes c K _ _ _ _ _ _ (by omega) hr
        have e : k - 1 + 1 - K = k - K := by omega
        rw [e] at hlog
        exact ⟨k, rfl, le_refl _, by omega, h0, fun i h1 h2 => by omega, hlog⟩

/-- Without its record `emm_mallocLog` is `emm_malloc`. -/
theorem emm_mallocLog_drop (c : Config) (st : State) (size : Nat) :
    dropLog (emm_mallocLog c st size) = emm_malloc c st size := by
  unfold emm_mallocLog emm_malloc
  simp only
  split_ifs
  all_goals first
    | rfl
    | exact scanLoopLog_drop _ _ _ _ _ _

theorem dropLog_ok {α β : Type} {r : Except Fault (α × β)} {a : α} (h : dropLog r = .ok a) :
    ∃ b, r = .ok (a, b) := by
  rcases r with e | ⟨a', b⟩
  · cases h
  · cases h; exact ⟨b, rfl⟩

/-- The fast path of `emm_malloc`: the head of the list of the needed order
is unlinked and tagged. -/
theorem emm_malloc_fast {c : Config} {owned : List (Nat × Nat)} (hc : c.WF) {st : State}
    {fl : Nat → List Nat} (hs : Sim c st fl owned) (hi : Inv c fl owned) (size : Nat)
    {B : Nat} {t : List Nat} (hK : Krequired c size < c.MX_Ko)
    (hl : fl (Krequired c size) = B :: t) :
    ∃ st', emm_malloc c st size = .ok (st', c.base + B + 1) ∧
      emm_mallocLog c st size = .ok ((st', c.base + B + 1), some (Krequired c size), []) ∧
      Sim c st' (updl fl (Krequired c size) t) ((B, Krequired c size) :: owned) ∧
      Inv c (updl fl (Krequired c size) t) ((B, Krequired c size) :: owned) := by
  have hch := hs.chain _ hK
  rw [hl] at hch
  have hp : st.memoryControlBlock (Krequired c size) = c.base + B := hch.1
  have hbase := hc.2.2.2.1
  have hmcb0 : st.memoryControlBlock (Krequired c size) ≠ 0 := by rw [hp]; omega
  have hblk := hi.free_blk _ B (by rw [hl]; exact List.mem_cons_self _ _)
  have hv := hblk.item_valid hc
  have hi1 : Inv c (updl fl (Krequired c size) t) ((B, Krequired c size) :: owned) :=
    hi.take_head hl
  have hs1 : Sim c ⟨st.mainMemory,
      upd st.memoryControlBlock (Krequired c size) (rd32 st.mainMemory B)⟩
      (updl fl (Krequired c size) t) owned := hs.set_list hch.2.2
  obtain ⟨_, hs2⟩ := split_final hc hs1 hi1
  have e2 : c.base + B - c.base = B := by omega
  refine ⟨⟨wr8 st.mainMemory B (Krequired c size),
      upd st.memoryControlBlock (Krequired c size) (rd32 st.mainMemory B)⟩, ?_, ?_, hs2, hi1⟩
  · unfold emm_malloc
    simp only
    rw [if_neg (by omega), if_pos hmcb0]
    simp only [hp, hv, not_true_eq_false, if_false, e2]
  · unfold emm_mallocLog
    simp only
    rw [if_neg (by omega), if_pos hmcb0]
    simp only [hp, hv, not_true_eq_false, if_false, e2]

/-- The slow path of `emm_malloc`: the head of the first non-empty list above
the needed order is unlinked and split down to the needed order. -/
theorem emm_malloc_split {c : Config} {owned : List (Nat × Nat)} (hc : c.WF) {st : State}
    {fl : Nat → List Nat} (hs : Sim c st fl owned) (hi : Inv c fl owned) (size : Nat)
    {k B : Nat} {t : List Nat} (hKk : Krequired c size < k) (hk : k < c.MX_Ko)
    (he : ∀ i, Krequired c size ≤ i → i < k → fl i = []) (hl : fl k = B :: t) :
    ∃ st', emm_malloc c st size = .ok (st', c.base + B + 1) ∧
      emm_mallocLog c st size = .ok ((st', c.base + B + 1), some k,
        (List.range' (Krequired c size) (k - Krequired c size)).reverse) ∧
      Sim c st' (splitFl c (updl fl k t) B (Krequired c size) (k - 1))
        ((B, Krequired c size) :: owned) ∧
      Inv c (splitFl c (updl fl k t) B (Krequired c size) (k - 1))
        ((B, Krequired c size) :: owned) := by
  have hK' : Krequired c size < c.MX_Ko := by omega
  have hnil := he _ (le_refl _) hKk
  have hmcb := (hs.head_zero_iff hc hK').2 hnil
  have hstep : emm_malloc c st size
      = scanLoop c (Krequired c size) (c.MX_Ko - (Krequired c size + 1))
          (Krequired c size + 1) 1 st := by
    unfold emm_malloc; simp only; rw [if_neg (by omega), if_neg (by simp [hmcb])]
  have hstepL : emm_mallocLog c st size
      = scanLoopLog c (Krequired c size) (c.MX_Ko - (Krequired c size + 1))
          (Krequired c size + 1) 1 st := by
    unfold emm_mallocLog; simp only; rw [if_neg (by omega), if_neg (by simp [hmcb])]
  rcases scanLoop_sim hc (Krequired c size) (c.MX_Ko - (Krequired c size + 1))
    (Krequired c size + 1) st fl (by omega) (by omega) hs hi (fun i h1 h2 => by
      have : i = Krequired c size := by omega
      rw [this]; exact hnil) with ⟨_, h⟩ | ⟨st', B', k', t', h1, h2, h3, h4, h5, h6, h7⟩
  · rw [h k (by omega) hk] at hl; cases hl
  · have hkk : k' = k := by
      rcases Nat.lt_trichotomy k' k with hlt | heq | hgt
      · rw [he k' (by omega) hlt] at h3; cases h3
      · exact heq
      · rw [h4 k (by omega) hgt] at hl; cases hl
    subst hkk
    rw [hl] at h3
    cases h3
    refine ⟨st', by rw [hstep]; exact h5, ?_, h6, h7⟩
    have hd := scanLoopLog_drop c (Krequired c size) (c.MX_Ko - (Krequired c size + 1))
      (Krequired c size + 1) 1 st
    rw [h5] at hd
    obtain ⟨⟨o, log⟩, hlog⟩ := dropLog_ok hd
    obtain ⟨k'', ho, hk1, _, hk3, hk4, hk5⟩ := scanLoopLog_passes c (Krequired c size) _ _ _ _ _
      _ _ _ (by omega) hlog (by omega)
    have hkk : k'' = k' := by
      rcases Nat.lt_trichotomy k'' k' with hlt | heq | hgt
      · exact absurd ((hs.head_zero_iff hc (by omega)).2 (he k'' (by omega) hlt)) hk3
      · exact heq
      · have := (hs.head_zero_iff hc hk).1 (hk4 k' (by omega) hgt)
        rw [hl] at this; cases this
    subst hkk
    rw [hstepL, hlog, ho, hk5]

/-! ## The splitting cascade -/

theorem ghost_nil {c : Config} {st : State} {fl : Nat → List Nat} {k : Nat}
    (hfl : freeList c st k = some ((fl k).map (fun a => c.base + a)))
    (h : freeList c st k = some []) : fl k = [] := by
  rw [hfl] at h
  exact List.map_eq_nil_iff.1 (Option.some.inj h)

theorem ghost_cons {c : Config} {st : State} {fl : Nat → List Nat} {k B : Nat} {t : List Nat}
    (hfl : freeList c st k = some ((fl k).map (fun a => c.base + a)))
    (h : freeList c st k = some (B :: t)) :
    ∃ B0 t0, fl k = B0 :: t0 ∧ B = c.base + B0 ∧ t = t0.map (fun a => c.base + a) := by
  rw [hfl] at h
  have h' := Option.some.inj h
  cases hl : fl k with
  | nil => rw [hl] at h'; cases h'
  | cons B0 t0 =>
    rw [hl, List.map_cons] at h'
    injection h' with h1 h2
    exact ⟨B0, t0, rfl, h1.symm, h2.symm⟩

/-- C16: in a state reached from `emm_init` by valid calls, when the lists of
the orders `neededOrder .. k - 1` are empty and the list of order `k` has head
`B`, `emm_malloc` returns `B + 1`; its split loop makes exactly the
`k - neededOrder` passes `j = k - 1, .., neededOrder`; afterwards the list of
order `k` has lost its head, the list of every order `j` in
`neededOrder .. k - 1` holds exactly the block at `B + 2^(MX_Ks + j)`, and the
lists of the orders below `neededOrder` and above `k` are unchanged. -/
theorem split_cascade (c : Config) (hc : c.WF) (ops : List Op) (s : Sys)
    (h : run c ops = .ok s) (size k B : Nat) (t : List Nat)
    (hKk : Krequired c size < k) (hk : k < c.MX_Ko)
    (hempty : ∀ i, i < k → Krequired c size ≤ i → freeList c s.st i = some [])
    (hhead : freeList c s.st k = some (B :: t)) :
    ∃ st' log, emm_mallocLog c s.st size = .ok ((st', B + 1), some k, log) ∧
      emm_malloc c s.st size = .ok (st', B + 1) ∧
      log = (List.range' (Krequired c size) (k - Krequired c size)).reverse ∧
      log.length = k - Krequired c size ∧
      freeList c st' k = some t ∧
      (∀ j, Krequired c size ≤ j → j < k →
        freeList c st' j = some [B + 2 ^ (c.MX_Ks + j)]) ∧
      (∀ i, i < c.MX_Ko → i < Krequired c size ∨ k < i →
        freeList c st' i = freeList c s.st i) := by
  obtain ⟨fl, hs, hi, _, hfl⟩ := (run_good hc ops s h).lists hc
  obtain ⟨B0, t0, hl, rfl, rfl⟩ := ghost_cons (hfl k hk) hhead
  have he : ∀ i, Krequired c size ≤ i → i < k → fl i = [] :=
    fun i h1 h2 => ghost_nil (hfl i (by omega)) (hempty i h2 h1)
  obtain ⟨st', h1, h2, hs', hi'⟩ := emm_malloc_split hc hs hi size hKk hk he hl
  refine ⟨st', _, h2, h1, rfl, by simp, ?_, ?_, ?_⟩
  · rw [hs'.freeList_eq hc hi' hk]
    unfold splitFl
    rw [if_neg (by omega), updl_same]
  · intro j hj1 hj2
    rw [hs'.freeList_eq hc hi' (by omega : j < c.MX_Ko)]
    unfold splitFl
    rw [if_pos ⟨hj1, by omega⟩]
    simp only [List.map_cons, List.map_nil, Config.blockSize]
    rw [Nat.add_assoc]
  · intro i hi1 hi2
    rw [hs'.freeList_eq hc hi' hi1, hfl i hi1]
    unfold splitFl
    rw [if_neg (by omega), updl_other _ _ _ (by omega)]

theorem split_cascade_witness :
    ∃ st' log, emm_mallocLog smallConfig (endOf smallConfig []).st 7
        = .ok ((st', 65536 + 1), some 3, log) ∧
      emm_malloc smallConfig (endOf smallConfig []).st 7 = .ok (st', 65536 + 1) ∧
      log = (List.range' (Krequired smallConfig 7) (3 - Krequired smallConfig 7)).reverse ∧
      log.length = 3 - Krequired smallConfig 7 ∧
      freeList smallConfig st' 3 = some [] ∧
      (∀ j, Krequired smallConfig 7 ≤ j → j < 3 →
        freeList smallConfig st' j = some [65536 + 2 ^ (smallConfig.MX_Ks + j)]) ∧
      (∀ i, i < smallConfig.MX_Ko → i < Krequired smallConfig 7 ∨ 3 < i →
        freeList smallConfig st' i = freeList smallConfig (endOf smallConfig []).st i) :=
  split_cascade smallConfig (by decide) [] (endOf smallConfig [])
    (outcome_ok _ _ (by decide!)) 7 3 65536 [] (by decide) (by decide)
    (by decide!) (by decide!)

/-! ## The record of `emm_free` -/

/-- Without the node it reports, the instrumented search is the search. -/
theorem buddyScanLog_drop (c : Config) (st : State) (k t : Nat) :
    ∀ (n p : Nat) (prior : Option Nat),
      (buddyScanLog c st k t n p prior).map (Option.map Prod.fst)
        = buddyScan c st k t n p prior := by
  intro n
  induction n with
  | zero => intro p prior; rfl
  | succ n ih =>
    intro p prior
    unfold buddyScanLog buddyScan
    split_ifs
    all_goals first
      | rfl
      | exact ih _ _
      | (cases prior <;> rfl)

theorem buddyScanLog_none {c : Config} (st : State) {k t : Nat} (hbase : 0 < c.base) :
    ∀ (l : List Nat) (n p : Nat) (prior : Option Nat), Chain c st.mainMemory k p l →
      (∀ a, a ∈ l → c.validItem (c.base + a)) → (∀ a, a ∈ l → a >>> (c.MX_Ks + k) ≠ t) →
      l.length < n → buddyScanLog c st k t n p prior = .ok none := by
  intro l
  induction l with
  | nil =>
    intro n p prior h _ _ hn
    cases n with
    | zero => simp at hn
    | succ n => rw [(Chain.nil_iff _ _ _ _).1 h]; simp [buddyScanLog]
  | cons a l ih =>
    intro n p prior h hv hne hn
    cases n with
    | zero => simp at hn
    | succ n =>
      obtain ⟨h1, h2, h3⟩ := h
      have hva := hv a (List.mem_cons_self _ _)
      have hp : p ≠ 0 := by rw [h1]; omega
      have e : c.base + a - c.base = a := by omega
      have hn' : l.length < n := by simpa using hn
      rw [buddyScanLog, if_neg hp, h1]
      simp only [hva, not_true_eq_false, if_false, e]
      rw [h2, if_neg (hne a (List.mem_cons_self _ _))]
      exact ih n _ _ h3 (fun b hb => hv b (List.mem_cons_of_mem _ hb))
        (fun b hb => hne b (List.mem_cons_of_mem _ hb)) hn'

/-- The node the search unlinks is the first one that carries the address it
looks for. -/
theorem buddyScanLog_found {c : Config} (st : State) {k t b : Nat} {l2 : List Nat}
    (hbase : 0 < c.base) :
    ∀ (l1 : List Nat) (n p : Nat) (prior : Option Nat),
      Chain c st.mainMemory k p (l1 ++ b :: l2) →
      (∀ a, a ∈ l1 ++ b :: l2 → c.validItem (c.base + a)) →
      (∀ a, a ∈ l1 → a >>> (c.MX_Ks + k) ≠ t) → b >>> (c.MX_Ks + k) = t →
      l1.length < n →
      buddyScanLog c st k t n p prior
        = .ok (some (unlinkState c st k (lastPtr c prior l1) (rd32 st.mainMemory b),
            c.base + b)) := by
  intro l1
  induction l1 with
  | nil =>
    intro n p prior h hv _ hb hn
    cases n with
    | zero => simp at hn
    | succ n =>
      simp only [List.nil_append] at h hv
      obtain ⟨h1, h2, _⟩ := h
      have hvb := hv b (List.mem_cons_self _ _)
      have hp : p ≠ 0 := by rw [h1]; omega
      have e : c.base + b - c.base = b := by omega
      rw [buddyScanLog, if_neg hp, h1]
      simp only [hvb, not_true_eq_false, if_false, e]
      rw [h2, if_pos hb]
      cases prior <;> rfl
  | cons a l ih =>
    intro n p prior h hv hne hb hn
    cases n with
    | zero => simp at hn
    | succ n =>
      simp only [List.cons_append] at h hv
      obtain ⟨h1, h2, h3⟩ := h
      have hva := hv a (List.mem_cons_self _ _)
      have hp : p ≠ 0 := by rw [h1]; omega
      have e : c.base + a - c.base = a := by omega
      have hn' : l.length < n := by simpa using hn
      rw [buddyScanLog, if_neg hp, h1]
      simp only [hva, not_true_eq_false, if_false, e]
      rw [h2, if_neg (hne a (List.mem_cons_self _ _))]
      exact ih n _ _ h3 (fun x hx => hv x (List.mem_cons_of_mem _ hx))
        (fun x hx => hne x (List.mem_cons_of_mem _ hx)) hb hn'

/-- Without its record the instrumented `RETRY` loop is the `RETRY` loop. -/
theorem retryLog_drop (c : Config) :
    ∀ (n : Nat) (st : State) (k fli oa : Nat),
      dropLog (retryLog c n st k fli oa) = retry c n st k fli oa := by
  intro n
  induction n with
  | zero => intro st k fli oa; rfl
  | succ n ih =>
    intro st k fli oa
    unfold retryLog retry
    simp only
    split_ifs
    all_goals first
      | rfl
      | (rw [← buddyScanLog_drop]
         generalize buddyScanLog c st k _ _ _ _ = r
         rcases r with e | o
         · rfl
         · rcases o with _ | ⟨st1, node⟩
           · simp only [Except.map, Option.map]
             rfl
           · simp only [Except.map, Option.map]
             rw [← ih]
             generalize retryLog c n st1 _ _ _ = r2
             rcases r2 with e | ⟨st2, log⟩ <;> rfl)

/-- Without its record `emm_freeLog` is `emm_free`. -/
theorem emm_freeLog_drop (c : Config) (st : State) (ptr : Nat) :
    dropLog (emm_freeLog c st ptr) = emm_free c st ptr := by
  unfold emm_freeLog emm_free
  simp only
  split_ifs
  all_goals first
    | rfl
    | exact retryLog_drop _ _ _ _ _ _

/-! ## The passes of the `RETRY` loop -/

theorem MergeTrace.ne_nil {c : Config} {k a : Nat} {log : List Pass}
    (h : MergeTrace c k a log) : log ≠ [] := by
  rintro rfl
  exact h

theorem MergeTrace.cons {c : Config} {k a : Nat} {log : List Pass}
    (h : MergeTrace c (k + 1) (parentOf c a k) log) :
    MergeTrace c k a (⟨k, c.base + a, some (c.base + buddyOf c a k)⟩ :: log) := by
  cases log with
  | nil => exact absurd rfl h.ne_nil
  | cons e rest => exact ⟨rfl, h⟩

theorem MergeTrace.head_eq {c : Config} {k a : Nat} {x : Pass} {rest : List Pass}
    (h : MergeTrace c k a (x :: rest)) : x.order = k ∧ x.block = c.base + a := by
  cases rest with
  | nil =>
    have hx : x = ⟨k, c.base + a, none⟩ := h
    rw [hx]; exact ⟨rfl, rfl⟩
  | cons y r =>
    have hx : x = ⟨k, c.base + a, some (c.base + buddyOf c a k)⟩ := h.1
    rw [hx]; exact ⟨rfl, rfl⟩

theorem MergeTrace.orders {c : Config} :
    ∀ (log : List Pass) (k a : Nat), MergeTrace c k a log →
      log.map Pass.order = List.range' k log.length := by
  intro log
  induction log with
  | nil => intro k a h; exact absurd rfl h.ne_nil
  | cons x rest ih =>
    intro k a h
    have hx := h.head_eq.1
    cases rest with
    | nil => simp [hx]
    | cons y r =>
      have ht : MergeTrace c (k + 1) (parentOf c a k) (y :: r) := h.2
      have := ih _ _ ht
      rw [List.map_cons, this, hx]
      simp [List.range'_succ]

/-- The instrumented `RETRY` loop on an owned block: it ends within the
configured orders, its passes are merges with the buddy of the candidate
followed by one insertion, and the state it leaves is good. -/
theorem retryLog_effect {c : Config} {owned : List (Nat × Nat)} (hc : c.WF) :
    ∀ (n k a : Nat) (st : State) (fl : Nat → List Nat), c.MX_Ko - k < n →
      Sim c st fl owned → Inv c fl ((a, k) :: owned) →
      ∃ st' fl' log, retryLog c n st k (c.base + a) (a >>> (c.MX_Ks + k)) = .ok (st', log) ∧
        Sim c st' fl' owned ∧ Inv c fl' owned ∧ MergeTrace c k a log ∧
        log.length + k ≤ c.MX_Ko ∧ (log.length = 1 → fl' = updl fl k (a :: fl k)) ∧
        (∀ x, x ∈ log → ∃ y, x.block = c.base + y ∧ IsBlock c y x.order ∧
          ((∃ l1 l2, x.buddy = some (c.base + buddyOf c y x.order) ∧
              fl x.order = l1 ++ buddyOf c y x.order :: l2 ∧ fl' x.order = l1 ++ l2) ∨
            (x.buddy = none ∧ buddyOf c y x.order ∉ fl x.order ∧
              fl' x.order = y :: fl x.order))) ∧
        (∀ i, (∀ x, x ∈ log → x.order ≠ i) → fl' i = fl i) := by
  intro n
  induction n with
  | zero => intro k a st fl hn; omega
  | succ n ih =>
    intro k a st fl hn hs hi
    have hblk := hi.own_blk (a, k) (List.mem_cons_self _ _)
    have hk : k < c.MX_Ko := hblk.1
    have hv := hblk.item_valid hc
    have e : c.base + a - c.base = a := by omega
    have hbase := hc.2.2.2.1
    rw [shr_eq_div]
    by_cases hnil : fl k = []
    · have hmcb := (hs.head_zero_iff hc hk).2 hnil
      have hi1 := hi.give (by rw [hnil]; simp)
      have hs1 := insert_sim hc hs hi
      rw [hmcb] at hs1
      refine ⟨_, updl fl k (a :: fl k), [⟨k, c.base + a, none⟩], ?_, hs1, hi1, rfl,
        by simp only [List.length_singleton]; omega, fun _ => rfl, ?_, ?_⟩
      rotate_left
      · intro x hx
        rw [List.mem_singleton.1 hx]
        exact ⟨a, rfl, hblk, Or.inr ⟨rfl, by rw [hnil]; simp, updl_same _ _ _⟩⟩
      · intro i hi0
        exact updl_other _ _ _ (fun h => hi0 _ (List.mem_singleton_self _) h.symm)
      rw [retryLog, if_neg (by omega), if_pos hmcb]
      simp only [hv, not_true_eq_false, if_false, e]
    · have hmcb0 : st.memoryControlBlock k ≠ 0 := fun h0 => hnil ((hs.head_zero_iff hc hk).1 h0)
      have ht := target_eq hc hblk
      have hvall : ∀ x, x ∈ fl k → c.validItem (c.base + x) :=
        fun x hx => (hi.free_blk k x hx).item_valid hc
      have hlen : (fl k).length < c.arenaSize + 1 := by
        have := hi.length_le hk; omega
      by_cases hm : buddyOf c a k ∈ fl k
      · obtain ⟨l1, l2, hl⟩ := List.append_of_mem hm
        have hnd := hi.free_nodup k
        rw [hl] at hnd
        have hb1 : buddyOf c a k ∉ l1 := by
          intro hmem
          exact (List.disjoint_of_nodup_append hnd) hmem (List.mem_cons_self _ _)
        have hch := hs.chain k hk
        rw [hl] at hch hvall hlen
        have hscan := buddyScanLog_found st (k := k) (t := buddyOf c a k / c.blockSize k)
          hbase l1 (c.arenaSize + 1) (st.memoryControlBlock k) none hch hvall
          (fun x hx heq => by
            rw [shr_eq_div] at heq
            have hxk : x ∈ fl k := by rw [hl]; exact List.mem_append_left _ hx
            have := aligned_div_inj (hi.free_blk k x hxk).2.1 (buddy_dvd c a k hblk.2.1) heq
            exact hb1 (this ▸ hx))
          (shr_eq_div c _ k)
          (by simp only [List.length_append, List.length_cons] at hlen; omega)
        have hi2 : Inv c (updl fl k (l1 ++ l2)) ((parentOf c a k, k + 1) :: owned) :=
          ((hi.take hl).perm (List.Perm.swap _ _ _)).merge hc
        have hs2 := unlink_sim hc hs hi (fun x hx => List.mem_cons_of_mem _ hx) hl
        have hpb := hi2.own_blk (parentOf c a k, k + 1) (List.mem_cons_self _ _)
        obtain ⟨st', fl', log, hr, hs3, hi3, hmt, hlen3, _, he1, he2⟩ :=
          ih (k + 1) (parentOf c a k) _ _ (by omega) hs2 hi2
        have hord : ∀ x, x ∈ log → x.order ≠ k := by
          intro x hx
          have hm : x.order ∈ log.map Pass.order := List.mem_map_of_mem _ hx
          rw [MergeTrace.orders log _ _ hmt, List.mem_range'_1] at hm
          omega
        refine ⟨st', fl', ⟨k, c.base + a, some (c.base + buddyOf c a k)⟩ :: log, ?_, hs3, hi3,
          hmt.cons, by simp only [List.length_cons]; omega, fun h1 => ?_, ?_, ?_⟩
        rotate_left 2
        · intro x hx
          rcases List.mem_cons.1 hx with rfl | hx'
          · refine ⟨a, rfl, hblk, Or.inl ⟨l1, l2, rfl, hl, ?_⟩⟩
            rw [he2 k hord]
            exact updl_same _ _ _
          · obtain ⟨y, hy1, hy2, hy3⟩ := he1 x hx'
            rw [updl_other _ _ _ (hord x hx')] at hy3
            exact ⟨y, hy1, hy2, hy3⟩
        · intro i hi0
          rw [he2 i (fun x hx => hi0 x (List.mem_cons_of_mem _ hx))]
          exact updl_other _ _ _ (fun h => hi0 _ (List.mem_cons_self _ _) h.symm)
        · rw [retryLog, if_neg (by omega), if_neg hmcb0]
          simp only [ht]
          rw [hscan]
          simp only
          have hk1 : (k + 1) % 256 = k + 1 :=
            Nat.mod_eq_of_lt (by have := order_lt_256 hc hpb.1; omega)
          have hsh : 1 <<< (c.MX_Ks + (k + 1)) = c.blockSize (k + 1) := Nat.one_shiftLeft _
          have hpar : c.blockSize (k + 1) * (a / c.blockSize (k + 1)) = parentOf c a k := rfl
          have hplt : parentOf c a k % 4294967296 = parentOf c a k := by
            apply Nat.mod_eq_of_lt
            have := hpb.lt_arena
            have := hc.2.2.2.2
            omega
          rw [hk1, buddy_half hblk.2.1, hsh, hpar, hplt]
          rw [shr_eq_div, parent_div] at hr
          rw [hr]
        · exfalso
          have := List.length_pos.2 hmt.ne_nil
          simp only [List.length_cons] at h1
          omega
      · have hscan := buddyScanLog_none st (k := k) (t := buddyOf c a k / c.blockSize k)
          hbase (fl k) (c.arenaSize + 1) (st.memoryControlBlock k) none (hs.chain k hk) hvall
          (fun x hx heq => by
            rw [shr_eq_div] at heq
            have := aligned_div_inj (hi.free_blk k x hx).2.1 (buddy_dvd c a k hblk.2.1) heq
            exact hm (this ▸ hx))
          hlen
        have hi1 := hi.give hm
        have hs1 := insert_sim hc hs hi
        refine ⟨_, updl fl k (a :: fl k), [⟨k, c.base + a, none⟩], ?_, hs1, hi1, rfl,
          by simp only [List.length_singleton]; omega, fun _ => rfl, ?_, ?_⟩
        rotate_left
        · intro x hx
          rw [List.mem_singleton.1 hx]
          exact ⟨a, rfl, hblk, Or.inr ⟨rfl, hm, updl_same _ _ _⟩⟩
        · intro i hi0
          exact updl_other _ _ _ (fun h => hi0 _ (List.mem_singleton_self _) h.symm)
        rw [retryLog, if_neg (by omega), if_neg hmcb0]
        simp only [ht]
        rw [hscan]
        simp only [hv, not_true_eq_false, if_false, e, target_back hc hblk]

/-- The instrumented `RETRY` loop on an owned block: it ends, and leaves a
good state. -/
theorem retryLog_sim {c : Config} {owned : List (Nat × Nat)} (hc : c.WF) :
    ∀ (n k a : Nat) (st : State) (fl : Nat → List Nat), c.MX_Ko - k < n →
      Sim c st fl owned → Inv c fl ((a, k) :: owned) →
      ∃ st' fl' log, retryLog c n st k (c.base + a) (a >>> (c.MX_Ks + k)) = .ok (st', log) ∧
        Sim c st' fl' owned ∧ Inv c fl' owned ∧ MergeTrace c k a log ∧
        log.length + k ≤ c.MX_Ko ∧ (log.length = 1 → fl' = updl fl k (a :: fl k)) := by
  intro n k a st fl hn hs hi
  obtain ⟨st', fl', log, h1, h2, h3, h4, h5, h6, _⟩ := retryLog_effect hc n k a st fl hn hs hi
  exact ⟨st', fl', log, h1, h2, h3, h4, h5, h6⟩

/-- On a good state `emm_freeLog` of a live pointer returns; its passes start
at the block of the pointer, at the order of the request; every pass but the
last unlinks the buddy of its candidate from the list of its order, the last
pass finds no buddy there and puts its candidate at the head; the state it
leaves is good. -/
theorem emm_freeLog_effect {c : Config} (hc : c.WF) (s : Sys) (hg : Good c s) (e : Nat × Nat)
    (he : e ∈ s.live) :
    ∃ st' log fl fl', emm_freeLog c s.st e.1 = .ok (st', log) ∧
      Sim c s.st fl (s.live.map (blockOf c)) ∧ Inv c fl (s.live.map (blockOf c)) ∧
      Sim c st' fl' ((s.live.filter (fun a => a.1 ≠ e.1)).map (blockOf c)) ∧
      Inv c fl' ((s.live.filter (fun a => a.1 ≠ e.1)).map (blockOf c)) ∧
      IsBlock c (e.1 - 1 - c.base) (Krequired c e.2) ∧ c.base + 1 ≤ e.1 ∧
      MergeTrace c (Krequired c e.2) (e.1 - 1 - c.base) log ∧
      log.length + Krequired c e.2 ≤ c.MX_Ko ∧
      (log.length = 1 →
        fl' = updl fl (Krequired c e.2) ((e.1 - 1 - c.base) :: fl (Krequired c e.2))) ∧
      (∀ x, x ∈ log → ∃ y, x.block = c.base + y ∧ IsBlock c y x.order ∧
        ((∃ l1 l2, x.buddy = some (c.base + buddyOf c y x.order) ∧
            fl x.order = l1 ++ buddyOf c y x.order :: l2 ∧ fl' x.order = l1 ++ l2) ∨
          (x.buddy = none ∧ buddyOf c y x.order ∉ fl x.order ∧
            fl' x.order = y :: fl x.order))) ∧
      (∀ i, (∀ x, x ∈ log → x.order ≠ i) → fl' i = fl i) := by
  have hnd := hg.ptr_nodup
  obtain ⟨fl, hs, hi, hl⟩ := hg
  obtain ⟨hle, _⟩ := hl e he
  have hperm := perm_filter_of_nodup s.live e hnd he
  have hi' : Inv c fl ((e.1 - 1 - c.base, Krequired c e.2)
      :: (s.live.filter (fun a => a.1 ≠ e.1)).map (blockOf c)) :=
    hi.perm (hperm.map (blockOf c))
  have hs' : Sim c s.st fl ((s.live.filter (fun a => a.1 ≠ e.1)).map (blockOf c)) := by
    refine ⟨hs.chain, ?_⟩
    intro b hb
    obtain ⟨x, hx, rfl⟩ := List.mem_map.1 hb
    exact hs.saved _ (List.mem_map_of_mem _ (List.mem_filter.1 hx).1)
  have hblk := hi'.own_blk _ (List.mem_cons_self _ _)
  have hsaved : rd8 s.st.mainMemory (e.1 - 1 - c.base) = Krequired c e.2 :=
    hs.saved (blockOf c e) (List.mem_map_of_mem _ he)
  obtain ⟨st', fl', log, hr, hs3, hi3, hmt, hlen, hone, he1, he2⟩ :=
    retryLog_effect hc (c.MX_Ko + 1)
    (Krequired c e.2) (e.1 - 1 - c.base) s.st fl (by omega) hs' hi'
  have htop := hc.2.2.2.2
  have hlt := hblk.lt_arena
  have hraw : (e.1 + 4294967295) % 4294967296 = e.1 - 1 := by
    simp only at hlt; omega
  have hv : c.valid (e.1 - 1) 1 := by
    simp only at hlt; unfold Config.valid; omega
  have hoa : (e.1 - 1 - c.base) >>> (c.MX_Ks + Krequired c e.2) % 65536
      = (e.1 - 1 - c.base) >>> (c.MX_Ks + Krequired c e.2) := by
    apply Nat.mod_eq_of_lt
    rw [shr_eq_div]
    have := oaddr_lt hc hblk
    simp only at this; omega
  have hfl : c.base + (e.1 - 1 - c.base) = e.1 - 1 := by omega
  refine ⟨st', log, fl, fl', ?_, hs, hi, hs3, hi3, hblk, hle, hmt, hlen, hone, he1, he2⟩
  unfold emm_freeLog
  simp only [hraw, hv, not_true_eq_false, if_false, hsaved, hoa]
  rw [if_neg (by omega)]
  rw [hfl] at hr
  exact hr

/-- On a good state `emm_freeLog` of a live pointer returns; its passes start
at the block of the pointer, at the order of the request, and the state it
leaves is good. -/
theorem emm_freeLog_good {c : Config} (hc : c.WF) (s : Sys) (hg : Good c s) (e : Nat × Nat)
    (he : e ∈ s.live) :
    ∃ st' log fl fl', emm_freeLog c s.st e.1 = .ok (st', log) ∧
      Sim c s.st fl (s.live.map (blockOf c)) ∧ Inv c fl (s.live.map (blockOf c)) ∧
      Sim c st' fl' ((s.live.filter (fun a => a.1 ≠ e.1)).map (blockOf c)) ∧
      Inv c fl' ((s.live.filter (fun a => a.1 ≠ e.1)).map (blockOf c)) ∧
      IsBlock c (e.1 - 1 - c.base) (Krequired c e.2) ∧ c.base + 1 ≤ e.1 ∧
      MergeTrace c (Krequired c e.2) (e.1 - 1 - c.base) log ∧
      log.length + Krequired c e.2 ≤ c.MX_Ko ∧
      (log.length = 1 →
        fl' = updl fl (Krequired c e.2) ((e.1 - 1 - c.base) :: fl (Krequired c e.2))) := by
  obtain ⟨st', log, fl, fl', h1, h2, h3, h4, h5, h6, h7, h8, h9, h10, _⟩ :=
    emm_freeLog_effect hc s hg e he
  exact ⟨st', log, fl, fl', h1, h2, h3, h4, h5, h6, h7, h8, h9, h10⟩

/-! ## Buddies by address arithmetic -/

theorem xor_pow_aligned (n q : Nat) : (2 ^ n * q) ^^^ 2 ^ n = 2 ^ n * (q ^^^ 1) := by
  apply Nat.eq_of_testBit_eq
  intro j
  have h1 : Nat.testBit 1 (j - n) = decide (0 = j - n) := by
    have := @Nat.testBit_two_pow 0 (j - n)
    simpa using this
  rw [Nat.testBit_xor, Nat.testBit_mul_pow_two, Nat.testBit_mul_pow_two, Nat.testBit_xor,
    Nat.testBit_two_pow, h1]
  by_cases hj : n ≤ j
  · have e : decide (n = j) = decide (0 = j - n) := by
      apply decide_eq_decide.2; omega
    simp [hj, e]
  · have : ¬ n = j := by omega
    simp [hj, this]

/-- The buddy of an aligned block is at the offset with bit `MX_Ks + k`
toggled. -/
theorem buddy_xor (c : Config) (a k : Nat) (h : c.blockSize k ∣ a) :
    buddyOf c a k = a ^^^ 2 ^ (c.MX_Ks + k) := by
  have hq : 2 ^ (c.MX_Ks + k) * (a / c.blockSize k) = a := Nat.mul_div_cancel' h
  have hx := xor_pow_aligned (c.MX_Ks + k) (a / c.blockSize k)
  rw [hq] at hx
  rw [hx]
  rcases buddy_cases c a k h with ⟨h1, _, h3⟩ | ⟨h0, h1, _, h3⟩
  · rw [h1, xor_one_even _ h3, Nat.mul_add, hq, Nat.mul_one]
    rfl
  · rw [h1, xor_one_odd _ h3, Nat.mul_sub_one, hq]
    rfl

/-- The parent of an aligned block is at the offset with bit `MX_Ks + k`
cleared. -/
theorem parent_clear (c : Config) (a k : Nat) (h : c.blockSize k ∣ a) :
    parentOf c a k = a - 2 ^ (c.MX_Ks + k) * (a / 2 ^ (c.MX_Ks + k) % 2) := by
  have e : (2 : Nat) ^ (c.MX_Ks + k) = c.blockSize k := rfl
  rw [e]
  rcases buddy_cases c a k h with ⟨_, h2, h3⟩ | ⟨_, _, h2, h3⟩
  · rw [h2, h3]; simp
  · rw [h2, h3]; simp

/-! ## What a record of merges says -/

theorem MergeTrace.merges_length {c : Config} :
    ∀ (log : List Pass) (k a : Nat), MergeTrace c k a log →
      (merges log).length + 1 = log.length := by
  intro log
  induction log with
  | nil => intro k a h; exact absurd rfl h.ne_nil
  | cons x rest ih =>
    intro k a h
    cases rest with
    | nil =>
      have hx : x = ⟨k, c.base + a, none⟩ := h
      rw [hx]; rfl
    | cons y r =>
      have hx : x = ⟨k, c.base + a, some (c.base + buddyOf c a k)⟩ := h.1
      have ht : MergeTrace c (k + 1) (parentOf c a k) (y :: r) := h.2
      have := ih _ _ ht
      have hm : merges (x :: y :: r) = x :: merges (y :: r) := by
        rw [hx]; rfl
      rw [hm, List.length_cons, this]
      rfl

theorem MergeTrace.order_lt {c : Config} {log : List Pass} {k a : Nat}
    (h : MergeTrace c k a log) (hlen : log.length + k ≤ c.MX_Ko) :
    ∀ x, x ∈ log → x.order < c.MX_Ko := by
  intro x hx
  have hm : x.order ∈ log.map Pass.order := List.mem_map_of_mem _ hx
  rw [MergeTrace.orders log k a h, List.mem_range'_1] at hm
  omega

/-- In a record of merges every pass but the last merged its candidate with
the candidate's own buddy. -/
theorem MergeTrace.isMerge {c : Config} :
    ∀ (log : List Pass) (k a : Nat), c.blockSize k ∣ a → MergeTrace c k a log →
      log.Chain' (IsMerge c) := by
  intro log
  induction log with
  | nil => intro k a _ h; exact absurd rfl h.ne_nil
  | cons x rest ih =>
    intro k a hd h
    cases rest with
    | nil => exact List.chain'_singleton _
    | cons y r =>
      have hx : x = ⟨k, c.base + a, some (c.base + buddyOf c a k)⟩ := h.1
      have ht : MergeTrace c (k + 1) (parentOf c a k) (y :: r) := h.2
      have hy := ht.head_eq
      rw [List.chain'_cons]
      refine ⟨?_, ih _ _ (parent_dvd c a k) ht⟩
      have hpos := blockSize_pos c k
      have e : (2 : Nat) ^ (c.MX_Ks + k) = c.blockSize k := rfl
      refine ⟨a, buddyOf c a k, parentOf c a k, by rw [hx], by rw [hx], hy.2, ?_, ?_, ?_, ?_, ?_⟩
      · rw [hx]; exact buddy_xor c a k hd
      · rw [hx]; exact hy.1
      · rw [hx]; exact parent_clear c a k hd
      · rcases buddy_cases c a k hd with ⟨h1, h2, _⟩ | ⟨h0, h1, h2, _⟩
        · rw [h1, h2]; simp
        · rw [h1, h2]; simp
      · rw [hx]
        simp only [e]
        rcases buddy_cases c a k hd with ⟨h1, h2, _⟩ | ⟨h0, h1, h2, _⟩
        · rw [h1, h2]; simp
        · rw [h1, h2]
          rw [max_eq_left (Nat.sub_le _ _)]
          omega

/-! ## `emm_free` pass by pass -/

theorem emm_free_of_log {c : Config} {st st' : State} {ptr : Nat} {log : List Pass}
    (h : emm_freeLog c st ptr = .ok (st', log)) : emm_free c st ptr = .ok st' := by
  rw [← emm_freeLog_drop, h]
  rfl

/-- C14: in every state reached from `emm_init` by valid calls, `emm_free` of
a live pointer whose block has order `k` returns; its `RETRY` loop makes at
most `MX_Ko - 1 - k` merges, all of its passes but the last are merges, the
passes use the orders `k, k + 1, ..` one after the other, and every order that
indexes `memoryControlBlock` is below `MX_Ko`. -/
theorem free_merges_bounded (c : Config) (hc : c.WF) (ops : List Op) (s : Sys)
    (h : run c ops = .ok s) (e : Nat × Nat) (he : e ∈ s.live) :
    ∃ st' log, emm_freeLog c s.st e.1 = .ok (st', log) ∧ emm_free c s.st e.1 = .ok st' ∧
      savedOrder c s.st e.1 < c.MX_Ko ∧
      (merges log).length ≤ c.MX_Ko - 1 - savedOrder c s.st e.1 ∧
      (merges log).length + 1 = log.length ∧
      log.map Pass.order = List.range' (savedOrder c s.st e.1) log.length ∧
      ∀ x, x ∈ log → x.order < c.MX_Ko := by
  obtain ⟨st', log, fl, fl', hr, hs, _, _, _, hblk, _, hmt, hlen, _⟩ :=
    emm_freeLog_good hc s (run_good hc ops s h) e he
  have hsv : savedOrder c s.st e.1 = Krequired c e.2 :=
    hs.saved (blockOf c e) (List.mem_map_of_mem _ he)
  have hm := MergeTrace.merges_length log _ _ hmt
  rw [hsv]
  exact ⟨st', log, hr, emm_free_of_log hr, hblk.1, by omega, hm,
    MergeTrace.orders log _ _ hmt, hmt.order_lt hlen⟩

theorem free_merges_bounded_witness :
    (merges (outcome (zeroState, [])
      (emm_freeLog smallConfig (endOf smallConfig [.malloc 7]).st 65537)).2).length = 3 ∧
    ∃ st' log, emm_freeLog smallConfig (endOf smallConfig [.malloc 7]).st 65537 = .ok (st', log) ∧
      emm_free smallConfig (endOf smallConfig [.malloc 7]).st 65537 = .ok st' ∧
      savedOrder smallConfig (endOf smallConfig [.malloc 7]).st 65537 < smallConfig.MX_Ko ∧
      (merges log).length
        ≤ smallConfig.MX_Ko - 1 - savedOrder smallConfig (endOf smallConfig [.malloc 7]).st 65537 ∧
      (merges log).length + 1 = log.length ∧
      log.map Pass.order
        = List.range' (savedOrder smallConfig (endOf smallConfig [.malloc 7]).st 65537)
            log.length ∧
      ∀ x, x ∈ log → x.order < smallConfig.MX_Ko :=
  ⟨by decide!,
    free_merges_bounded smallConfig (by decide) [.malloc 7] (endOf smallConfig [.malloc 7])
      (outcome_ok _ _ (by decide!)) (65537, 7) (by decide!)⟩

/-- C17: in every state reached from `emm_init` by valid calls, `emm_free` of
a live pointer starts with the block of the pointer as candidate, and every
pass that merges the candidate at arena offset `a` and order `k` unlinks the
block at offset `a XOR 2^(MX_Ks + k)` and goes on, one order up, with the
block at offset `a` with bit `MX_Ks + k` cleared, which starts where the lower
of the two merged blocks starts and reaches to the end of the upper one. -/
theorem merge_own_buddy (c : Config) (hc : c.WF) (ops : List Op) (s : Sys)
    (h : run c ops = .ok s) (e : Nat × Nat) (he : e ∈ s.live) :
    ∃ st' log, emm_freeLog c s.st e.1 = .ok (st', log) ∧ emm_free c s.st e.1 = .ok st' ∧
      (∃ x rest, log = x :: rest ∧ x.order = savedOrder c s.st e.1 ∧ x.block = e.1 - 1) ∧
      (merges log).length + 1 = log.length ∧
      log.Chain' (IsMerge c) := by
  obtain ⟨st', log, fl, fl', hr, hs, _, _, _, hblk, hle, hmt, hlen, _⟩ :=
    emm_freeLog_good hc s (run_good hc ops s h) e he
  have hsv : savedOrder c s.st e.1 = Krequired c e.2 :=
    hs.saved (blockOf c e) (List.mem_map_of_mem _ he)
  refine ⟨st', log, hr, emm_free_of_log hr, ?_, MergeTrace.merges_length log _ _ hmt,
    MergeTrace.isMerge log _ _ hblk.2.1 hmt⟩
  cases hlog : log with
  | nil => exact absurd hlog hmt.ne_nil
  | cons x rest =>
    rw [hlog] at hmt
    have hx := hmt.head_eq
    refine ⟨x, rest, rfl, by rw [hsv]; exact hx.1, ?_⟩
    rw [hx.2]
    omega

theorem merge_own_buddy_witness :
    (outcome (zeroState, [])
        (emm_freeLog smallConfig (endOf smallConfig [.malloc 7]).st 65537)).2
      = [⟨0, 65536, some 65544⟩, ⟨1, 65536, some 65552⟩, ⟨2, 65536, some 65568⟩,
          ⟨3, 65536, none⟩] ∧
    ∃ st' log, emm_freeLog smallConfig (endOf smallConfig [.malloc 7]).st 65537 = .ok (st', log) ∧
      emm_free smallConfig (endOf smallConfig [.malloc 7]).st 65537 = .ok st' ∧
      (∃ x rest, log = x :: rest ∧
        x.order = savedOrder smallConfig (endOf smallConfig [.malloc 7]).st 65537 ∧
        x.block = 65537 - 1) ∧
      (merges log).length + 1 = log.length ∧
      log.Chain' (IsMerge smallConfig) :=
  ⟨by decide!,
    merge_own_buddy smallConfig (by decide) [.malloc 7] (endOf smallConfig [.malloc 7])
      (outcome_ok _ _ (by decide!)) (65537, 7) (by decide!)⟩

/-- C19: in every state reached from `emm_init` by valid calls, when the list
of the needed order has head `B`, `emm_malloc` returns `B + 1`, unlinks that
head and leaves every other free list as it was; and when `emm_free(p)` of a
block of order `k` makes no merge, it puts the block at the head of the list
of order `k`, so that the next `emm_malloc` whose needed order is `k` returns
`p`. -/
theorem lifo_lists (c : Config) (hc : c.WF) (ops : List Op) (s : Sys)
    (h : run c ops = .ok s) :
    (∀ size B t, Krequired c size < c.MX_Ko →
      freeList c s.st (Krequired c size) = some (B :: t) →
      ∃ st', emm_malloc c s.st size = .ok (st', B + 1) ∧
        freeList c st' (Krequired c size) = some t ∧
        ∀ i, i < c.MX_Ko → i ≠ Krequired c size → freeList c st' i = freeList c s.st i) ∧
    (∀ e, e ∈ s.live →
      ∃ st' log, emm_freeLog c s.st e.1 = .ok (st', log) ∧ emm_free c s.st e.1 = .ok st' ∧
        (merges log = [] →
          (∃ l, freeList c s.st (savedOrder c s.st e.1) = some l ∧
            freeList c st' (savedOrder c s.st e.1) = some ((e.1 - 1) :: l)) ∧
          ∀ size, Krequired c size = savedOrder c s.st e.1 →
            ∃ st'', emm_malloc c st' size = .ok (st'', e.1))) := by
  have hg := run_good hc ops s h
  constructor
  · intro size B t hK hhead
    obtain ⟨fl, hs, hi, _, hfl⟩ := hg.lists hc
    obtain ⟨B0, t0, hl, rfl, rfl⟩ := ghost_cons (hfl _ hK) hhead
    obtain ⟨st', h1, _, hs', hi'⟩ := emm_malloc_fast hc hs hi size hK hl
    refine ⟨st', h1, ?_, ?_⟩
    · rw [hs'.freeList_eq hc hi' hK, updl_same]
    · intro i hi1 hi2
      rw [hs'.freeList_eq hc hi' hi1, hfl i hi1, updl_other _ _ _ hi2]
  · intro e he
    obtain ⟨st', log, fl, fl', hr, hs, hi, hs', hi', hblk, hle, hmt, hlen, hone⟩ :=
      emm_freeLog_good hc s hg e he
    have hsv : savedOrder c s.st e.1 = Krequired c e.2 :=
      hs.saved (blockOf c e) (List.mem_map_of_mem _ he)
    refine ⟨st', log, hr, emm_free_of_log hr, ?_⟩
    intro hm
    have hm1 := MergeTrace.merges_length log _ _ hmt
    rw [hm] at hm1
    have hfl' := hone hm1.symm
    have hk := hblk.1
    have hp : c.base + (e.1 - 1 - c.base) = e.1 - 1 := by omega
    rw [hsv]
    constructor
    · refine ⟨_, hs.freeList_eq hc hi hk, ?_⟩
      rw [hs'.freeList_eq hc hi' hk, hfl', updl_same, List.map_cons, hp]
    · intro size hsize
      have hl : fl' (Krequired c size)
          = (e.1 - 1 - c.base) :: fl (Krequired c e.2) := by
        rw [hsize, hfl', updl_same]
      obtain ⟨st'', h1, _⟩ := emm_malloc_fast hc hs' hi' size (by rw [hsize]; exact hk) hl
      refine ⟨st'', ?_⟩
      rw [h1, hp]
      have : e.1 - 1 + 1 = e.1 := by omega
      rw [this]

theorem lifo_lists_witness :
    run smallConfig [.malloc 7, .malloc 7] = .ok (endOf smallConfig [.malloc 7, .malloc 7]) ∧
    freeList smallConfig (endOf smallConfig [.malloc 7, .malloc 7]).st (Krequired smallConfig 15)
      = some [65552] ∧
    (65537, 7) ∈ (endOf smallConfig [.malloc 7, .malloc 7]).live ∧
    merges (outcome (zeroState, [])
      (emm_freeLog smallConfig (endOf smallConfig [.malloc 7, .malloc 7]).st 65537)).2 = [] ∧
    ((∀ size B t, Krequired smallConfig size < smallConfig.MX_Ko →
      freeList smallConfig (endOf smallConfig [.malloc 7, .malloc 7]).st
        (Krequired smallConfig size) = some (B :: t) →
      ∃ st', emm_malloc smallConfig (endOf smallConfig [.malloc 7, .malloc 7]).st size
          = .ok (st', B + 1) ∧
        freeList smallConfig st' (Krequired smallConfig size) = some t ∧
        ∀ i, i < smallConfig.MX_Ko → i ≠ Krequired smallConfig size →
          freeList smallConfig st' i
            = freeList smallConfig (endOf smallConfig [.malloc 7, .malloc 7]).st i) ∧
    (∀ e, e ∈ (endOf smallConfig [.malloc 7, .malloc 7]).live →
      ∃ st' log, emm_freeLog smallConfig (endOf smallConfig [.malloc 7, .malloc 7]).st e.1
          = .ok (st', log) ∧
        emm_free smallConfig (endOf smallConfig [.malloc 7, .malloc 7]).st e.1 = .ok st' ∧
        (merges log = [] →
          (∃ l, freeList smallConfig (endOf smallConfig [.malloc 7, .malloc 7]).st
              (savedOrder smallConfig (endOf smallConfig [.malloc 7, .malloc 7]).st e.1)
                = some l ∧
            freeList smallConfig st'
              (savedOrder smallConfig (endOf smallConfig [.malloc 7, .malloc 7]).st e.1)
                = some ((e.1 - 1) :: l)) ∧
          ∀ size, Krequired smallConfig size
              = savedOrder smallConfig (endOf smallConfig [.malloc 7, .malloc 7]).st e.1 →
            ∃ st'', emm_malloc smallConfig st' size = .ok (st'', e.1)))) :=
  ⟨outcome_ok _ _ (by decide!), by decide!, by decide!, by decide!,
    lifo_lists smallConfig (by decide) [.malloc 7, .malloc 7]
      (endOf smallConfig [.malloc 7, .malloc 7]) (outcome_ok _ _ (by decide!))⟩

/-! ## `emm_init` on a state reached by calls -/

/-- A list whose nodes do not overlap the `next` field of the node at arena
offset 0, walked after that field has been set to `NULL`. -/
theorem walk_cut (c : Config) (st : State) (mcb : Nat → Nat) :
    ∀ (n p : Nat) (l : List Nat), walk c st n p = some l →
      (∀ q, q ∈ l → q = c.base ∨ c.base + 4 ≤ q) →
      walk c ⟨wr32 st.mainMemory 0 0, mcb⟩ n p = some (cutAfter c.base l) := by
  intro n
  induction n with
  | zero => intro p l h; simp [walk] at h
  | succ n ih =>
    intro p l h hq
    unfold walk at h ⊢
    by_cases hp : p = 0
    · rw [if_pos hp] at h ⊢
      cases h
      rfl
    · rw [if_neg hp] at h ⊢
      by_cases hv : c.validItem p
      · rw [if_pos hv] at h ⊢
        cases ht : walk c st n (rd32 st.mainMemory (p - c.base)) with
        | none => rw [ht] at h; cases h
        | some t =>
          rw [ht] at h
          simp only [Option.map_some'] at h
          cases h
          by_cases hpb : p = c.base
          · subst hpb
            simp only [Nat.sub_self]
            rw [rd32_wr32 _ _ _ (by norm_num)]
            cases n with
            | zero => simp [walk] at ht
            | succ n =>
              rw [walk_null]
              simp [cutAfter]
          · have hge : c.base + 4 ≤ p := by
              rcases hq p (List.mem_cons_self _ _) with h1 | h1
              · exact absurd h1 hpb
              · exact h1
            have hrd : rd32 (wr32 st.mainMemory 0 0) (p - c.base)
                = rd32 st.mainMemory (p - c.base) :=
              rd32_congr (fun x hx1 _ => wr32_other _ _ _ (by omega))
            simp only
            rw [hrd, ih _ _ ht (fun q hq' => hq q (List.mem_cons_of_mem _ hq'))]
            simp [cutAfter, hpb]
      · rw [if_neg hv] at h
        cases h

theorem cutAfter_eq_nil (b : Nat) (l : List Nat) : cutAfter b l = [] ↔ l = [] := by
  cases l with
  | nil => simp [cutAfter]
  | cons a t =>
    simp only [cutAfter]
    split_ifs <;> simp

/-- C11 (amended): on every prior state `emm_init` returns, leaves the block at
arena offset 0 alone on the list of order `MX_Ko - 1`, and changes no other
list head and no arena byte from offset 4 on; so when the other heads were
`NULL` (as in the statically initialised data) exactly one free block exists.
On a state reached by `emm_malloc` and `emm_free` calls, every list below
`MX_Ko - 1` keeps its nodes up to and including the block at offset 0 (all of
its nodes when that block is not on it), and the registry is the one of the
first `emm_init` exactly when those lists were empty before the call. -/
theorem emm_init_spec (c : Config) (hc : c.WF) :
    (∀ st : State, ∃ st', emm_init c st = .ok st' ∧
      freeList c st' (c.MX_Ko - 1) = some [c.base] ∧
      (∀ k, k ≠ c.MX_Ko - 1 → st'.memoryControlBlock k = st.memoryControlBlock k) ∧
      (∀ i, 4 ≤ i → st'.mainMemory i = st.mainMemory i) ∧
      ((∀ k, k < c.MX_Ko - 1 → st.memoryControlBlock k = 0) →
        registry c st' = topRegistry c)) ∧
    (∀ ops s, run c ops = .ok s → ∃ st', emm_init c s.st = .ok st' ∧
      (∀ k, k < c.MX_Ko - 1 → ∃ l, freeList c s.st k = some l ∧
        freeList c st' k = some (cutAfter c.base l)) ∧
      (registry c st' = topRegistry c ↔
        ∀ k, k < c.MX_Ko - 1 → freeList c s.st k = some [])) := by
  have hbase := hc.2.2.2.1
  have hko := hc.2.1
  constructor
  · intro st
    obtain ⟨h1, h2⟩ := emm_init_any hc st
    refine ⟨_, h1, h2, fun k hk => upd_other _ _ _ hk,
      fun i hi => wr32_other _ _ _ (by omega), ?_⟩
    intro hz
    unfold registry topRegistry
    apply List.map_congr_left
    intro k hk
    by_cases hkk : k = c.MX_Ko - 1
    · rw [if_pos hkk, hkk]; exact h2
    · rw [if_neg hkk]
      apply freeList_null
      simp only
      rw [upd_other _ _ _ hkk]
      exact hz k (by have := List.mem_range.1 hk; omega)
  · intro ops s h
    obtain ⟨fl, _, hi, _, hfl⟩ := (run_good hc ops s h).lists hc
    obtain ⟨h1, h2⟩ := emm_init_any hc s.st
    have hcut : ∀ k, k < c.MX_Ko - 1 →
        freeList c ⟨wr32 s.st.mainMemory 0 0, upd s.st.memoryControlBlock (c.MX_Ko - 1) c.base⟩ k
          = some (cutAfter c.base ((fl k).map (fun a => c.base + a))) := by
      intro k hk
      have hfk := hfl k (by omega)
      unfold freeList at hfk ⊢
      simp only
      rw [upd_other _ _ _ (by omega)]
      apply walk_cut c s.st _ _ _ _ hfk
      intro q hq
      obtain ⟨a, ha, rfl⟩ := List.mem_map.1 hq
      obtain ⟨m, hm⟩ := (hi.free_blk k a ha).eight_dvd hc
      omega
    refine ⟨_, h1, fun k hk => ⟨_, hfl k (by omega), hcut k hk⟩, ?_⟩
    unfold registry topRegistry
    rw [List.map_inj_left]
    constructor
    · intro hall k hk
      have := hall k (List.mem_range.2 (by omega))
      rw [if_neg (by omega), hcut k hk] at this
      rw [hfl k (by omega), (cutAfter_eq_nil _ _).1 (Option.some.inj this)]
    · intro hall k hk
      by_cases hkk : k = c.MX_Ko - 1
      · rw [if_pos hkk, hkk]; exact h2
      · have hk' : k < c.MX_Ko - 1 := by have := List.mem_range.1 hk; omega
        rw [if_neg hkk, hcut k hk']
        have := hall k hk'
        rw [hfl k (by omega)] at this
        rw [Option.some.inj this]
        rfl

theorem emm_init_spec_witness :
    smallConfig.WF ∧
    (∀ k, k < smallConfig.MX_Ko - 1 → zeroState.memoryControlBlock k = 0) ∧
    (∃ st', emm_init smallConfig zeroState = .ok st' ∧
      registry smallConfig st' = topRegistry smallConfig) ∧
    run smallConfig [.malloc 7, .malloc 7, .malloc 7, .malloc 7, .free 65553, .free 65537]
      = .ok (endOf smallConfig
          [.malloc 7, .malloc 7, .malloc 7, .malloc 7, .free 65553, .free 65537]) ∧
    registry smallConfig (endOf smallConfig
        [.malloc 7, .malloc 7, .malloc 7, .malloc 7, .free 65553, .free 65537]).st
      = [some [65536, 65552], some [], some [65568], some []] ∧
    registry smallConfig (outcome zeroState (emm_init smallConfig (endOf smallConfig
        [.malloc 7, .malloc 7, .malloc 7, .malloc 7, .free 65553, .free 65537]).st))
      = [some [65536], some [], some [65568], some [65536]] ∧
    (∃ st', emm_init smallConfig (endOf smallConfig
        [.malloc 7, .malloc 7, .malloc 7, .malloc 7, .free 65553, .free 65537]).st = .ok st' ∧
      (∀ k, k < smallConfig.MX_Ko - 1 → ∃ l,
        freeList smallConfig (endOf smallConfig
          [.malloc 7, .malloc 7, .malloc 7, .malloc 7, .free 65553, .free 65537]).st k = some l ∧
        freeList smallConfig st' k = some (cutAfter smallConfig.base l)) ∧
      (registry smallConfig st' = topRegistry smallConfig ↔
        ∀ k, k < smallConfig.MX_Ko - 1 →
          freeList smallConfig (endOf smallConfig
            [.malloc 7, .malloc 7, .malloc 7, .malloc 7, .free 65553, .free 65537]).st k
              = some [])) :=
  ⟨by decide, by decide,
    (match (emm_init_spec smallConfig (by decide)).1 zeroState with
      | ⟨st', h1, _, _, _, h5⟩ => ⟨st', h1, h5 (by decide)⟩),
    outcome_ok _ _ (by decide!), by decide!, by decide!,
    (emm_init_spec smallConfig (by decide)).2 _ _ (outcome_ok _ _ (by decide!))⟩

/-! ## Coalescing is maximal -/

/-- The tier-relative address of the buddy is the one of the block with its
lowest bit toggled. -/
theorem oaddr_xor {c : Config} (hc : c.WF) {a k : Nat} (h : IsBlock c a k) :
    (a / c.blockSize k) ^^^ 1 = buddyOf c a k / c.blockSize k := by
  have ht := target_eq hc h
  have hq := oaddr_lt hc h
  have hlt : (a / c.blockSize k) ^^^ 1 < 65536 := by
    rcases Nat.mod_two_eq_zero_or_one (a / c.blockSize k) with h0 | h1
    · rw [xor_one_even _ h0]; omega
    · rw [xor_one_odd _ h1]; omega
  rw [Nat.mod_eq_of_lt hlt] at ht
  exact ht

theorem Sim.noFreeBuddies {c : Config} {st : State} {fl : Nat → List Nat}
    {owned : List (Nat × Nat)} (hc : c.WF) (hs : Sim c st fl owned) (hi : Inv c fl owned) :
    NoFreeBuddies c st := by
  intro k hk
  refine ⟨_, hs.freeList_eq hc hi hk, ?_⟩
  intro a ha b hb heq
  obtain ⟨x, hx, rfl⟩ := List.mem_map.1 ha
  obtain ⟨y, hy, rfl⟩ := List.mem_map.1 hb
  simp only [Nat.add_sub_cancel_left] at heq
  rw [shr_eq_div, shr_eq_div] at heq
  have hbx := hi.free_blk k x hx
  have hby := hi.free_blk k y hy
  rw [oaddr_xor hc hbx] at heq
  have := aligned_div_inj (buddy_dvd c x k hbx.2.1) hby.2.1 heq
  exact hi.nobuddy k x hx (this ▸ hy)

/-- C13: in every state reached from `emm_init` by `emm_malloc` calls and
`emm_free` calls on live pointers, no free list holds two blocks whose
tier-relative addresses differ only in the lowest bit; and `emm_free` of a
live pointer returns and collapses the whole chain of free buddies within the
call: its passes start at the block of the pointer and go up one order at a
time, every pass but the last finds the buddy of its candidate on the list of
its order and unlinks it, the last pass finds no buddy of its candidate on the
list of its order and puts the candidate at the head of that list, the lists
of all other orders stay as they were, and no free list of the state it
leaves holds two buddies. -/
theorem no_free_buddies (c : Config) (hc : c.WF) (ops : List Op) :
    (run c ops = .error .notLive ∨ ∃ s, run c ops = .ok s) ∧
    ∀ s, run c ops = .ok s →
      NoFreeBuddies c s.st ∧
      ∀ e, e ∈ s.live →
        ∃ st' log, emm_freeLog c s.st e.1 = .ok (st', log) ∧ emm_free c s.st e.1 = .ok st' ∧
          (∃ x rest, log = x :: rest ∧ x.order = savedOrder c s.st e.1 ∧ x.block = e.1 - 1) ∧
          (merges log).length + 1 = log.length ∧
          log.Chain' (IsMerge c) ∧
          (∀ x, x ∈ log → x.order < c.MX_Ko ∧ PassEffect c s.st st' x) ∧
          (∀ i, i < c.MX_Ko → (∀ x, x ∈ log → x.order ≠ i) →
            freeList c st' i = freeList c s.st i) ∧
          NoFreeBuddies c st' := by
  refine ⟨run_returns hc ops, ?_⟩
  intro s h
  have hg := run_good hc ops s h
  constructor
  · obtain ⟨fl, hs, hi, _⟩ := hg
    exact hs.noFreeBuddies hc hi
  · intro e he
    obtain ⟨st', log, fl, fl', hr, hs, hi, hs', hi', hblk, hle, hmt, hlen, _, he1, he2⟩ :=
      emm_freeLog_effect hc s hg e he
    have hsv : savedOrder c s.st e.1 = Krequired c e.2 :=
      hs.saved (blockOf c e) (List.mem_map_of_mem _ he)
    have hord := hmt.order_lt hlen
    refine ⟨st', log, hr, emm_free_of_log hr, ?_, MergeTrace.merges_length log _ _ hmt,
      MergeTrace.isMerge log _ _ hblk.2.1 hmt, ?_, ?_, hs'.noFreeBuddies hc hi'⟩
    · cases hlog : log with
      | nil => exact absurd hlog hmt.ne_nil
      | cons x rest =>
        rw [hlog] at hmt
        have hx := hmt.head_eq
        refine ⟨x, rest, rfl, by rw [hsv]; exact hx.1, ?_⟩
        rw [hx.2]
        omega
    · intro x hx
      have hk := hord x hx
      refine ⟨hk, ?_⟩
      obtain ⟨y, hy1, hy2, hy3⟩ := he1 x hx
      have hf := hs.freeList_eq hc hi hk
      have hf' := hs'.freeList_eq hc hi' hk
      have hyb : x.block - c.base = y := by rw [hy1]; omega
      rcases hy3 with ⟨l1, l2, hb, hl, hl'⟩ | ⟨hb, hn, hl'⟩
      · left
        refine ⟨c.base + buddyOf c y x.order, l1.map (fun a => c.base + a),
          l2.map (fun a => c.base + a), hb, ?_, ?_, ?_⟩
        · rw [hyb, Nat.add_sub_cancel_left, shr_eq_div, shr_eq_div, oaddr_xor hc hy2]
        · rw [hf, hl, List.map_append, List.map_cons]
        · rw [hf', hl', List.map_append]
      · right
        refine ⟨hb, _, hf, ?_, ?_⟩
        · intro q hq heq
          obtain ⟨z, hz, rfl⟩ := List.mem_map.1 hq
          rw [hyb, Nat.add_sub_cancel_left, shr_eq_div, shr_eq_div, oaddr_xor hc hy2] at heq
          have := aligned_div_inj (hi.free_blk _ z hz).2.1 (buddy_dvd c y _ hy2.2.1) heq
          exact hn (this ▸ hz)
        · rw [hf', hl', List.map_cons, hy1]
    · intro i hi0 hne
      rw [hs'.freeList_eq hc hi' hi0, hs.freeList_eq hc hi hi0, he2 i hne]

theorem no_free_buddies_witness :
    smallConfig.WF ∧
    run smallConfig [.malloc 7] = .ok (endOf smallConfig [.malloc 7]) ∧
    registry smallConfig (endOf smallConfig [.malloc 7]).st
      = [some [65544], some [65552], some [65568], some []] ∧
    (outcome (zeroState, [])
        (emm_freeLog smallConfig (endOf smallConfig [.malloc 7]).st 65537)).2
      = [⟨0, 65536, some 65544⟩, ⟨1, 65536, some 65552⟩, ⟨2, 65536, some 65568⟩,
          ⟨3, 65536, none⟩] ∧
    registry smallConfig (outcome zeroState
        (emm_free smallConfig (endOf smallConfig [.malloc 7]).st 65537))
      = [some [], some [], some [], some [65536]] ∧
    (NoFreeBuddies smallConfig (endOf smallConfig [.malloc 7]).st ∧
      ∀ e, e ∈ (endOf smallConfig [.malloc 7]).live →
        ∃ st' log, emm_freeLog smallConfig (endOf smallConfig [.malloc 7]).st e.1
            = .ok (st', log) ∧
          emm_free smallConfig (endOf smallConfig [.malloc 7]).st e.1 = .ok st' ∧
          (∃ x rest, log = x :: rest ∧
            x.order = savedOrder smallConfig (endOf smallConfig [.malloc 7]).st e.1 ∧
            x.block = e.1 - 1) ∧
          (merges log).length + 1 = log.length ∧
          log.Chain' (IsMerge smallConfig) ∧
          (∀ x, x ∈ log → x.order < smallConfig.MX_Ko ∧
            PassEffect smallConfig (endOf smallConfig [.malloc 7]).st st' x) ∧
          (∀ i, i < smallConfig.MX_Ko → (∀ x, x ∈ log → x.order ≠ i) →
            freeList smallConfig st' i
              = freeList smallConfig (endOf smallConfig [.malloc 7]).st i) ∧
          NoFreeBuddies smallConfig st') :=
  ⟨by decide, outcome_ok _ _ (by decide!), by decide!, by decide!, by decide!,
    (no_free_buddies smallConfig (by decide) [.malloc 7]).2 _ (outcome_ok _ _ (by decide!))⟩

end EMM
